import Mathlib

set_option linter.unusedSectionVars false

open List

/-!
Verification of `duplicates.v2.2.py` (text-duplicate-finder).

This file contains a shallow embedding of the pure core of the program:
line normalization, hashing (as a pluggable function parameter, as the
program treats the hash algorithm as pluggable), the input-file ordering,
the FAST / SAFE / DISK engines' duplicate detection, the report writer,
the strategy selector and the deletion pipeline — together with theorems
about the claims of the specification.

Conventions of the embedding:
* Python strings are Lean `String`s; a text file is its list of lines
  (newline characters stripped, since every scan in the source immediately
  strips them along with surrounding whitespace).
* Python dicts are association lists with insertion-order semantics:
  assignment to an existing key keeps its position and replaces the value,
  assignment to a fresh key appends (`upsert` / `dinsert` below).
* The 64-bit hash (xxh64 hexdigest with fixed seed) is an opaque parameter
  `H : String → String`; theorems that need collision-freeness state it as
  a hypothesis over the corpus, exactly as the specification does.
* Python floats in the strategy selector are modelled as rationals.
-/

/-- ASCII approximation of the whitespace class stripped by Python `str.strip()`. -/
def isPySpace (c : Char) : Bool :=
  c = ' ' || c = '\t' || c = '\n' || c = '\r' || c = '\x0b' || c = '\x0c'

/-- Model of Python `str.strip()` on character lists. -/
def pyStripChars (cs : List Char) : List Char :=
  ((cs.dropWhile isPySpace).reverse.dropWhile isPySpace).reverse

/-- Model of Python `str.strip()`. -/
def pyStrip (s : String) : String := (pyStripChars s.data).asString

/-- Split off everything before the first occurrence of `d`; `none` if `d` does not occur. -/
def splitFirst (d : Char) : List Char → Option (List Char × List Char)
  | [] => none
  | c :: cs =>
    if c = d then some ([], cs)
    else
      match splitFirst d cs with
      | none => none
      | some (a, b) => some (c :: a, b)

/-- Python `s.split(d, m)` (single-character separator `d`, maxsplit `m`) on character lists. -/
def pySplitChars (d : Char) : Nat → List Char → List (List Char)
  | 0, cs => [cs]
  | m + 1, cs =>
    match splitFirst d cs with
    | none => [cs]
    | some (a, b) => a :: pySplitChars d m b

/-- Python `s.split(d, m)`. -/
def pySplit (s : String) (d : Char) (m : Nat) : List String :=
  (pySplitChars d m s.data).map List.asString

/-- Python `s.split(d)` without a maxsplit bound (`s.length` splits always suffice). -/
def pySplitAllChars (d : Char) (cs : List Char) : List (List Char) :=
  pySplitChars d cs.length cs

/-- Python `s.split(d)`: the full field list of `s`. -/
def pySplitAll (s : String) (d : Char) : List String :=
  (pySplitAllChars d s.data).map List.asString

/-- Python `s[:n]`. -/
def pyTake (s : String) (n : Nat) : String := (s.data.take n).asString

/-- `normalize_line` (duplicates.v2.2.py line 154): strip the line, split on the
delimiter with maxsplit `count`, keep the first `count` parts and rejoin. -/
def normalize_line (line : String) (delimiter : Char) (count : Nat) : String :=
  String.intercalate (String.singleton delimiter)
    ((pySplit (pyStrip line) delimiter count).take count)

/-- Modelled from the spec: the claim C5 reading of the NormalizedKey, in which
"the Kth field retains any trailing delimiter-containing residue of the line":
split with at most `count - 1` splits and keep every part, so that everything
after the `(count-1)`th delimiter stays inside the key's last segment. -/
def normalize_line_claim (line : String) (delimiter : Char) (count : Nat) : String :=
  String.intercalate (String.singleton delimiter)
    (pySplit (pyStrip line) delimiter (count - 1))

theorem splitFirst_eq_some (d : Char) :
    ∀ cs a b, splitFirst d cs = some (a, b) → cs = a ++ d :: b := by
  intro cs
  induction cs with
  | nil => intro a b h; simp [splitFirst] at h
  | cons c cs ih =>
    intro a b h
    by_cases hc : c = d
    · simp [splitFirst, hc] at h
      obtain ⟨ha, hb⟩ := h
      subst ha; subst hb; simp [hc]
    · cases hs : splitFirst d cs with
      | none => simp [splitFirst, hc, hs] at h
      | some p =>
        obtain ⟨a', b'⟩ := p
        simp [splitFirst, hc, hs] at h
        obtain ⟨ha, hb⟩ := h
        subst ha; subst hb
        have := ih a' b' hs
        rw [this]
        simp

theorem splitFirst_length (d : Char) (cs a b : List Char)
    (h : splitFirst d cs = some (a, b)) : b.length < cs.length := by
  have := splitFirst_eq_some d cs a b h
  subst this
  simp
  omega

/-- The maxsplit bound is irrelevant once it is at least the length of the input. -/
theorem pySplitChars_congr (d : Char) :
    ∀ (k : Nat) (cs : List Char) (n1 n2 : Nat), cs.length ≤ k →
      cs.length ≤ n1 → cs.length ≤ n2 →
      pySplitChars d n1 cs = pySplitChars d n2 cs := by
  intro k
  induction k with
  | zero =>
    intro cs n1 n2 hk _ _
    have : cs = [] := List.length_eq_zero.mp (Nat.le_zero.mp hk)
    subst this
    cases n1 <;> cases n2 <;> simp [pySplitChars, splitFirst]
  | succ k ih =>
    intro cs n1 n2 hk h1 h2
    cases cs with
    | nil => cases n1 <;> cases n2 <;> simp [pySplitChars, splitFirst]
    | cons c cs' =>
      cases n1 with
      | zero => simp at h1
      | succ m1 =>
        cases n2 with
        | zero => simp at h2
        | succ m2 =>
          cases hs : splitFirst d (c :: cs') with
          | none => simp only [pySplitChars, hs]
          | some p =>
            obtain ⟨a, b⟩ := p
            simp only [pySplitChars, hs]
            have hlen := splitFirst_length d _ a b hs
            have hblen : b.length ≤ k := by
              have : (c :: cs').length ≤ k + 1 := hk
              omega
            have hb1 : b.length ≤ m1 := by
              have : (c :: cs').length ≤ m1 + 1 := h1
              omega
            have hb2 : b.length ≤ m2 := by
              have : (c :: cs').length ≤ m2 + 1 := h2
              omega
            rw [ih b m1 m2 hblen hb1 hb2]

/-- Taking the first `m` parts is independent of the maxsplit bound whenever the
bound is at least `m`. -/
theorem pySplitChars_take (d : Char) :
    ∀ (m n1 n2 : Nat) (cs : List Char), m ≤ n1 → m ≤ n2 →
      (pySplitChars d n1 cs).take m = (pySplitChars d n2 cs).take m := by
  intro m
  induction m with
  | zero => intro n1 n2 cs _ _; simp
  | succ m ih =>
    intro n1 n2 cs h1 h2
    cases n1 with
    | zero => omega
    | succ k1 =>
      cases n2 with
      | zero => omega
      | succ k2 =>
        cases hs : splitFirst d cs with
        | none => simp only [pySplitChars, hs]
        | some p =>
          obtain ⟨a, b⟩ := p
          simp only [pySplitChars, hs, List.take_succ_cons]
          rw [ih k1 k2 b (by omega) (by omega)]

/-- C5 (amended core): the normalized key equals the first `count` genuine
fields of the stripped line (the full, unbounded split), rejoined with the
delimiter; any residue after the `count`th field is dropped. -/
theorem normalize_line_eq_take_fields (line : String) (d : Char) (count : Nat) :
    normalize_line line d count =
      String.intercalate (String.singleton d) ((pySplitAll (pyStrip line) d).take count) := by
  unfold normalize_line pySplit pySplitAll pySplitAllChars
  rw [← List.map_take, ← List.map_take]
  by_cases h : count ≤ (pyStrip line).data.length
  · rw [pySplitChars_take d count count (pyStrip line).data.length _ (Nat.le_refl _) h]
  · push_neg at h
    rw [pySplitChars_congr d (pyStrip line).data.length (pyStrip line).data count
      (pyStrip line).data.length (Nat.le_refl _) (Nat.le_of_lt h) (Nat.le_refl _)]

/-- C5: the claim that the NormalizedKey's last field "retains any trailing
delimiter-containing residue" is false on the code: for the line `a;b;c` with
K = 2 the code produces `a;b` (the residue `c` is dropped), while the claim's
reading produces `a;b;c`. -/
theorem claim_C5_counterexample :
    normalize_line "a;b;c" ';' 2 = "a;b" ∧
    normalize_line_claim "a;b;c" ';' 2 = "a;b;c" ∧
    normalize_line "a;b;c" ';' 2 ≠ normalize_line_claim "a;b;c" ';' 2 := by
  refine ⟨by decide, by decide, by decide⟩

/-- C5 (amended): for every raw line, the NormalizedKey is the concatenation of
the first K delimiter-separated fields of the trimmed line rejoined with the
delimiter, computed with at most K splits and keeping only the first K split
segments, so that for a line with more than K fields everything after the Kth
field (the trailing residue) is dropped from the key. -/
theorem claim_C5_amended (line : String) (delimiter : Char) (count : Nat) :
    normalize_line line delimiter count =
      String.intercalate (String.singleton delimiter)
        ((pySplitAll (pyStrip line) delimiter).take count) :=
  normalize_line_eq_take_fields line delimiter count

section Dict

variable {K : Type} [DecidableEq K] {V : Type}

/-- Lookup in an insertion-ordered association list (Python `d[k]` / `k in d`). -/
def dGet (m : List (K × V)) (k : K) : Option V :=
  (m.find? (fun p => p.1 = k)).map (·.2)

/-- The key list of an association list, in insertion order. -/
def keysOf (m : List (K × V)) : List K := m.map (·.1)

/-- Python dict assignment with a value computed from the previous binding:
an existing key keeps its position and gets the new value, a fresh key is
appended at the end. -/
def upsert (m : List (K × V)) (k : K) (f : Option V → V) : List (K × V) :=
  match m with
  | [] => [(k, f none)]
  | (k', v') :: r => if k' = k then (k', f (some v')) :: r else (k', v') :: upsert r k f

/-- Python dict assignment `d[k] = v`. -/
def dinsert (m : List (K × V)) (k : K) (v : V) : List (K × V) :=
  upsert m k (fun _ => v)

@[simp] theorem keysOf_nil : keysOf ([] : List (K × V)) = [] := rfl

@[simp] theorem keysOf_cons (k : K) (v : V) (r : List (K × V)) :
    keysOf ((k, v) :: r) = k :: keysOf r := rfl

theorem keysOf_append (m1 m2 : List (K × V)) :
    keysOf (m1 ++ m2) = keysOf m1 ++ keysOf m2 := by
  simp [keysOf]

@[simp] theorem dlookup_nil (k : K) : dGet ([] : List (K × V)) k = none := rfl

theorem dlookup_cons (k' : K) (v' : V) (r : List (K × V)) (k : K) :
    dGet ((k', v') :: r) k = if k' = k then some v' else dGet r k := by
  by_cases h : k' = k <;> simp [dGet, List.find?, h]

theorem dlookup_isSome_iff_mem_keysOf (m : List (K × V)) (k : K) :
    (dGet m k).isSome = true ↔ k ∈ keysOf m := by
  induction m with
  | nil => simp
  | cons e r ih =>
    obtain ⟨k', v'⟩ := e
    rw [dlookup_cons]
    by_cases h : k' = k
    · subst h; simp
    · have h' : ¬ (k = k') := fun hh => h hh.symm
      simp only [if_neg h, keysOf_cons, List.mem_cons]
      rw [ih]
      simp [h']

theorem dlookup_eq_none_iff_not_mem (m : List (K × V)) (k : K) :
    dGet m k = none ↔ k ∉ keysOf m := by
  rw [← dlookup_isSome_iff_mem_keysOf]
  cases dGet m k <;> simp

theorem dlookup_upsert_self (m : List (K × V)) (k : K) (f : Option V → V) :
    dGet (upsert m k f) k = some (f (dGet m k)) := by
  induction m with
  | nil => simp [upsert, dlookup_cons]
  | cons e r ih =>
    obtain ⟨k', v'⟩ := e
    by_cases h : k' = k
    · simp [upsert, h, dlookup_cons]
    · simp [upsert, h, dlookup_cons, ih]

theorem dlookup_upsert_ne (m : List (K × V)) (k k0 : K) (f : Option V → V)
    (h : k0 ≠ k) : dGet (upsert m k f) k0 = dGet m k0 := by
  have h' : ¬ (k = k0) := fun hh => h hh.symm
  induction m with
  | nil => simp [upsert, dlookup_cons, h']
  | cons e r ih =>
    obtain ⟨k', v'⟩ := e
    by_cases hk : k' = k
    · subst hk
      simp [upsert, dlookup_cons, h']
    · simp [upsert, hk, dlookup_cons, ih]

theorem keysOf_upsert (m : List (K × V)) (k : K) (f : Option V → V) :
    keysOf (upsert m k f) = if k ∈ keysOf m then keysOf m else keysOf m ++ [k] := by
  induction m with
  | nil => simp [upsert]
  | cons e r ih =>
    obtain ⟨k', v'⟩ := e
    by_cases h : k' = k
    · subst h
      simp [upsert]
    · have h' : ¬ (k = k') := fun hh => h hh.symm
      simp only [upsert, if_neg h, keysOf_cons]
      rw [ih]
      by_cases hm : k ∈ keysOf r
      · simp [hm, h']
      · simp [hm, h']

theorem mem_keysOf_upsert (m : List (K × V)) (k k0 : K) (f : Option V → V) :
    k0 ∈ keysOf (upsert m k f) ↔ k0 ∈ keysOf m ∨ k0 = k := by
  rw [keysOf_upsert]
  by_cases h : k ∈ keysOf m
  · simp only [if_pos h]
    constructor
    · exact Or.inl
    · rintro (hh | hh)
      · exact hh
      · subst hh; exact h
  · simp [if_neg h]

theorem nodup_keysOf_upsert (m : List (K × V)) (k : K) (f : Option V → V)
    (h : (keysOf m).Nodup) : (keysOf (upsert m k f)).Nodup := by
  rw [keysOf_upsert]
  by_cases hm : k ∈ keysOf m
  · simpa [hm]
  · simp only [if_neg hm]
    simpa [List.nodup_append, hm] using h

/-- Extensionality for insertion-ordered dicts: equal key sequences without
duplicates and equal lookups force equal dicts. -/
theorem dict_ext : ∀ (m1 m2 : List (K × V)), keysOf m1 = keysOf m2 →
    (keysOf m1).Nodup → (∀ k, dGet m1 k = dGet m2 k) → m1 = m2 := by
  intro m1
  induction m1 with
  | nil =>
    intro m2 hk _ _
    cases m2 with
    | nil => rfl
    | cons e r => obtain ⟨k2, v2⟩ := e; simp at hk
  | cons e r ih =>
    intro m2 hk hn hl
    obtain ⟨k', v'⟩ := e
    cases m2 with
    | nil => simp at hk
    | cons e2 r2 =>
      obtain ⟨k2, v2⟩ := e2
      simp only [keysOf_cons, List.cons.injEq] at hk
      obtain ⟨hke, hkr⟩ := hk
      subst hke
      have hv : v' = v2 := by
        have := hl k'
        simp [dlookup_cons] at this
        exact this
      subst hv
      simp only [keysOf_cons, List.nodup_cons] at hn
      have hknot : k' ∉ keysOf r := hn.1
      refine congrArg _ (ih r2 hkr hn.2 ?_)
      intro k
      by_cases hkk : k = k'
      · subst hkk
        rw [(dlookup_eq_none_iff_not_mem r k).mpr hknot,
          (dlookup_eq_none_iff_not_mem r2 k).mpr (by rw [← hkr]; exact hknot)]
      · have hne : ¬ (k' = k) := fun hh => hkk hh.symm
        have := hl k
        rw [dlookup_cons, dlookup_cons, if_neg hne, if_neg hne] at this
        exact this

theorem dlookup_append_left (m1 m2 : List (K × V)) (k : K) (h : k ∈ keysOf m1) :
    dGet (m1 ++ m2) k = dGet m1 k := by
  induction m1 with
  | nil => simp at h
  | cons e r ih =>
    obtain ⟨k', v'⟩ := e
    rw [List.cons_append, dlookup_cons, dlookup_cons]
    by_cases hk : k' = k
    · simp [hk]
    · have : k ∈ keysOf r := by
        simp at h
        rcases h with h | h
        · exact absurd h.symm hk
        · exact h
      simp [hk, ih this]

theorem dlookup_append_right (m1 m2 : List (K × V)) (k : K) (h : k ∉ keysOf m1) :
    dGet (m1 ++ m2) k = dGet m2 k := by
  induction m1 with
  | nil => simp
  | cons e r ih =>
    obtain ⟨k', v'⟩ := e
    simp only [keysOf_cons, List.mem_cons] at h
    push_neg at h
    rw [List.cons_append, dlookup_cons, if_neg (fun hh => h.1 hh.symm)]
    exact ih h.2

end Dict

/-- Lexicographic comparison of character lists by code point, the order Python
uses to compare and sort strings. -/
def lexLe : List Char → List Char → Bool
  | [], _ => true
  | _ :: _, [] => false
  | a :: as, b :: bs => if a = b then lexLe as bs else decide (a.toNat < b.toNat)

/-- Python string comparison `s <= t`. -/
def sLe (s t : String) : Bool := lexLe s.data t.data

theorem charToNat_inj {a b : Char} (h : a.toNat = b.toNat) : a = b :=
  Char.ofNat_toNat a ▸ Char.ofNat_toNat b ▸ congrArg Char.ofNat h

theorem lexLe_refl : ∀ cs, lexLe cs cs = true := by
  intro cs
  induction cs with
  | nil => rfl
  | cons c cs ih => simp [lexLe, ih]

theorem lexLe_total : ∀ as bs, lexLe as bs = true ∨ lexLe bs as = true := by
  intro as
  induction as with
  | nil => intro bs; left; rfl
  | cons a as ih =>
    intro bs
    cases bs with
    | nil => right; rfl
    | cons b bs =>
      by_cases h : a = b
      · subst h
        simpa [lexLe] using ih bs
      · have h' : ¬ (b = a) := fun hh => h hh.symm
        have : a.toNat ≠ b.toNat := fun hh => h (charToNat_inj hh)
        simp [lexLe, h, h']
        omega

theorem lexLe_antisymm : ∀ as bs, lexLe as bs = true → lexLe bs as = true → as = bs := by
  intro as
  induction as with
  | nil =>
    intro bs _ h2
    cases bs with
    | nil => rfl
    | cons b bs => simp [lexLe] at h2
  | cons a as ih =>
    intro bs h1 h2
    cases bs with
    | nil => simp [lexLe] at h1
    | cons b bs =>
      by_cases h : a = b
      · subst h
        simp only [lexLe, if_pos rfl] at h1 h2
        rw [ih bs h1 h2]
      · have h' : ¬ (b = a) := fun hh => h hh.symm
        simp [lexLe, h, h'] at h1 h2
        omega

theorem lexLe_trans : ∀ as bs cs, lexLe as bs = true → lexLe bs cs = true →
    lexLe as cs = true := by
  intro as
  induction as with
  | nil => intro bs cs _ _; rfl
  | cons a as ih =>
    intro bs cs h1 h2
    cases bs with
    | nil => simp [lexLe] at h1
    | cons b bs =>
      cases cs with
      | nil => simp [lexLe] at h2
      | cons c cs =>
        by_cases hab : a = b
        · subst hab
          simp only [lexLe, if_pos rfl] at h1
          by_cases hbc : a = c
          · subst hbc
            simp only [lexLe, if_pos rfl] at h2 ⊢
            exact ih bs cs h1 h2
          · simp only [lexLe, if_neg hbc] at h2 ⊢
            exact h2
        · simp only [lexLe, if_neg hab] at h1
          by_cases hbc : b = c
          · subst hbc
            simp only [lexLe, if_neg hab]
            exact h1
          · simp only [lexLe, if_neg hbc] at h2
            have hac : ¬ (a = c) := by
              intro he
              subst he
              simp at h1 h2
              omega
            simp only [lexLe, if_neg hac]
            simp at h1 h2 ⊢
            omega

theorem sLe_refl (s : String) : sLe s s = true := lexLe_refl s.data

theorem sLe_total (s t : String) : sLe s t = true ∨ sLe t s = true :=
  lexLe_total s.data t.data

theorem sLe_antisymm {s t : String} (h1 : sLe s t = true) (h2 : sLe t s = true) :
    s = t := String.ext (lexLe_antisymm s.data t.data h1 h2)

theorem sLe_trans {s t u : String} (h1 : sLe s t = true) (h2 : sLe t u = true) :
    sLe s u = true := lexLe_trans s.data t.data u.data h1 h2

section StableSort

variable {α : Type}

/-- One step of Python's stable sort: insert `x` before the first element it
compares `le` to. -/
def insLe (le : α → α → Bool) (x : α) : List α → List α
  | [] => [x]
  | y :: ys => if le x y then x :: y :: ys else y :: insLe le x ys

/-- Stable sort by the boolean comparison `le`: the result every stable sort
(such as Python's `list.sort` / `sorted`) produces. -/
def ssort (le : α → α → Bool) : List α → List α
  | [] => []
  | x :: xs => insLe le x (ssort le xs)

theorem insLe_perm (le : α → α → Bool) (x : α) (l : List α) :
    insLe le x l ~ x :: l := by
  induction l with
  | nil => rfl
  | cons y ys ih =>
    by_cases h : le x y
    · simp [insLe, h]
    · simp only [insLe, if_neg h]
      calc y :: insLe le x ys ~ y :: x :: ys := List.Perm.cons y ih
        _ ~ x :: y :: ys := List.Perm.swap x y ys

theorem ssort_perm (le : α → α → Bool) (l : List α) : ssort le l ~ l := by
  induction l with
  | nil => rfl
  | cons x xs ih =>
    calc ssort le (x :: xs) ~ x :: ssort le xs := insLe_perm le x (ssort le xs)
      _ ~ x :: xs := List.Perm.cons x ih

theorem mem_insLe (le : α → α → Bool) (x a : α) (l : List α) :
    a ∈ insLe le x l ↔ a = x ∨ a ∈ l :=
  ⟨fun h => by simpa using (insLe_perm le x l).mem_iff.mp h,
   fun h => (insLe_perm le x l).mem_iff.mpr (by simpa using h)⟩

theorem insLe_pairwise (le : α → α → Bool)
    (htot : ∀ a b, le a b = true ∨ le b a = true)
    (htrans : ∀ a b c, le a b = true → le b c = true → le a c = true)
    (x : α) (l : List α) (h : l.Pairwise (fun a b => le a b = true)) :
    (insLe le x l).Pairwise (fun a b => le a b = true) := by
  induction l with
  | nil => simp [insLe]
  | cons y ys ih =>
    rcases List.pairwise_cons.mp h with ⟨hy, hys⟩
    by_cases hxy : le x y
    · simp only [insLe, if_pos hxy]
      refine List.pairwise_cons.mpr ⟨?_, h⟩
      intro b hb
      rcases List.mem_cons.mp hb with hb | hb
      · subst hb; exact hxy
      · exact htrans x y b hxy (hy b hb)
    · simp only [insLe, if_neg hxy]
      refine List.pairwise_cons.mpr ⟨?_, ih hys⟩
      intro b hb
      rcases (mem_insLe le x b ys).mp hb with hb | hb
      · rw [hb]
        rcases htot x y with hh | hh
        · exact absurd hh hxy
        · exact hh
      · exact hy b hb

theorem ssort_pairwise (le : α → α → Bool)
    (htot : ∀ a b, le a b = true ∨ le b a = true)
    (htrans : ∀ a b c, le a b = true → le b c = true → le a c = true)
    (l : List α) : (ssort le l).Pairwise (fun a b => le a b = true) := by
  induction l with
  | nil => simp [ssort]
  | cons x xs ih => exact insLe_pairwise le htot htrans x (ssort le xs) ih

/-- Sorted lists that are permutations of each other are equal, provided the
comparison is antisymmetric. -/
theorem sorted_eq_of_perm (le : α → α → Bool)
    (hanti : ∀ a b, le a b = true → le b a = true → a = b) :
    ∀ (l1 l2 : List α), l1 ~ l2 → l1.Pairwise (fun a b => le a b = true) →
      l2.Pairwise (fun a b => le a b = true) → l1 = l2 := by
  intro l1
  induction l1 with
  | nil =>
    intro l2 hp _ _
    exact (List.Perm.nil_eq hp).symm ▸ rfl
  | cons x xs ih =>
    intro l2 hp h1 h2
    cases l2 with
    | nil => exact absurd hp.symm (by simp)
    | cons y ys =>
      rcases List.pairwise_cons.mp h1 with ⟨hx, hxs⟩
      rcases List.pairwise_cons.mp h2 with ⟨hy, hys⟩
      have hxy : x = y := by
        have hxmem : x ∈ y :: ys := hp.mem_iff.mp (List.mem_cons_self x xs)
        rcases List.mem_cons.mp hxmem with h | h
        · exact h
        · have hymem : y ∈ x :: xs := hp.symm.mem_iff.mp (List.mem_cons_self y ys)
          rcases List.mem_cons.mp hymem with h' | h'
          · exact h'.symm
          · exact hanti x y (hx y h') (hy x h)
      subst hxy
      have : xs ~ ys := (List.perm_cons x).mp hp
      rw [ih ys this hxs hys]

end StableSort

/-- Python `sorted` on a list of strings (code-point lexicographic, stable). -/
def pySortedStr (l : List String) : List String := ssort sLe l

/-- Python `sorted` on a list of naturals (the file ids). -/
def pySortedNat (l : List Nat) : List Nat := ssort (fun a b => decide (a ≤ b)) l

theorem pySortedStr_pairwise (l : List String) :
    (pySortedStr l).Pairwise (fun a b => sLe a b = true) :=
  ssort_pairwise sLe sLe_total (fun _ _ _ => sLe_trans) l

theorem pySortedStr_perm (l : List String) : pySortedStr l ~ l := ssort_perm sLe l

theorem pySortedNat_pairwise (l : List Nat) :
    (pySortedNat l).Pairwise (fun a b => decide (a ≤ b) = true) :=
  ssort_pairwise _ (fun a b => by by_cases h : a ≤ b <;> simp [h] <;> omega)
    (fun a b c h1 h2 => by simp at *; omega) l

theorem pySortedNat_perm (l : List Nat) : pySortedNat l ~ l := ssort_perm _ l

/-- An input file of a run: basename, byte size reported by `stat`, and content
as the list of its lines (without trailing newline characters). -/
structure SrcFile where
  name : String
  size : Nat
  lines : List String
deriving DecidableEq

/-- The sort key of `get_input_files`: `files.sort(key=lambda f: f.stat().st_size)`. -/
def sizeLe (a b : SrcFile) : Bool := decide (a.size ≤ b.size)

/-- `get_input_files` (lines 169–187): returns `[]` when the input directory does
not exist (after logging an error); otherwise sorts the enumerated files by byte
size ascending with Python's stable `list.sort`, keyed on the size only. The
`enumerated` argument is the directory-enumeration (glob) order. -/
def get_input_files (input_dir_exists : Bool) (enumerated : List SrcFile) : List SrcFile :=
  if input_dir_exists then ssort sizeLe enumerated else []

theorem filter_insLe_size (x : SrcFile) (l : List SrcFile) (n : Nat) :
    (insLe sizeLe x l).filter (fun f => decide (f.size = n)) =
      if x.size = n then x :: l.filter (fun f => decide (f.size = n))
      else l.filter (fun f => decide (f.size = n)) := by
  induction l with
  | nil => by_cases h : x.size = n <;> simp [insLe, h]
  | cons y ys ih =>
    by_cases hxy : sizeLe x y
    · by_cases h : x.size = n <;> simp [insLe, hxy, h]
    · have hlt : y.size < x.size := by
        simp [sizeLe] at hxy
        omega
      simp only [insLe, if_neg hxy]
      by_cases h : x.size = n
      · have hy : ¬ (y.size = n) := by omega
        simp only [List.filter_cons, hy, decide_eq_true_eq, if_neg hy]
        rw [ih]
        simp [h, hy]
      · simp only [List.filter_cons]
        rw [ih]
        simp [h]

theorem filter_ssort_size (l : List SrcFile) (n : Nat) :
    (ssort sizeLe l).filter (fun f => decide (f.size = n)) =
      l.filter (fun f => decide (f.size = n)) := by
  induction l with
  | nil => rfl
  | cons x xs ih =>
    show (insLe sizeLe x (ssort sizeLe xs)).filter _ = _
    rw [filter_insLe_size]
    by_cases h : x.size = n <;> simp [h, ih]

/-- C7: the claimed tie-break is absent from the code. With two equal-size
files enumerated as `z.csv` before `a.csv`, the code returns them in
enumeration order `z.csv, a.csv`, so the output is not ordered by
(size ascending, basename ascending) as the claim states. -/
theorem claim_C7_counterexample :
    ¬ List.Pairwise
        (fun f g : SrcFile => f.size < g.size ∨ (f.size = g.size ∧ sLe f.name g.name = true))
        (get_input_files true [⟨"z.csv", 3, []⟩, ⟨"a.csv", 3, []⟩]) := by
  decide

/-- C7 (amended): FileId assignment is deterministic given the directory
enumeration order: the input files are stably sorted by ascending byte size —
the result is a permutation of the enumeration, its sizes are ascending, and
files of equal size keep their relative enumeration order (ties are *not*
broken by basename) — and FileId i is the i-th file of that order. -/
theorem claim_C7_amended (enumerated : List SrcFile) :
    (get_input_files true enumerated) ~ enumerated ∧
    List.Pairwise (fun f g : SrcFile => f.size ≤ g.size) (get_input_files true enumerated) ∧
    ∀ n : Nat, (get_input_files true enumerated).filter (fun f => decide (f.size = n)) =
      enumerated.filter (fun f => decide (f.size = n)) := by
  refine ⟨?_, ?_, ?_⟩
  · simpa [get_input_files] using ssort_perm sizeLe enumerated
  · have := ssort_pairwise sizeLe
      (fun a b => by by_cases h : a.size ≤ b.size <;> simp [sizeLe, h] <;> omega)
      (fun a b c h1 h2 => by simp [sizeLe] at *; omega) enumerated
    simp only [get_input_files, if_pos]
    exact this.imp (fun h => by simpa [sizeLe] using h)
  · intro n
    simpa [get_input_files] using filter_ssort_size enumerated n

/-- The three execution strategies of the program. -/
inductive Strategy where
  | fast
  | safe
  | disk
deriving DecidableEq

/-- `auto_select_strategy` (lines 911–958). The memory probe is `some
(total_size_bytes, available_ram_bytes)` on success and `none` when any part of
the probing raises (the `except` branch); `psutil_available` is the module-level
`PSUTIL_AVAILABLE` flag. The float constants `RAM_USAGE_THRESHOLD = 0.70`,
`FAST_MODE_MEMORY_FACTOR = 0.4` and `SAFE_MODE_MEMORY_FACTOR = 0.1` are
modelled as the rationals they denote. -/
def auto_select_strategy (psutil_available : Bool) (probe : Option (Nat × Nat)) : Strategy :=
  if psutil_available = false then Strategy.safe
  else
    match probe with
    | none => Strategy.safe
    | some (total_size_bytes, available_ram_bytes) =>
      let ram_limit : ℚ := (available_ram_bytes : ℚ) * (70 / 100)
      let est_fast_mode_ram : ℚ := (total_size_bytes : ℚ) * (4 / 10)
      let est_safe_mode_ram : ℚ := (total_size_bytes : ℚ) * (1 / 10)
      if est_fast_mode_ram < ram_limit then Strategy.fast
      else if est_safe_mode_ram < ram_limit then Strategy.safe
      else Strategy.disk

/-- C4: for a successful memory probe the selector returns FAST iff
total × 0.4 < 0.70 × RAM, otherwise SAFE iff total × 0.1 < 0.70 × RAM,
otherwise DISK; and whenever the probe fails — including psutil being
unavailable — it returns SAFE. -/
theorem claim_C4 (t r : Nat) :
    (auto_select_strategy false none = Strategy.safe) ∧
    (auto_select_strategy false (some (t, r)) = Strategy.safe) ∧
    (auto_select_strategy true none = Strategy.safe) ∧
    (auto_select_strategy true (some (t, r)) = Strategy.fast ↔
      (t : ℚ) * (4 / 10) < (r : ℚ) * (70 / 100)) ∧
    (auto_select_strategy true (some (t, r)) = Strategy.safe ↔
      (¬ (t : ℚ) * (4 / 10) < (r : ℚ) * (70 / 100)) ∧
        (t : ℚ) * (1 / 10) < (r : ℚ) * (70 / 100)) ∧
    (auto_select_strategy true (some (t, r)) = Strategy.disk ↔
      (¬ (t : ℚ) * (4 / 10) < (r : ℚ) * (70 / 100)) ∧
        ¬ (t : ℚ) * (1 / 10) < (r : ℚ) * (70 / 100)) := by
  have hres : auto_select_strategy true (some (t, r)) =
      (if (t : ℚ) * (4 / 10) < (r : ℚ) * (70 / 100) then Strategy.fast
       else if (t : ℚ) * (1 / 10) < (r : ℚ) * (70 / 100) then Strategy.safe
       else Strategy.disk) := rfl
  refine ⟨rfl, rfl, rfl, ?_, ?_, ?_⟩ <;> rw [hres] <;> split_ifs <;> simp_all

/-- Exit-code model of `main` (lines 972–1060) together with whether the run
reached an engine. The function body of `main` contains no `sys.exit` call and
no raised exception on these paths: when the input directory is missing,
`get_input_files` logs an error and returns `[]`, `main` returns early, and the
interpreter exits with code 0; otherwise an engine runs, the report is written
and `main` again returns normally with exit code 0. -/
def mainRun (input_dir_exists : Bool) (enumerated : List SrcFile) : Nat × Bool :=
  let files := get_input_files input_dir_exists enumerated
  if files.isEmpty then (0, false) else (0, true)

/-- C6: the claim that the process exits with a non-zero code on a missing
input directory is false: with the input directory absent (and a non-empty
enumeration that would otherwise be processed), `main` returns early and the
process exits with code 0 without running any engine. -/
theorem claim_C6_counterexample :
    (mainRun false [⟨"a.csv", 1, ["h", "x"]⟩]).1 = 0 ∧
    (mainRun false [⟨"a.csv", 1, ["h", "x"]⟩]).2 = false := by
  decide

/-- C6 (amended): on every modeled path — success, "no duplicates", and
initialization failure such as a missing input directory — the process exits
with code 0; a missing input directory merely logs an error and skips the run
(no engine is reached), it does not produce a non-zero exit code. -/
theorem claim_C6_amended (b : Bool) (enumerated : List SrcFile) :
    (mainRun b enumerated).1 = 0 ∧ (mainRun false enumerated).2 = false := by
  constructor
  · simp only [mainRun]
    split_ifs <;> rfl
  · simp [mainRun, get_input_files]

/-- Value lookup `duplicates_data[prefix]` of the report writer. -/
def dupVal (d : List (String × List String)) (p : String) : List String :=
  (dGet d p).getD []

/-- The report's entry order: `sorted(duplicates_data.keys())` (line 202). -/
def reportKeys (d : List (String × List String)) : List String :=
  pySortedStr (keysOf d)

/-- The basenames emitted for one entry (lines 208–214): the single stored name
for an intra-file entry, otherwise `sorted(duplicates_data[prefix])`. -/
def entryNames (d : List (String × List String)) (p : String) : List String :=
  if (dupVal d p).length = 1 then dupVal d p else pySortedStr (dupVal d p)

/-- The lines written for one entry of the report (lines 207–214). -/
def entryLines (d : List (String × List String)) (p : String) : List String :=
  if (dupVal d p).length = 1 then
    ["    - (Fájlon belüli duplikátumok) " ++ (entryNames d p).headI]
  else
    (entryNames d p).map (fun filename => "    - " ++ filename)

/-- `write_duplicates` (lines 189–217) as the list of lines of `duplicates.txt`. -/
def reportLines (d : List (String × List String)) : List String :=
  if d.isEmpty then ["Nem található duplikátum."]
  else (reportKeys d).flatMap (fun p => p :: entryLines d p)

/-- The full text of `duplicates.txt` (every line is written with a trailing
newline). -/
def write_duplicates (d : List (String × List String)) : String :=
  (reportLines d).foldr (fun l acc => l ++ "\n" ++ acc) ""

theorem pairwise_of_length_le_one {α : Type} (r : α → α → Prop) (l : List α)
    (h : l.length ≤ 1) : l.Pairwise r := by
  cases l with
  | nil => exact List.Pairwise.nil
  | cons x xs =>
    cases xs with
    | nil => simp
    | cons y ys => simp at h

/-- C8: for every non-empty duplicates map the report writer emits the entries
in ascending DisplayPrefix order, and within each entry the basenames are
listed in ascending order. -/
theorem claim_C8 (d : List (String × List String)) (hne : ¬ d.isEmpty) :
    reportLines d = (reportKeys d).flatMap (fun p => p :: entryLines d p) ∧
    (reportKeys d).Pairwise (fun a b => sLe a b = true) ∧
    ∀ p ∈ reportKeys d, (entryNames d p).Pairwise (fun a b => sLe a b = true) := by
  refine ⟨by simp [reportLines, hne], pySortedStr_pairwise _, ?_⟩
  intro p _
  unfold entryNames
  split_ifs with h
  · exact pairwise_of_length_le_one _ _ (by omega)
  · exact pySortedStr_pairwise _

/-- Witness for C8 at a concrete non-empty duplicates map. -/
theorem claim_C8_witness :
    reportLines [("bb", ["y.csv", "x.csv"]), ("aa", ["z.csv"])] =
      (reportKeys [("bb", ["y.csv", "x.csv"]), ("aa", ["z.csv"])]).flatMap
        (fun p => p :: entryLines [("bb", ["y.csv", "x.csv"]), ("aa", ["z.csv"])] p) ∧
    (reportKeys [("bb", ["y.csv", "x.csv"]), ("aa", ["z.csv"])]).Pairwise
      (fun a b => sLe a b = true) ∧
    ∀ p ∈ reportKeys [("bb", ["y.csv", "x.csv"]), ("aa", ["z.csv"])],
      (entryNames [("bb", ["y.csv", "x.csv"]), ("aa", ["z.csv"])] p).Pairwise
        (fun a b => sLe a b = true) :=
  claim_C8 [("bb", ["y.csv", "x.csv"]), ("aa", ["z.csv"])] (by decide)

/-- The filesystem objects `delete_rows_from_file` touches: the target file, the
temporary file and the `.backup` copy (`none` = the file does not exist). -/
structure FsState where
  target : List String
  temp : Option (List String)
  backup : Option (List String)
deriving DecidableEq

/-- The content `delete_rows_from_file` streams into the temporary file: the
header line unchanged, then every line whose stripped form is not in the
removal set (lines 506–516); an empty original yields an empty temp file. -/
def filteredContent (orig toRemove : List String) : List String :=
  match orig with
  | [] => []
  | header :: body =>
    header :: body.filter (fun line => !(toRemove.contains (pyStrip line)))

/-- The four filesystem operations of `delete_rows_from_file` (lines 492–536)
in program order: (0) write the complete filtered content to the temporary
file, (1) copy the target to the `.backup` file, (2) move the temporary file
over the target, (3) unlink the `.backup` file. -/
def drffOps (orig toRemove : List String) : List (FsState → FsState) :=
  [ fun st => { st with temp := some (filteredContent orig toRemove) },
    fun st => { st with backup := some st.target },
    fun st => { st with target := st.temp.getD st.target, temp := none },
    fun st => { st with backup := none } ]

/-- `delete_rows_from_file` with failure injection. `failAt = none` runs every
operation and returns True. `failAt = some (i, partialTemp)` means the i-th
operation raises an exception after the first i operations completed (for
i = 0, the interrupted write leaves `partialTemp` in the temporary file); the
`except` handler (lines 531–536) then unlinks the temporary file when it
exists and the function returns False. -/
def delete_rows_from_file_run (orig toRemove : List String)
    (failAt : Option (Nat × List String)) : Bool × FsState :=
  let st0 : FsState := { target := orig, temp := none, backup := none }
  match failAt with
  | none => (true, (drffOps orig toRemove).foldl (fun st op => op st) st0)
  | some (i, partialTemp) =>
    let st1 := ((drffOps orig toRemove).take i).foldl (fun st op => op st) st0
    let st2 := if i = 0 then { st1 with temp := some partialTemp } else st1
    (false, { st2 with temp := none })

/-- C10: inter-file deletion is atomic per file. The filtered content goes to a
temporary file first; the target is replaced only by the (complete) move
operation, so on the failure-free path the final target holds the fully
written filtered content; and if an exception occurs before the replacement
move (during the temp write, i = 0, or during the backup copy, i = 1) the
original file is unchanged, the temporary file has been removed and the
function returns False. -/
theorem claim_C10 (orig toRemove partialTemp : List String) (i : Nat) (hi : i ≤ 1) :
    delete_rows_from_file_run orig toRemove none =
      (true, { target := filteredContent orig toRemove, temp := none, backup := none }) ∧
    (delete_rows_from_file_run orig toRemove (some (i, partialTemp))).1 = false ∧
    (delete_rows_from_file_run orig toRemove (some (i, partialTemp))).2.target = orig ∧
    (delete_rows_from_file_run orig toRemove (some (i, partialTemp))).2.temp = none := by
  refine ⟨?_, ?_, ?_, ?_⟩
  · simp [delete_rows_from_file_run, drffOps]
  · rfl
  · interval_cases i <;> simp [delete_rows_from_file_run, drffOps]
  · interval_cases i <;> simp [delete_rows_from_file_run, drffOps]

/-- Witness for C10 at a concrete file, removal set and failure point. -/
theorem claim_C10_witness :
    delete_rows_from_file_run ["h", " a ", "b"] ["a"] none =
      (true, { target := filteredContent ["h", " a ", "b"] ["a"], temp := none, backup := none }) ∧
    (delete_rows_from_file_run ["h", " a ", "b"] ["a"] (some (1, ["h"]))).1 = false ∧
    (delete_rows_from_file_run ["h", " a ", "b"] ["a"] (some (1, ["h"]))).2.target =
      ["h", " a ", "b"] ∧
    (delete_rows_from_file_run ["h", " a ", "b"] ["a"] (some (1, ["h"]))).2.temp = none :=
  claim_C10 ["h", " a ", "b"] ["a"] ["h"] 1 (by decide)

/-- The run configuration: the `config` dict fields the engines read. -/
structure Config where
  write_length : Nat
  hash_fields : Nat
  hash_delimiter : Char
  merge_batch_size : Nat
  deleteduplicates : Bool
deriving DecidableEq

/-- Python `dict.update(d)`. -/
def pyUpdate {K : Type} [DecidableEq K] {V : Type} (m d : List (K × V)) : List (K × V) :=
  d.foldl (fun acc e => dinsert acc e.1 e.2) m

/-- The body of a file: every line after the header row (`next(f, None)`). -/
def fileBody (f : SrcFile) : List String := f.lines.drop 1

/-- The stripped, non-empty lines a scan of `body` processes: every engine
strips each line and skips the ones that become empty. -/
def scanLines (body : List String) : List String :=
  (body.map pyStrip).filter (fun s => !(s == ""))

/-- The normalized key of a stripped line under the configuration. -/
def keyOf (cfg : Config) (s : String) : String :=
  normalize_line s cfg.hash_delimiter cfg.hash_fields

/-- `hash_normalized_line` of a line's key: the Hash64 hex digest, where `H` is
the pluggable `HASH_FUNCTION` (line 115). -/
def hashOf (H : String → String) (cfg : Config) (s : String) : String :=
  H (keyOf cfg s)

/-- The DisplayPrefix of a stripped line: `stripped_line[:write_length]`. -/
def pfxOf (cfg : Config) (s : String) : String := pyTake s cfg.write_length

/-- `id_to_file_map` (line 1041): FileId i names the i-th file. -/
def idToName (files : List SrcFile) (fid : Nat) : String :=
  ((files.get? fid).map SrcFile.name).getD ""

/-- `process_file_fast` (lines 540–564): the per-file table hash ↦ (DisplayPrefix
of the first occurrence, occurrence count), in first-occurrence order. -/
def process_file_fast (H : String → String) (cfg : Config) (body : List String) :
    List (String × String × Nat) :=
  (scanLines body).foldl
    (fun tbl s =>
      upsert tbl (hashOf H cfg s)
        (fun o =>
          match o with
          | none => (pfxOf cfg s, 1)
          | some pc => (pc.1, pc.2 + 1)))
    []

/-- One merge step of the FAST driver (lines 666–670): for every local entry,
default-insert the hash, keep the already-stored prefix unless it is empty,
and set this file's counter. -/
def mergeFastFile (g : List (String × String × List (Nat × Nat))) (fid : Nat)
    (locals : List (String × String × Nat)) :
    List (String × String × List (Nat × Nat)) :=
  locals.foldl
    (fun g e =>
      upsert g e.1
        (fun o =>
          let pc := o.getD ("", [])
          ((if pc.1 = "" then e.2.1 else pc.1), dinsert pc.2 fid e.2.2)))
    g

/-- `global_hashes` after all FAST workers completed, with the deterministic
completion order file 0, 1, … (completion order is arbitrary in the program;
claim C1 is about exactly this). -/
def globalHashes (H : String → String) (cfg : Config) (files : List SrcFile) :
    List (String × String × List (Nat × Nat)) :=
  (files.enum).foldl
    (fun g e => mergeFastFile g e.1 (process_file_fast H cfg (fileBody e.2))) []

/-- `sum(file_counts.values())`. -/
def countsTotal (fc : List (Nat × Nat)) : Nat := (fc.map (·.2)).sum

/-- `[id_to_file_map[fid] for fid in sorted(list(file_ids))]`. -/
def sortedNamesOf (files : List SrcFile) (fc : List (Nat × Nat)) : List String :=
  (pySortedNat (fc.map (·.1))).map (idToName files)

/-- The inter-file entries of the FAST output (lines 679–685), in global-map
order: hashes counted in more than one file. -/
def fastInterData (H : String → String) (cfg : Config) (files : List SrcFile) :
    List (String × List String) :=
  (globalHashes H cfg files).foldl
    (fun od e =>
      if e.2.2.length > 1 then dinsert od e.2.1 (sortedNamesOf files e.2.2) else od)
    []

/-- The intra-file entries of the FAST output (lines 686–690): hashes counted in
a single file but more than once. -/
def fastIntraData (H : String → String) (cfg : Config) (files : List SrcFile) :
    List (String × List String) :=
  (globalHashes H cfg files).foldl
    (fun od e =>
      if e.2.2.length > 1 then od
      else if countsTotal e.2.2 > 1 then
        match e.2.2 with
        | [] => od
        | fidc :: _ => dinsert od e.2.1 [idToName files fidc.1]
      else od)
    []

/-- `output_data` of `run_strategy_fast` before deletion/reporting (line 693):
the inter-file dict updated with the intra-file dict. -/
def fastOutputData (H : String → String) (cfg : Config) (files : List SrcFile) :
    List (String × List String) :=
  pyUpdate (fastInterData H cfg files) (fastIntraData H cfg files)

/-- The duplicates report a FAST run with deletion disabled writes. -/
def fastReport (H : String → String) (cfg : Config) (files : List SrcFile) : String :=
  write_duplicates (fastOutputData H cfg files)

/-- `process_file_safe_pass1` (lines 566–579): the per-file Counter hash ↦ count. -/
def process_file_safe_pass1 (H : String → String) (cfg : Config) (body : List String) :
    List (String × Nat) :=
  (scanLines body).foldl
    (fun c s => upsert c (hashOf H cfg s) (fun o => o.getD 0 + 1)) []

/-- `hash_to_file_counts` after SAFE pass 1 (lines 713–722), deterministic
completion order file 0, 1, …. -/
def hashToFileCounts (H : String → String) (cfg : Config) (files : List SrcFile) :
    List (String × List (Nat × Nat)) :=
  (files.enum).foldl
    (fun m e =>
      (process_file_safe_pass1 H cfg (fileBody e.2)).foldl
        (fun m hc => upsert m hc.1 (fun o => dinsert (o.getD []) e.1 hc.2)) m)
    []

/-- Membership in `duplicate_hashes` of the SAFE driver (lines 728–734):
occurring in more than one file or more than once in total. -/
def isDupHash (htfc : List (String × List (Nat × Nat))) (h : String) : Bool :=
  match dGet htfc h with
  | none => false
  | some fc => fc.length > 1 || countsTotal fc > 1

/-- `process_file_safe_pass2` (lines 581–598): the first DisplayPrefix of each
duplicate hash within one file. -/
def process_file_safe_pass2 (H : String → String) (cfg : Config)
    (dup : String → Bool) (body : List String) : List (String × String) :=
  (scanLines body).foldl
    (fun res s =>
      let h := hashOf H cfg s
      if dup h && !(dGet res h).isSome then dinsert res h (pfxOf cfg s) else res)
    []

/-- `hash_to_prefix_map` after SAFE pass 2 (lines 743–751), deterministic
completion order file 0, 1, …: `update` lets the last worker win. -/
def hashToPfxMap (H : String → String) (cfg : Config) (files : List SrcFile)
    (dup : String → Bool) : List (String × String) :=
  files.foldl (fun m f => pyUpdate m (process_file_safe_pass2 H cfg dup (fileBody f))) []

/-- `output_data` of `run_strategy_safe` (lines 753–768). -/
def safeOutputData (H : String → String) (cfg : Config) (files : List SrcFile) :
    List (String × List String) :=
  let htfc := hashToFileCounts H cfg files
  let dup := isDupHash htfc
  (hashToPfxMap H cfg files dup).foldl
    (fun od e =>
      if dup e.1 then
        match dGet htfc e.1 with
        | none => od
        | some fc =>
          if fc.length > 1 then dinsert od e.2 (sortedNamesOf files fc)
          else if countsTotal fc > 1 then
            match fc with
            | [] => od
            | fidc :: _ => dinsert od e.2 [idToName files fidc.1]
          else od
      else od)
    []

/-- The duplicates report a SAFE run with deletion disabled writes. -/
def safeReport (H : String → String) (cfg : Config) (files : List SrcFile) : String :=
  write_duplicates (safeOutputData H cfg files)

/-- All stripped, non-empty corpus lines with their FileIds, in scan order. -/
def corpusScan (files : List SrcFile) : List (Nat × String) :=
  files.enum.flatMap (fun e => (scanLines (fileBody e.2)).map (fun s => (e.1, s)))

/-- Occurrence count of hash `h` among the lines `ls`. -/
def occCount (H : String → String) (cfg : Config) (h : String) (ls : List String) : Nat :=
  (ls.filter (fun s => hashOf H cfg s == h)).length

/-- The first line among `ls` whose hash is `h`. -/
def firstWithHash (H : String → String) (cfg : Config) (h : String) (ls : List String) :
    Option String :=
  ls.find? (fun s => hashOf H cfg s == h)

/-- Occurrence count of hash `h` inside one file. -/
def countInFile (H : String → String) (cfg : Config) (h : String) (f : SrcFile) : Nat :=
  occCount H cfg h (scanLines (fileBody f))

/-- Per-hash specification of the FAST worker table: the DisplayPrefix of the
first occurrence paired with the occurrence count. -/
def pfSpec (H : String → String) (cfg : Config) (ls : List String) (h : String) :
    Option (String × Nat) :=
  match firstWithHash H cfg h ls with
  | none => none
  | some s => some (pfxOf cfg s, occCount H cfg h ls)

/-- Generic invariant preservation along a left fold. -/
theorem foldl_inv {M A : Type} (P : M → Prop) (step : M → A → M) :
    ∀ (l : List A) (m : M), P m → (∀ m a, a ∈ l → P m → P (step m a)) →
      P (l.foldl step m) := by
  intro l
  induction l with
  | nil => intro m hm _; exact hm
  | cons a l ih =>
    intro m hm hstep
    exact ih (step m a) (hstep m a (List.mem_cons_self a l) hm)
      (fun m' b hb hm' => hstep m' b (List.mem_cons_of_mem a hb) hm')

theorem occCount_append_one (H : String → String) (cfg : Config) (h : String)
    (ls : List String) (s : String) :
    occCount H cfg h (ls ++ [s]) =
      occCount H cfg h ls + (if hashOf H cfg s = h then 1 else 0) := by
  unfold occCount
  rw [List.filter_append]
  by_cases hs : hashOf H cfg s = h <;> simp [hs]

theorem occCount_zero_of_firstWithHash_none (H : String → String) (cfg : Config)
    (h : String) (ls : List String) (hn : firstWithHash H cfg h ls = none) :
    occCount H cfg h ls = 0 := by
  unfold firstWithHash at hn
  unfold occCount
  rw [List.find?_eq_none] at hn
  rw [List.length_eq_zero, List.filter_eq_nil]
  intro s hs
  exact hn s hs

theorem firstWithHash_append_one (H : String → String) (cfg : Config) (h : String)
    (ls : List String) (s : String) :
    firstWithHash H cfg h (ls ++ [s]) =
      match firstWithHash H cfg h ls with
      | some s0 => some s0
      | none => if hashOf H cfg s = h then some s else none := by
  unfold firstWithHash
  rw [List.find?_append]
  cases hf : List.find? (fun s => hashOf H cfg s == h) ls with
  | some s0 => rfl
  | none =>
    by_cases hs : hashOf H cfg s = h
    · simp [List.find?, hs]
    · have hb : (hashOf H cfg s == h) = false := by simp [hs]
      simp [List.find?, hb, hs]

theorem pfSpec_append_one (H : String → String) (cfg : Config) (ys : List String)
    (s : String) (h : String) :
    pfSpec H cfg (ys ++ [s]) h =
      if hashOf H cfg s = h then
        match pfSpec H cfg ys h with
        | none => some (pfxOf cfg s, 1)
        | some pc => some (pc.1, pc.2 + 1)
      else pfSpec H cfg ys h := by
  unfold pfSpec
  rw [firstWithHash_append_one, occCount_append_one]
  cases hf : firstWithHash H cfg h ys with
  | none =>
    have h0 := occCount_zero_of_firstWithHash_none H cfg h ys hf
    by_cases hs : hashOf H cfg s = h <;> simp [hs, h0]
  | some s0 =>
    by_cases hs : hashOf H cfg s = h <;> simp [hs]

theorem process_file_fast_fold (H : String → String) (cfg : Config) :
    ∀ (ls ys : List String) (acc : List (String × String × Nat)),
      (∀ h, dGet acc h = pfSpec H cfg ys h) →
      ∀ h,
        dGet (ls.foldl
          (fun tbl s =>
            upsert tbl (hashOf H cfg s)
              (fun o =>
                match o with
                | none => (pfxOf cfg s, 1)
                | some pc => (pc.1, pc.2 + 1)))
          acc) h = pfSpec H cfg (ys ++ ls) h := by
  intro ls
  induction ls with
  | nil => intro ys acc hacc h; simpa using hacc h
  | cons s ls ih =>
    intro ys acc hacc h
    rw [List.foldl_cons]
    have hstep : ∀ h', dGet (upsert acc (hashOf H cfg s)
        (fun o =>
          match o with
          | none => (pfxOf cfg s, 1)
          | some pc => (pc.1, pc.2 + 1))) h' = pfSpec H cfg (ys ++ [s]) h' := by
      intro h'
      rw [pfSpec_append_one]
      by_cases hh : hashOf H cfg s = h'
      · rw [if_pos hh, ← hh, dlookup_upsert_self]
        rw [hh, hacc h']
        cases pfSpec H cfg ys h' <;> rfl
      · rw [if_neg hh, dlookup_upsert_ne acc _ h' _ (fun he => hh he.symm)]
        exact hacc h'
    have := ih (ys ++ [s]) _ hstep h
    simpa using this

theorem dGet_process_file_fast (H : String → String) (cfg : Config)
    (body : List String) (h : String) :
    dGet (process_file_fast H cfg body) h = pfSpec H cfg (scanLines body) h := by
  have := process_file_fast_fold H cfg (scanLines body) [] [] (fun h => rfl) h
  simpa [process_file_fast] using this

theorem mem_scanLines_ne_empty (body : List String) (s : String)
    (h : s ∈ scanLines body) : s ≠ "" := by
  unfold scanLines at h
  have := List.of_mem_filter h
  simpa using this

theorem pfxOf_ne_empty (cfg : Config) (s : String) (hs : s ≠ "")
    (hwl : 1 ≤ cfg.write_length) : pfxOf cfg s ≠ "" := by
  unfold pfxOf pyTake
  intro hcon
  have hlen : (s.data.take cfg.write_length).length = 0 := by
    have := congrArg (fun t : String => t.data.length) hcon
    simpa [List.asString] using this
  rw [List.length_take] at hlen
  rcases Nat.min_eq_zero_iff.mp hlen with hw | hd
  · omega
  · apply hs
    have hnil : s.data = [] := List.length_eq_zero.mp hd
    exact String.ext (by rw [hnil])

theorem firstWithHash_isSome_iff (H : String → String) (cfg : Config) (h : String)
    (ls : List String) :
    (firstWithHash H cfg h ls).isSome = true ↔ 0 < occCount H cfg h ls := by
  unfold firstWithHash occCount
  constructor
  · intro hs
    rw [Option.isSome_iff_exists] at hs
    obtain ⟨s, hs⟩ := hs
    have hmem := List.mem_of_find?_eq_some hs
    have hp := List.find?_some hs
    have : s ∈ ls.filter (fun s => hashOf H cfg s == h) := List.mem_filter.mpr ⟨hmem, hp⟩
    have := List.length_pos.mpr (List.ne_nil_of_mem this)
    omega
  · intro hpos
    cases hf : ls.find? (fun s => hashOf H cfg s == h) with
    | some _ => rfl
    | none =>
      rw [List.find?_eq_none] at hf
      have : ls.filter (fun s => hashOf H cfg s == h) = [] := by
        rw [List.filter_eq_nil]
        exact hf
      rw [this] at hpos
      simp at hpos

theorem mem_of_firstWithHash (H : String → String) (cfg : Config) (h : String)
    (ls : List String) (s : String) (hf : firstWithHash H cfg h ls = some s) :
    s ∈ ls ∧ hashOf H cfg s = h := by
  refine ⟨List.mem_of_find?_eq_some hf, ?_⟩
  have := List.find?_some hf
  simpa using this

theorem mem_upsert_fst {K : Type} [DecidableEq K] {V : Type}
    (m : List (K × V)) (k : K) (f : Option V → V) (e : K × V)
    (h : e ∈ upsert m k f) : e ∈ m ∨ e.1 = k := by
  induction m with
  | nil =>
    simp [upsert] at h
    right; rw [h]
  | cons e0 r ih =>
    obtain ⟨k', v'⟩ := e0
    by_cases hk : k' = k
    · subst hk
      simp only [upsert, if_pos rfl] at h
      rcases List.mem_cons.mp h with hh | hh
      · right; rw [hh]
      · left; exact List.mem_cons_of_mem _ hh
    · simp only [upsert, if_neg hk] at h
      rcases List.mem_cons.mp h with hh | hh
      · left; rw [hh]; exact List.mem_cons_self _ _
      · rcases ih hh with hh | hh
        · left; exact List.mem_cons_of_mem _ hh
        · right; exact hh

theorem dinsert_eq_append {K : Type} [DecidableEq K] {V : Type}
    (m : List (K × V)) (k : K) (v : V) (h : k ∉ keysOf m) :
    dinsert m k v = m ++ [(k, v)] := by
  induction m with
  | nil => rfl
  | cons e r ih =>
    obtain ⟨k', v'⟩ := e
    simp only [keysOf_cons, List.mem_cons] at h
    push_neg at h
    have hne : ¬ (k' = k) := fun hh => h.1 hh.symm
    have hrec : dinsert r k v = r ++ [(k, v)] := ih h.2
    unfold dinsert at hrec ⊢
    simp only [upsert, if_neg hne]
    rw [List.cons_append, hrec]

theorem nodup_keys_process_file_fast (H : String → String) (cfg : Config)
    (body : List String) : (keysOf (process_file_fast H cfg body)).Nodup := by
  unfold process_file_fast
  exact foldl_inv (fun m => (keysOf m).Nodup) _ (scanLines body) [] (by simp)
    (fun m a _ hm => nodup_keysOf_upsert m _ _ hm)

/-- The per-hash effect of one FAST driver merge step. -/
theorem dGet_mergeFastFile (g : List (String × String × List (Nat × Nat))) (fid : Nat)
    (locals : List (String × String × Nat)) (hnd : (keysOf locals).Nodup) (h : String) :
    dGet (mergeFastFile g fid locals) h =
      match dGet locals h with
      | none => dGet g h
      | some pc =>
        some
          (let gc := (dGet g h).getD ("", [])
           ((if gc.1 = "" then pc.1 else gc.1), dinsert gc.2 fid pc.2)) := by
  induction locals generalizing g with
  | nil => simp [mergeFastFile]
  | cons e rest ih =>
    obtain ⟨he, pe⟩ := e
    simp only [keysOf_cons, List.nodup_cons] at hnd
    unfold mergeFastFile
    rw [List.foldl_cons]
    have hrest := ih (upsert g he
      (fun o =>
        let pc := o.getD ("", [])
        ((if pc.1 = "" then pe.1 else pc.1), dinsert pc.2 fid pe.2))) hnd.2
    unfold mergeFastFile at hrest
    rw [hrest]
    by_cases hh : he = h
    · subst hh
      rw [(dlookup_eq_none_iff_not_mem rest he).mpr hnd.1]
      rw [dlookup_cons, if_pos rfl, dlookup_upsert_self]
    · rw [dlookup_cons, if_neg hh]
      cases dGet rest h with
      | none => exact dlookup_upsert_ne g he h _ (fun hc => hh hc.symm)
      | some pc =>
        rw [dlookup_upsert_ne g he h _ (fun hc => hh hc.symm)]

/-- The per-file counters hash `h` accumulates over the files `fs` whose
FileIds start at `i0`. -/
def countsFrom (H : String → String) (cfg : Config) (i0 : Nat) (fs : List SrcFile)
    (h : String) : List (Nat × Nat) :=
  (List.enumFrom i0 fs).filterMap
    (fun e =>
      if 0 < countInFile H cfg h e.2 then some (e.1, countInFile H cfg h e.2) else none)

/-- The DisplayPrefix the FAST merge stores for `h` out of one file: that of
the file's first line hashing to `h`. -/
def filePfx (H : String → String) (cfg : Config) (h : String) (f : SrcFile) : String :=
  match firstWithHash H cfg h (scanLines (fileBody f)) with
  | some s => pfxOf cfg s
  | none => ""

/-- Specification of a `global_hashes` entry over the files `fs` with FileIds
starting at `i0`: the prefix of the first file containing `h` together with
the per-file counters. -/
def gSpec (H : String → String) (cfg : Config) (i0 : Nat) (fs : List SrcFile)
    (h : String) : Option (String × List (Nat × Nat)) :=
  match fs.find? (fun f => decide (0 < countInFile H cfg h f)) with
  | none => none
  | some f => some (filePfx H cfg h f, countsFrom H cfg i0 fs h)

/-- Merging a stored entry (with a non-empty prefix) with the contribution of
later files. -/
def mergeSpecEntry :
    Option (String × List (Nat × Nat)) → Option (String × List (Nat × Nat)) →
      Option (String × List (Nat × Nat))
  | none, o => o
  | some pc, none => some pc
  | some pc, some qd => some (pc.1, pc.2 ++ qd.2)

theorem countsFrom_cons (H : String → String) (cfg : Config) (i0 : Nat)
    (f : SrcFile) (fs : List SrcFile) (h : String) :
    countsFrom H cfg i0 (f :: fs) h =
      (if 0 < countInFile H cfg h f then [(i0, countInFile H cfg h f)] else []) ++
        countsFrom H cfg (i0 + 1) fs h := by
  unfold countsFrom
  show List.filterMap _ ((i0, f) :: List.enumFrom (i0 + 1) fs) = _
  rw [List.filterMap_cons]
  by_cases hc : 0 < countInFile H cfg h f <;> simp [hc]

theorem mem_enumFrom_snd {α : Type} :
    ∀ (l : List α) (n : Nat) (e : Nat × α), e ∈ List.enumFrom n l → e.2 ∈ l := by
  intro l
  induction l with
  | nil => intro n e he; simp [List.enumFrom] at he
  | cons a l ih =>
    intro n e he
    rcases List.mem_cons.mp he with he | he
    · rw [he]; exact List.mem_cons_self _ _
    · exact List.mem_cons_of_mem _ (ih (n + 1) e he)

theorem countsFrom_eq_nil (H : String → String) (cfg : Config) (i0 : Nat)
    (fs : List SrcFile) (h : String)
    (hn : fs.find? (fun f => decide (0 < countInFile H cfg h f)) = none) :
    countsFrom H cfg i0 fs h = [] := by
  rw [List.find?_eq_none] at hn
  unfold countsFrom
  rw [List.filterMap_eq_nil]
  intro e he
  have hm := mem_enumFrom_snd fs i0 e he
  have := hn e.2 hm
  simp only [decide_eq_true_eq] at this
  simp [this]

theorem gSpec_cons_pos (H : String → String) (cfg : Config) (i0 : Nat)
    (f : SrcFile) (fs : List SrcFile) (h : String)
    (hc : 0 < countInFile H cfg h f) :
    gSpec H cfg i0 (f :: fs) h =
      some (filePfx H cfg h f,
        (i0, countInFile H cfg h f) :: countsFrom H cfg (i0 + 1) fs h) := by
  unfold gSpec
  rw [List.find?_cons_of_pos _ (by simpa using hc), countsFrom_cons, if_pos hc]
  simp

theorem gSpec_cons_zero (H : String → String) (cfg : Config) (i0 : Nat)
    (f : SrcFile) (fs : List SrcFile) (h : String)
    (hc : ¬ 0 < countInFile H cfg h f) :
    gSpec H cfg i0 (f :: fs) h = gSpec H cfg (i0 + 1) fs h := by
  unfold gSpec
  rw [List.find?_cons_of_neg _ (by simpa using hc)]
  cases fs.find? (fun f => decide (0 < countInFile H cfg h f)) with
  | none => rfl
  | some f0 => rw [countsFrom_cons, if_neg hc, List.nil_append]

/-- The FAST merge preserves the driver invariant: stored prefixes are
non-empty and stored FileIds precede the next file id. -/
theorem mergeFastFile_inv (H : String → String) (cfg : Config)
    (hwl : 1 ≤ cfg.write_length) (g : List (String × String × List (Nat × Nat)))
    (fid : Nat) (body : List String)
    (hg : ∀ h p fc, dGet g h = some (p, fc) → p ≠ "" ∧ ∀ e ∈ fc, e.1 < fid) :
    ∀ h p fc,
      dGet (mergeFastFile g fid (process_file_fast H cfg body)) h = some (p, fc) →
        p ≠ "" ∧ ∀ e ∈ fc, e.1 < fid + 1 := by
  intro h p fc hres
  rw [dGet_mergeFastFile _ _ _ (nodup_keys_process_file_fast H cfg body)] at hres
  rw [dGet_process_file_fast] at hres
  cases hps : pfSpec H cfg (scanLines body) h with
  | none =>
    rw [hps] at hres
    rcases hg h p fc hres with ⟨hp, hfc⟩
    exact ⟨hp, fun e he => Nat.lt_succ_of_lt (hfc e he)⟩
  | some pc =>
    rw [hps] at hres
    simp only [Option.some.injEq] at hres
    have hpc1 : pc.1 ≠ "" := by
      unfold pfSpec at hps
      cases hf : firstWithHash H cfg h (scanLines body) with
      | none => rw [hf] at hps; simp at hps
      | some s =>
        rw [hf] at hps
        simp only [Option.some.injEq] at hps
        have hmem := (mem_of_firstWithHash H cfg h _ s hf).1
        have := pfxOf_ne_empty cfg s (mem_scanLines_ne_empty body s hmem) hwl
        rw [← hps]
        exact this
    cases hgv : dGet g h with
    | none =>
      rw [hgv] at hres
      simp only [Option.getD_none, if_pos rfl, Prod.mk.injEq] at hres
      obtain ⟨hp1, hp2⟩ := hres
      constructor
      · rw [← hp1]; exact hpc1
      · intro e he
        rw [← hp2] at he
        rcases mem_upsert_fst _ _ _ _ he with he | he
        · simp at he
        · omega
    | some gpc =>
      rw [hgv] at hres
      simp only [Option.getD_some] at hres
      rw [Prod.mk.injEq] at hres
      obtain ⟨hp1, hp2⟩ := hres
      rcases hg h gpc.1 gpc.2 (by rw [hgv]) with ⟨hp, hfc⟩
      constructor
      · rw [← hp1]
        by_cases hge : gpc.1 = "" <;> simp [hge, hpc1, hp]
      · intro e he
        rw [← hp2] at he
        rcases mem_upsert_fst _ _ _ _ he with he | he
        · exact Nat.lt_succ_of_lt (hfc e he)
        · omega

theorem gSpec_none_counts (H : String → String) (cfg : Config) (i0 : Nat)
    (fs : List SrcFile) (h : String) (hn : gSpec H cfg i0 fs h = none) :
    countsFrom H cfg i0 fs h = [] := by
  unfold gSpec at hn
  cases hf : fs.find? (fun f => decide (0 < countInFile H cfg h f)) with
  | none => exact countsFrom_eq_nil H cfg i0 fs h hf
  | some f0 => rw [hf] at hn; simp at hn

theorem gSpec_some_counts (H : String → String) (cfg : Config) (i0 : Nat)
    (fs : List SrcFile) (h : String) (qd : String × List (Nat × Nat))
    (hs : gSpec H cfg i0 fs h = some qd) : qd.2 = countsFrom H cfg i0 fs h := by
  unfold gSpec at hs
  cases hf : fs.find? (fun f => decide (0 < countInFile H cfg h f)) with
  | none => rw [hf] at hs; simp at hs
  | some f0 =>
    rw [hf] at hs
    simp only [Option.some.injEq] at hs
    rw [← hs]

/-- Characterization of the FAST driver fold: starting from a well-formed
partial map `g`, folding the remaining files (ids from `i0`) yields, for every
hash, the stored entry merged with the later files' specification. -/
theorem globalHashes_fold (H : String → String) (cfg : Config)
    (hwl : 1 ≤ cfg.write_length) :
    ∀ (fs : List SrcFile) (i0 : Nat) (g : List (String × String × List (Nat × Nat))),
      (∀ h p fc, dGet g h = some (p, fc) → p ≠ "" ∧ ∀ e ∈ fc, e.1 < i0) →
      ∀ h,
        dGet ((List.enumFrom i0 fs).foldl
          (fun g e => mergeFastFile g e.1 (process_file_fast H cfg (fileBody e.2))) g) h =
          mergeSpecEntry (dGet g h) (gSpec H cfg i0 fs h) := by
  intro fs
  induction fs with
  | nil =>
    intro i0 g hg h
    have hn : gSpec H cfg i0 [] h = none := rfl
    rw [hn]
    show dGet g h = mergeSpecEntry (dGet g h) none
    cases dGet g h <;> rfl
  | cons f fs ih =>
    intro i0 g hg h
    rw [show List.enumFrom i0 (f :: fs) = (i0, f) :: List.enumFrom (i0 + 1) fs from rfl,
      List.foldl_cons]
    have hg1 := mergeFastFile_inv H cfg hwl g i0 (fileBody f) hg
    rw [ih (i0 + 1) (mergeFastFile g i0 (process_file_fast H cfg (fileBody f))) hg1 h]
    rw [dGet_mergeFastFile _ _ _ (nodup_keys_process_file_fast H cfg (fileBody f)),
      dGet_process_file_fast]
    cases hps : pfSpec H cfg (scanLines (fileBody f)) h with
    | none =>
      have hfwh : firstWithHash H cfg h (scanLines (fileBody f)) = none := by
        unfold pfSpec at hps
        cases hfw : firstWithHash H cfg h (scanLines (fileBody f)) with
        | none => rfl
        | some s => rw [hfw] at hps; simp at hps
      have hc : ¬ 0 < countInFile H cfg h f := by
        have h0 := occCount_zero_of_firstWithHash_none H cfg h _ hfwh
        unfold countInFile
        omega
      rw [gSpec_cons_zero H cfg i0 f fs h hc]
    | some pc =>
      have hiff := firstWithHash_isSome_iff H cfg h (scanLines (fileBody f))
      obtain ⟨s0, hfw⟩ : ∃ s0, firstWithHash H cfg h (scanLines (fileBody f)) = some s0 := by
        unfold pfSpec at hps
        cases hfw : firstWithHash H cfg h (scanLines (fileBody f)) with
        | none => rw [hfw] at hps; simp at hps
        | some s => exact ⟨s, rfl⟩
      have hpc : pc = (pfxOf cfg s0, occCount H cfg h (scanLines (fileBody f))) := by
        unfold pfSpec at hps
        rw [hfw] at hps
        simp only [Option.some.injEq] at hps
        rw [← hps]
      have hc : 0 < countInFile H cfg h f := by
        unfold countInFile
        exact (hiff).mp (by rw [hfw]; rfl)
      have hfp : filePfx H cfg h f = pc.1 := by
        unfold filePfx
        rw [hfw, hpc]
      have hc2 : pc.2 = countInFile H cfg h f := by rw [hpc]; rfl
      rw [gSpec_cons_pos H cfg i0 f fs h hc]
      cases hgv : dGet g h with
      | none =>
        simp only [Option.getD_none, if_pos rfl]
        cases hrest : gSpec H cfg (i0 + 1) fs h with
        | none =>
          have hcf : countsFrom H cfg (i0 + 1) fs h = [] :=
            gSpec_none_counts H cfg (i0 + 1) fs h hrest
          rw [hcf]
          show some (pc.1, dinsert [] i0 pc.2) = some (filePfx H cfg h f, [(i0, countInFile H cfg h f)])
          rw [hfp, hc2]
          rfl
        | some qd =>
          have hcf : qd.2 = countsFrom H cfg (i0 + 1) fs h :=
            gSpec_some_counts H cfg (i0 + 1) fs h qd hrest
          show some (pc.1, dinsert [] i0 pc.2 ++ qd.2) = _
          rw [hfp, hc2, hcf]
          rfl
      | some gpc =>
        simp only [Option.getD_some]
        rcases hg h gpc.1 gpc.2 (by rw [hgv]) with ⟨hp, hfc⟩
        have hnotin : i0 ∉ keysOf gpc.2 := by
          intro hmem
          unfold keysOf at hmem
          obtain ⟨e, he, heq⟩ := List.mem_map.mp hmem
          have := hfc e he
          omega
        have hdins : dinsert gpc.2 i0 pc.2 = gpc.2 ++ [(i0, pc.2)] :=
          dinsert_eq_append gpc.2 i0 pc.2 hnotin
        rw [if_neg hp, hdins]
        cases hrest : gSpec H cfg (i0 + 1) fs h with
        | none =>
          have hcf : countsFrom H cfg (i0 + 1) fs h = [] :=
            gSpec_none_counts H cfg (i0 + 1) fs h hrest
          rw [hcf]
          show some (gpc.1, gpc.2 ++ [(i0, pc.2)]) =
            some (gpc.1, gpc.2 ++ [(i0, countInFile H cfg h f)])
          rw [hc2]
        | some qd =>
          have hcf : qd.2 = countsFrom H cfg (i0 + 1) fs h :=
            gSpec_some_counts H cfg (i0 + 1) fs h qd hrest
          show some (gpc.1, (gpc.2 ++ [(i0, pc.2)]) ++ qd.2) =
            some (gpc.1, gpc.2 ++ (i0, countInFile H cfg h f) :: countsFrom H cfg (i0 + 1) fs h)
          rw [hc2, hcf, List.append_assoc]
          rfl

/-- Per-hash characterization of `global_hashes`. -/
theorem dGet_globalHashes (H : String → String) (cfg : Config)
    (hwl : 1 ≤ cfg.write_length) (files : List SrcFile) (h : String) :
    dGet (globalHashes H cfg files) h = gSpec H cfg 0 files h := by
  have := globalHashes_fold H cfg hwl files 0 [] (by intro h p fc hc; simp at hc) h
  unfold globalHashes
  rw [show files.enum = List.enumFrom 0 files from rfl]
  rw [this]
  cases gSpec H cfg 0 files h <;> rfl

theorem dGet_map_pairs {K : Type} [DecidableEq K] {V : Type} (ks : List K)
    (v : K → V) (k : K) :
    dGet (ks.map (fun k => (k, v k))) k = if k ∈ ks then some (v k) else none := by
  induction ks with
  | nil => simp
  | cons a ks ih =>
    rw [List.map_cons, dlookup_cons]
    by_cases ha : a = k
    · subst ha; simp
    · rw [if_neg ha, ih]
      by_cases hm : k ∈ ks
      · simp [hm]
      · have hka : ¬ (k = a) := fun hh => ha hh.symm
        simp [hm, hka]

/-- Every insertion-ordered dict with distinct keys is the list of its keys
paired with their looked-up values. -/
theorem dict_eq_map_keys {K : Type} [DecidableEq K] {V : Type} (m : List (K × V))
    (v : K → V) (hnd : (keysOf m).Nodup) (hv : ∀ k ∈ keysOf m, dGet m k = some (v k)) :
    m = (keysOf m).map (fun k => (k, v k)) := by
  refine dict_ext m _ ?_ hnd ?_
  · unfold keysOf
    rw [List.map_map]
    exact (List.map_id' _).symm
  · intro k
    rw [dGet_map_pairs]
    by_cases hm : k ∈ keysOf m
    · rw [if_pos hm]; exact hv k hm
    · rw [if_neg hm]
      exact (dlookup_eq_none_iff_not_mem m k).mpr hm

theorem nodup_keys_mergeFastFile (g : List (String × String × List (Nat × Nat)))
    (fid : Nat) (locals : List (String × String × Nat))
    (h : (keysOf g).Nodup) : (keysOf (mergeFastFile g fid locals)).Nodup := by
  unfold mergeFastFile
  exact foldl_inv (fun m => (keysOf m).Nodup) _ locals g h
    (fun m a _ hm => nodup_keysOf_upsert m _ _ hm)

theorem nodup_keys_globalHashes (H : String → String) (cfg : Config)
    (files : List SrcFile) : (keysOf (globalHashes H cfg files)).Nodup := by
  unfold globalHashes
  exact foldl_inv (fun m => (keysOf m).Nodup) _ files.enum [] (by simp)
    (fun m a _ hm => nodup_keys_mergeFastFile m _ _ hm)

/-- Per-hash specification of the SAFE pass-1 Counter. -/
def cSpec (H : String → String) (cfg : Config) (ls : List String) (h : String) :
    Option Nat :=
  if 0 < occCount H cfg h ls then some (occCount H cfg h ls) else none

theorem process_file_safe_pass1_fold (H : String → String) (cfg : Config) :
    ∀ (ls ys : List String) (acc : List (String × Nat)),
      (∀ h, dGet acc h = cSpec H cfg ys h) →
      ∀ h,
        dGet (ls.foldl
          (fun c s => upsert c (hashOf H cfg s) (fun o => o.getD 0 + 1)) acc) h =
          cSpec H cfg (ys ++ ls) h := by
  intro ls
  induction ls with
  | nil => intro ys acc hacc h; simpa using hacc h
  | cons s ls ih =>
    intro ys acc hacc h
    rw [List.foldl_cons]
    have hstep : ∀ h', dGet (upsert acc (hashOf H cfg s) (fun o => o.getD 0 + 1)) h' =
        cSpec H cfg (ys ++ [s]) h' := by
      intro h'
      by_cases hh : hashOf H cfg s = h'
      · rw [← hh, dlookup_upsert_self, hh, hacc h']
        unfold cSpec
        rw [occCount_append_one, if_pos hh]
        by_cases hc : 0 < occCount H cfg h' ys
        · rw [if_pos hc, if_pos (by omega)]
          rfl
        · rw [if_neg hc, if_pos (by omega)]
          have : occCount H cfg h' ys = 0 := by omega
          rw [this]
          rfl
      · rw [dlookup_upsert_ne acc _ h' _ (fun he => hh he.symm), hacc h']
        unfold cSpec
        rw [occCount_append_one, if_neg hh]
        simp
    have := ih (ys ++ [s]) _ hstep h
    simpa using this

theorem dGet_process_file_safe_pass1 (H : String → String) (cfg : Config)
    (body : List String) (h : String) :
    dGet (process_file_safe_pass1 H cfg body) h = cSpec H cfg (scanLines body) h := by
  have := process_file_safe_pass1_fold H cfg (scanLines body) [] [] (fun h => rfl) h
  simpa [process_file_safe_pass1] using this

theorem nodup_keys_process_file_safe_pass1 (H : String → String) (cfg : Config)
    (body : List String) : (keysOf (process_file_safe_pass1 H cfg body)).Nodup := by
  unfold process_file_safe_pass1
  exact foldl_inv (fun m => (keysOf m).Nodup) _ (scanLines body) [] (by simp)
    (fun m a _ hm => nodup_keysOf_upsert m _ _ hm)

/-- The per-hash effect of folding one file's pass-1 Counter into
`hash_to_file_counts`. -/
theorem dGet_htfcStep (m : List (String × List (Nat × Nat))) (fid : Nat)
    (locals : List (String × Nat)) (hnd : (keysOf locals).Nodup) (h : String) :
    dGet (locals.foldl
      (fun m hc => upsert m hc.1 (fun o => dinsert (o.getD []) fid hc.2)) m) h =
      match dGet locals h with
      | none => dGet m h
      | some c => some (dinsert ((dGet m h).getD []) fid c) := by
  induction locals generalizing m with
  | nil => simp
  | cons e rest ih =>
    obtain ⟨he, ce⟩ := e
    simp only [keysOf_cons, List.nodup_cons] at hnd
    rw [List.foldl_cons]
    have hrest := ih (upsert m he (fun o => dinsert (o.getD []) fid ce)) hnd.2
    rw [hrest]
    by_cases hh : he = h
    · subst hh
      rw [(dlookup_eq_none_iff_not_mem rest he).mpr hnd.1]
      rw [dlookup_cons, if_pos rfl, dlookup_upsert_self]
    · rw [dlookup_cons, if_neg hh]
      cases dGet rest h with
      | none => exact dlookup_upsert_ne m he h _ (fun hc => hh hc.symm)
      | some c =>
        rw [dlookup_upsert_ne m he h _ (fun hc => hh hc.symm)]

/-- Specification of a `hash_to_file_counts` entry: the per-file counters when
the hash occurs at all. -/
def cfSpecFrom (H : String → String) (cfg : Config) (i0 : Nat) (fs : List SrcFile)
    (h : String) : Option (List (Nat × Nat)) :=
  if countsFrom H cfg i0 fs h = [] then none else some (countsFrom H cfg i0 fs h)

/-- Merging stored counters with later files' counters. -/
def mergeCountsEntry :
    Option (List (Nat × Nat)) → Option (List (Nat × Nat)) → Option (List (Nat × Nat))
  | none, o => o
  | some fc, none => some fc
  | some fc, some fc' => some (fc ++ fc')

theorem cfSpecFrom_cons_zero (H : String → String) (cfg : Config) (i0 : Nat)
    (f : SrcFile) (fs : List SrcFile) (h : String)
    (hc : ¬ 0 < countInFile H cfg h f) :
    cfSpecFrom H cfg i0 (f :: fs) h = cfSpecFrom H cfg (i0 + 1) fs h := by
  unfold cfSpecFrom
  rw [countsFrom_cons, if_neg hc, List.nil_append]

theorem cfSpecFrom_cons_pos (H : String → String) (cfg : Config) (i0 : Nat)
    (f : SrcFile) (fs : List SrcFile) (h : String)
    (hc : 0 < countInFile H cfg h f) :
    cfSpecFrom H cfg i0 (f :: fs) h =
      some ((i0, countInFile H cfg h f) :: countsFrom H cfg (i0 + 1) fs h) := by
  unfold cfSpecFrom
  rw [countsFrom_cons, if_pos hc]
  simp

theorem cfSpecFrom_none_counts (H : String → String) (cfg : Config) (i0 : Nat)
    (fs : List SrcFile) (h : String) (hn : cfSpecFrom H cfg i0 fs h = none) :
    countsFrom H cfg i0 fs h = [] := by
  unfold cfSpecFrom at hn
  by_cases hc : countsFrom H cfg i0 fs h = []
  · exact hc
  · rw [if_neg hc] at hn; simp at hn

theorem cfSpecFrom_some_counts (H : String → String) (cfg : Config) (i0 : Nat)
    (fs : List SrcFile) (h : String) (fc : List (Nat × Nat))
    (hs : cfSpecFrom H cfg i0 fs h = some fc) : fc = countsFrom H cfg i0 fs h := by
  unfold cfSpecFrom at hs
  by_cases hc : countsFrom H cfg i0 fs h = []
  · rw [if_pos hc] at hs; simp at hs
  · rw [if_neg hc] at hs
    simp only [Option.some.injEq] at hs
    rw [← hs]

theorem htfc_step_inv (H : String → String) (cfg : Config)
    (m : List (String × List (Nat × Nat))) (fid : Nat) (body : List String)
    (hm : ∀ h fc, dGet m h = some fc → ∀ e ∈ fc, e.1 < fid) :
    ∀ h fc,
      dGet ((process_file_safe_pass1 H cfg body).foldl
        (fun m hc => upsert m hc.1 (fun o => dinsert (o.getD []) fid hc.2)) m) h =
        some fc → ∀ e ∈ fc, e.1 < fid + 1 := by
  intro h fc hres
  rw [dGet_htfcStep _ _ _ (nodup_keys_process_file_safe_pass1 H cfg body)] at hres
  rw [dGet_process_file_safe_pass1] at hres
  cases hps : cSpec H cfg (scanLines body) h with
  | none =>
    rw [hps] at hres
    exact fun e he => Nat.lt_succ_of_lt (hm h fc hres e he)
  | some c =>
    rw [hps] at hres
    simp only [Option.some.injEq] at hres
    intro e he
    rw [← hres] at he
    cases hgv : dGet m h with
    | none =>
      rw [hgv] at he
      simp only [Option.getD_none] at he
      rcases mem_upsert_fst _ _ _ _ he with he | he
      · simp at he
      · omega
    | some fc0 =>
      rw [hgv] at he
      simp only [Option.getD_some] at he
      rcases mem_upsert_fst _ _ _ _ he with he | he
      · exact Nat.lt_succ_of_lt (hm h fc0 (by rw [hgv]) e he)
      · omega

theorem hashToFileCounts_fold (H : String → String) (cfg : Config) :
    ∀ (fs : List SrcFile) (i0 : Nat) (m : List (String × List (Nat × Nat))),
      (∀ h fc, dGet m h = some fc → ∀ e ∈ fc, e.1 < i0) →
      ∀ h,
        dGet ((List.enumFrom i0 fs).foldl
          (fun m e =>
            (process_file_safe_pass1 H cfg (fileBody e.2)).foldl
              (fun m hc => upsert m hc.1 (fun o => dinsert (o.getD []) e.1 hc.2)) m) m) h =
          mergeCountsEntry (dGet m h) (cfSpecFrom H cfg i0 fs h) := by
  intro fs
  induction fs with
  | nil =>
    intro i0 m hm h
    have hn : cfSpecFrom H cfg i0 [] h = none := rfl
    rw [hn]
    show dGet m h = mergeCountsEntry (dGet m h) none
    cases dGet m h <;> rfl
  | cons f fs ih =>
    intro i0 m hm h
    rw [show List.enumFrom i0 (f :: fs) = (i0, f) :: List.enumFrom (i0 + 1) fs from rfl,
      List.foldl_cons]
    have hm1 := htfc_step_inv H cfg m i0 (fileBody f) hm
    rw [ih (i0 + 1) _ hm1 h]
    rw [dGet_htfcStep _ _ _ (nodup_keys_process_file_safe_pass1 H cfg (fileBody f)),
      dGet_process_file_safe_pass1]
    cases hps : cSpec H cfg (scanLines (fileBody f)) h with
    | none =>
      have hc : ¬ 0 < countInFile H cfg h f := by
        unfold cSpec at hps
        by_cases hc : 0 < occCount H cfg h (scanLines (fileBody f))
        · rw [if_pos hc] at hps; simp at hps
        · exact hc
      rw [cfSpecFrom_cons_zero H cfg i0 f fs h hc]
    | some c =>
      have hc : 0 < countInFile H cfg h f := by
        unfold cSpec at hps
        by_cases hc : 0 < occCount H cfg h (scanLines (fileBody f))
        · exact hc
        · rw [if_neg hc] at hps; simp at hps
      have hcv : c = countInFile H cfg h f := by
        unfold cSpec at hps
        rw [if_pos (show 0 < occCount H cfg h (scanLines (fileBody f)) from hc)] at hps
        simp only [Option.some.injEq] at hps
        rw [← hps]
        rfl
      rw [cfSpecFrom_cons_pos H cfg i0 f fs h hc]
      cases hgv : dGet m h with
      | none =>
        simp only [Option.getD_none]
        cases hrest : cfSpecFrom H cfg (i0 + 1) fs h with
        | none =>
          rw [cfSpecFrom_none_counts H cfg (i0 + 1) fs h hrest]
          show some (dinsert [] i0 c) = some [(i0, countInFile H cfg h f)]
          rw [hcv]
          rfl
        | some fc' =>
          rw [cfSpecFrom_some_counts H cfg (i0 + 1) fs h fc' hrest]
          show some (dinsert [] i0 c ++ countsFrom H cfg (i0 + 1) fs h) = _
          rw [hcv]
          rfl
      | some fc0 =>
        simp only [Option.getD_some]
        have hnotin : i0 ∉ keysOf fc0 := by
          intro hmem
          unfold keysOf at hmem
          obtain ⟨e, he, heq⟩ := List.mem_map.mp hmem
          have := hm h fc0 (by rw [hgv]) e he
          omega
        rw [dinsert_eq_append fc0 i0 c hnotin]
        cases hrest : cfSpecFrom H cfg (i0 + 1) fs h with
        | none =>
          rw [cfSpecFrom_none_counts H cfg (i0 + 1) fs h hrest]
          show some (fc0 ++ [(i0, c)]) = some (fc0 ++ [(i0, countInFile H cfg h f)])
          rw [hcv]
        | some fc' =>
          rw [cfSpecFrom_some_counts H cfg (i0 + 1) fs h fc' hrest]
          show some ((fc0 ++ [(i0, c)]) ++ countsFrom H cfg (i0 + 1) fs h) =
            some (fc0 ++ (i0, countInFile H cfg h f) :: countsFrom H cfg (i0 + 1) fs h)
          rw [hcv, List.append_assoc]
          rfl

/-- Per-hash characterization of `hash_to_file_counts`. -/
theorem dGet_hashToFileCounts (H : String → String) (cfg : Config)
    (files : List SrcFile) (h : String) :
    dGet (hashToFileCounts H cfg files) h = cfSpecFrom H cfg 0 files h := by
  have := hashToFileCounts_fold H cfg files 0 [] (by intro h fc hc; simp at hc) h
  unfold hashToFileCounts
  rw [show files.enum = List.enumFrom 0 files from rfl]
  rw [this]
  cases cfSpecFrom H cfg 0 files h <;> rfl

theorem countsFrom_ne_nil_of_find (H : String → String) (cfg : Config) :
    ∀ (fs : List SrcFile) (i0 : Nat) (h : String) (f0 : SrcFile),
      fs.find? (fun f => decide (0 < countInFile H cfg h f)) = some f0 →
      countsFrom H cfg i0 fs h ≠ [] := by
  intro fs
  induction fs with
  | nil => intro i0 h f0 hf; simp at hf
  | cons f fs ih =>
    intro i0 h f0 hf
    by_cases hc : 0 < countInFile H cfg h f
    · rw [countsFrom_cons, if_pos hc]
      simp
    · rw [List.find?_cons_of_neg _ (by simpa using hc)] at hf
      rw [countsFrom_cons, if_neg hc, List.nil_append]
      exact ih (i0 + 1) h f0 hf

/-- The SAFE pass-1 map stores exactly the counter component of the FAST
global map. -/
theorem cfSpecFrom_eq_gSpec_counts (H : String → String) (cfg : Config) (i0 : Nat)
    (fs : List SrcFile) (h : String) :
    cfSpecFrom H cfg i0 fs h = (gSpec H cfg i0 fs h).map (fun pc => pc.2) := by
  unfold gSpec
  cases hf : fs.find? (fun f => decide (0 < countInFile H cfg h f)) with
  | none =>
    rw [Option.map_none']
    unfold cfSpecFrom
    rw [if_pos (countsFrom_eq_nil H cfg i0 fs h hf)]
  | some f0 =>
    rw [Option.map_some']
    unfold cfSpecFrom
    rw [if_neg (countsFrom_ne_nil_of_find H cfg fs i0 h f0 hf)]

theorem foldl_step_eq_filterMap {A K V : Type} [DecidableEq K]
    (step : List (K × V) → A → List (K × V)) (sel : A → Option (K × V))
    (hstep : ∀ od a, step od a =
      match sel a with
      | none => od
      | some kv => dinsert od kv.1 kv.2) :
    ∀ (l : List A) (acc : List (K × V)),
      (keysOf acc ++ (l.filterMap sel).map Prod.fst).Nodup →
      l.foldl step acc = acc ++ l.filterMap sel := by
  intro l
  induction l with
  | nil => intro acc _; simp
  | cons a l ih =>
    intro acc hnd
    rw [List.foldl_cons, hstep]
    cases hsel : sel a with
    | none =>
      rw [List.filterMap_cons_none hsel] at hnd ⊢
      exact ih acc hnd
    | some kv =>
      rw [List.filterMap_cons_some hsel] at hnd ⊢
      show l.foldl step (dinsert acc kv.1 kv.2) = acc ++ kv :: l.filterMap sel
      have hfresh : kv.1 ∉ keysOf acc := by
        intro hmem
        rw [List.map_cons] at hnd
        have := (List.nodup_append.mp hnd).2.2
        exact this hmem (by simp)
      rw [dinsert_eq_append acc kv.1 kv.2 hfresh]
      have hnd' : (keysOf (acc ++ [(kv.1, kv.2)]) ++ (l.filterMap sel).map Prod.fst).Nodup := by
        rw [keysOf_append]
        have : keysOf [(kv.1, kv.2)] = [kv.1] := rfl
        rw [this, List.append_assoc]
        rw [List.map_cons] at hnd
        have h1 := hnd
        rw [show keysOf acc ++ kv.1 :: (l.filterMap sel).map Prod.fst =
          keysOf acc ++ [kv.1] ++ (l.filterMap sel).map Prod.fst by simp] at h1
        rwa [← List.append_assoc]
      rw [ih (acc ++ [(kv.1, kv.2)]) hnd']
      simp

theorem filterMap_ite_eq_filter_map {A B : Type} (C : A → Prop) [DecidablePred C]
    (E : A → B) (l : List A) :
    l.filterMap (fun a => if C a then some (E a) else none) =
      (l.filter (fun a => decide (C a))).map E := by
  induction l with
  | nil => rfl
  | cons a l ih =>
    by_cases hc : C a
    · rw [List.filterMap_cons, List.filter_cons]
      simp only [hc, if_true, decide_True]
      rw [List.map_cons, ih]
    · rw [List.filterMap_cons, List.filter_cons]
      simp only [hc, if_false, decide_False]
      exact ih

theorem filter_union_perm {A : Type} (C1 C2 : A → Bool)
    (hdisj : ∀ a, ¬ (C1 a = true ∧ C2 a = true)) :
    ∀ l : List A, (l.filter C1 ++ l.filter C2) ~ l.filter (fun a => C1 a || C2 a) := by
  intro l
  induction l with
  | nil => rfl
  | cons a l ih =>
    by_cases h1 : C1 a
    · have h2 : C2 a = false := by
        cases hh : C2 a
        · rfl
        · exact absurd ⟨h1, hh⟩ (hdisj a)
      simp only [List.filter_cons, h1, h2, if_true, if_false, Bool.true_or, cond_true]
      simp only [List.cons_append]
      exact List.Perm.cons a ih
    · have h1' : C1 a = false := by simpa using h1
      by_cases h2 : C2 a
      · simp only [List.filter_cons, h1', h2, Bool.false_or]
        calc l.filter C1 ++ a :: l.filter C2
            ~ a :: (l.filter C1 ++ l.filter C2) := List.perm_middle
          _ ~ a :: l.filter (fun a => C1 a || C2 a) := List.Perm.cons a ih
      · have h2' : C2 a = false := by simpa using h2
        simp only [List.filter_cons, h1', h2', Bool.false_or]
        exact ih

theorem pyUpdate_eq_append {K : Type} [DecidableEq K] {V : Type} :
    ∀ (d m : List (K × V)), (keysOf m ++ keysOf d).Nodup → pyUpdate m d = m ++ d := by
  intro d
  induction d with
  | nil => intro m _; simp [pyUpdate]
  | cons e rest ih =>
    intro m hnd
    show pyUpdate (dinsert m e.1 e.2) rest = m ++ e :: rest
    have hfresh : e.1 ∉ keysOf m := by
      rw [show keysOf (e :: rest) = e.1 :: keysOf rest from rfl] at hnd
      intro hmem
      have := (List.nodup_append.mp hnd).2.2
      exact this hmem (by simp)
    rw [dinsert_eq_append m e.1 e.2 hfresh]
    have hnd' : (keysOf (m ++ [(e.1, e.2)]) ++ keysOf rest).Nodup := by
      rw [keysOf_append]
      have he : keysOf [(e.1, e.2)] = [e.1] := rfl
      rw [he, List.append_assoc]
      rw [show keysOf (e :: rest) = e.1 :: keysOf rest from rfl] at hnd
      simpa using hnd
    have := ih (m ++ [(e.1, e.2)]) hnd'
    rw [this]
    simp

theorem dGet_pyUpdate {K : Type} [DecidableEq K] {V : Type} :
    ∀ (d m : List (K × V)), (keysOf d).Nodup → ∀ k,
      dGet (pyUpdate m d) k =
        match dGet d k with
        | some v => some v
        | none => dGet m k := by
  intro d
  induction d with
  | nil => intro m _ k; simp [pyUpdate]
  | cons e rest ih =>
    intro m hnd k
    rw [show keysOf (e :: rest) = e.1 :: keysOf rest from rfl, List.nodup_cons] at hnd
    show dGet (pyUpdate (dinsert m e.1 e.2) rest) k = _
    rw [ih (dinsert m e.1 e.2) hnd.2 k]
    by_cases hk : e.1 = k
    · subst hk
      rw [(dlookup_eq_none_iff_not_mem rest e.1).mpr hnd.1]
      have he : dGet (e :: rest) e.1 = some e.2 := by
        obtain ⟨k1, v1⟩ := e
        rw [dlookup_cons, if_pos rfl]
      rw [he]
      show dGet (upsert m e.1 (fun _ => e.2)) e.1 = some e.2
      rw [dlookup_upsert_self]
    · have he : dGet (e :: rest) k = dGet rest k := by
        obtain ⟨k1, v1⟩ := e
        rw [dlookup_cons, if_neg hk]
      rw [he]
      cases dGet rest k with
      | some v => rfl
      | none =>
        show dGet (upsert m e.1 (fun _ => e.2)) k = dGet m k
        exact dlookup_upsert_ne m e.1 k _ (fun hh => hk hh.symm)

theorem dGet_some_mem {K : Type} [DecidableEq K] {V : Type} :
    ∀ (m : List (K × V)) (k : K) (v : V), dGet m k = some v → (k, v) ∈ m := by
  intro m
  induction m with
  | nil => intro k v h; simp at h
  | cons e rest ih =>
    intro k v h
    obtain ⟨k1, v1⟩ := e
    rw [dlookup_cons] at h
    by_cases hk : k1 = k
    · rw [if_pos hk] at h
      simp only [Option.some.injEq] at h
      subst hk
      rw [h]
      exact List.mem_cons_self _ _
    · rw [if_neg hk] at h
      exact List.mem_cons_of_mem _ (ih k v h)

theorem dGet_of_mem_nodup {K : Type} [DecidableEq K] {V : Type} :
    ∀ (m : List (K × V)) (k : K) (v : V), (k, v) ∈ m → (keysOf m).Nodup →
      dGet m k = some v := by
  intro m
  induction m with
  | nil => intro k v h _; simp at h
  | cons e rest ih =>
    intro k v h hnd
    obtain ⟨k1, v1⟩ := e
    rw [keysOf_cons, List.nodup_cons] at hnd
    rcases List.mem_cons.mp h with h | h
    · rw [dlookup_cons]
      simp only [Prod.mk.injEq] at h
      rw [if_pos h.1.symm, h.2]
    · rw [dlookup_cons]
      have hk : ¬ (k1 = k) := by
        intro hh
        subst hh
        exact hnd.1 (by
          unfold keysOf
          exact List.mem_map.mpr ⟨(k1, v), h, rfl⟩)
      rw [if_neg hk]
      exact ih k v h hnd.2

theorem dGet_perm {K : Type} [DecidableEq K] {V : Type} (m1 m2 : List (K × V))
    (hp : m1 ~ m2) (hnd : (keysOf m1).Nodup) (k : K) : dGet m1 k = dGet m2 k := by
  have hnd2 : (keysOf m2).Nodup := by
    unfold keysOf at *
    exact (hp.map Prod.fst).nodup_iff.mp hnd
  cases hv : dGet m1 k with
  | some v =>
    exact (dGet_of_mem_nodup m2 k v (hp.mem_iff.mp (dGet_some_mem m1 k v hv)) hnd2).symm
  | none =>
    rw [dlookup_eq_none_iff_not_mem] at hv
    have hm2 : k ∉ keysOf m2 := by
      intro hmem
      apply hv
      unfold keysOf at *
      obtain ⟨e, he, heq⟩ := List.mem_map.mp hmem
      exact List.mem_map.mpr ⟨e, hp.mem_iff.mpr he, heq⟩
    rw [(dlookup_eq_none_iff_not_mem m2 k).mpr hm2]

/-- The report writer's output depends only on the entry set: permuting a
duplicate-free duplicates map does not change `duplicates.txt`. -/
theorem write_duplicates_perm (d1 d2 : List (String × List String))
    (hp : d1 ~ d2) (hnd : (keysOf d1).Nodup) :
    write_duplicates d1 = write_duplicates d2 := by
  have hkeys : reportKeys d1 = reportKeys d2 := by
    unfold reportKeys
    apply sorted_eq_of_perm sLe (fun a b h1 h2 => sLe_antisymm h1 h2)
    · calc pySortedStr (keysOf d1) ~ keysOf d1 := pySortedStr_perm _
        _ ~ keysOf d2 := hp.map Prod.fst
        _ ~ pySortedStr (keysOf d2) := (pySortedStr_perm _).symm
    · exact pySortedStr_pairwise _
    · exact pySortedStr_pairwise _
  have hval : ∀ p, dupVal d1 p = dupVal d2 p := by
    intro p
    unfold dupVal
    rw [dGet_perm d1 d2 hp hnd p]
  have hlines : ∀ p, entryLines d1 p = entryLines d2 p := by
    intro p
    unfold entryLines entryNames
    rw [hval p]
  have hempty : d1.isEmpty = d2.isEmpty := by
    cases d1 with
    | nil => rw [List.Perm.nil_eq hp]
    | cons e r =>
      cases d2 with
      | nil => exact absurd hp.symm (by simp)
      | cons e2 r2 => rfl
  unfold write_duplicates reportLines
  rw [hkeys, hempty]
  by_cases he : d2.isEmpty
  · simp [he]
  · simp only [he, if_false]
    have hfun : (fun p => p :: entryLines d1 p) = (fun p => p :: entryLines d2 p) :=
      funext (fun p => by rw [hlines p])
    rw [hfun]

/-- Total occurrence count of a hash over the whole corpus. -/
def totalCountAll (H : String → String) (cfg : Config) (files : List SrcFile)
    (h : String) : Nat :=
  (files.map (countInFile H cfg h)).sum

/-- The canonical DisplayPrefix of a hash: that of the first corpus line
hashing to it. -/
def canonPfx (H : String → String) (cfg : Config) (files : List SrcFile)
    (h : String) : String :=
  match (corpusScan files).find? (fun p => hashOf H cfg p.2 == h) with
  | some p => pfxOf cfg p.2
  | none => ""

/-- The canonical report entry value of a hash: the basenames of the files
containing it, sorted by FileId. -/
def canonVal (H : String → String) (cfg : Config) (files : List SrcFile)
    (h : String) : List String :=
  sortedNamesOf files (countsFrom H cfg 0 files h)

/-- The canonical report entry of a duplicated hash. -/
def canonEntry (H : String → String) (cfg : Config) (files : List SrcFile)
    (h : String) : String × List String :=
  (canonPfx H cfg files h, canonVal H cfg files h)

/-- Corpus lines with equal hashes have equal DisplayPrefixes. This follows
from the claims' collision-freeness assumption together with the (amended)
assumption that lines with equal NormalizedKeys have equal prefixes. -/
def PfxFunctional (H : String → String) (cfg : Config) (files : List SrcFile) : Prop :=
  ∀ p1 ∈ corpusScan files, ∀ p2 ∈ corpusScan files,
    hashOf H cfg p1.2 = hashOf H cfg p2.2 → pfxOf cfg p1.2 = pfxOf cfg p2.2

/-- Duplicated corpus lines with equal DisplayPrefixes have equal hashes. -/
def DupPfxInjective (H : String → String) (cfg : Config) (files : List SrcFile) : Prop :=
  ∀ p1 ∈ corpusScan files, ∀ p2 ∈ corpusScan files,
    1 < totalCountAll H cfg files (hashOf H cfg p1.2) →
    1 < totalCountAll H cfg files (hashOf H cfg p2.2) →
    pfxOf cfg p1.2 = pfxOf cfg p2.2 → hashOf H cfg p1.2 = hashOf H cfg p2.2

theorem mem_enumFrom_of_mem {α : Type} :
    ∀ (l : List α) (a : α) (n : Nat), a ∈ l → ∃ i, (i, a) ∈ List.enumFrom n l := by
  intro l
  induction l with
  | nil => intro a n ha; simp at ha
  | cons x l ih =>
    intro a n ha
    rcases List.mem_cons.mp ha with ha | ha
    · exact ⟨n, by rw [ha]; exact List.mem_cons_self _ _⟩
    · obtain ⟨i, hi⟩ := ih a (n + 1) ha
      exact ⟨i, List.mem_cons_of_mem _ hi⟩

theorem mem_corpusScan_of_mem_file (files : List SrcFile) (f : SrcFile) (s : String)
    (hf : f ∈ files) (hs : s ∈ scanLines (fileBody f)) :
    ∃ i, (i, s) ∈ corpusScan files := by
  obtain ⟨i, hi⟩ := mem_enumFrom_of_mem files f 0 hf
  refine ⟨i, ?_⟩
  unfold corpusScan
  rw [show files.enum = List.enumFrom 0 files from rfl]
  rw [List.mem_flatMap]
  exact ⟨(i, f), hi, List.mem_map.mpr ⟨s, hs, rfl⟩⟩

theorem mem_file_of_mem_corpusScan (files : List SrcFile) (p : Nat × String)
    (hp : p ∈ corpusScan files) :
    ∃ f ∈ files, p.2 ∈ scanLines (fileBody f) := by
  unfold corpusScan at hp
  rw [List.mem_flatMap] at hp
  obtain ⟨e, he, hmem⟩ := hp
  obtain ⟨s, hs, heq⟩ := List.mem_map.mp hmem
  refine ⟨e.2, mem_enumFrom_snd files 0 e he, ?_⟩
  rw [← heq]
  exact hs

/-- The hash of every counted occurrence: `countInFile` is positive exactly
when some scanned line of the file hashes to `h`. -/
theorem countInFile_pos_iff (H : String → String) (cfg : Config) (h : String)
    (f : SrcFile) :
    0 < countInFile H cfg h f ↔ ∃ s ∈ scanLines (fileBody f), hashOf H cfg s = h := by
  unfold countInFile occCount
  rw [List.length_pos]
  constructor
  · intro hne
    obtain ⟨s, hs⟩ := List.exists_mem_of_ne_nil _ hne
    have := List.mem_filter.mp hs
    exact ⟨s, this.1, by simpa using this.2⟩
  · rintro ⟨s, hs, hh⟩
    intro hnil
    have hmem : s ∈ (scanLines (fileBody f)).filter (fun s => hashOf H cfg s == h) :=
      List.mem_filter.mpr ⟨hs, by simp [hh]⟩
    rw [hnil] at hmem
    simp at hmem

theorem totalCountAll_eq_countsTotal (H : String → String) (cfg : Config) :
    ∀ (fs : List SrcFile) (i0 : Nat) (h : String),
      countsTotal (countsFrom H cfg i0 fs h) = (fs.map (countInFile H cfg h)).sum := by
  intro fs
  induction fs with
  | nil => intro i0 h; rfl
  | cons f fs ih =>
    intro i0 h
    rw [countsFrom_cons]
    unfold countsTotal
    rw [List.map_append, List.sum_append, List.map_cons, List.sum_cons]
    by_cases hc : 0 < countInFile H cfg h f
    · rw [if_pos hc]
      have := ih (i0 + 1) h
      unfold countsTotal at this
      rw [show (([(i0, countInFile H cfg h f)] : List (Nat × Nat)).map (fun e => e.2)).sum =
        countInFile H cfg h f by simp]
      rw [this]
    · rw [if_neg hc]
      have h0 : countInFile H cfg h f = 0 := by omega
      have := ih (i0 + 1) h
      unfold countsTotal at this
      rw [h0]
      simpa using this

theorem countsFrom_counts_pos (H : String → String) (cfg : Config) :
    ∀ (fs : List SrcFile) (i0 : Nat) (h : String) (e : Nat × Nat),
      e ∈ countsFrom H cfg i0 fs h → 0 < e.2 := by
  intro fs
  induction fs with
  | nil => intro i0 h e he; simp [countsFrom, List.enumFrom] at he
  | cons f fs ih =>
    intro i0 h e he
    rw [countsFrom_cons] at he
    by_cases hc : 0 < countInFile H cfg h f
    · rw [if_pos hc] at he
      rcases List.mem_append.mp he with he | he
      · simp only [List.mem_singleton] at he
        rw [he]
        exact hc
      · exact ih (i0 + 1) h e he
    · rw [if_neg hc] at he
      rw [List.nil_append] at he
      exact ih (i0 + 1) h e he

theorem length_le_countsTotal (fc : List (Nat × Nat))
    (hpos : ∀ e ∈ fc, 0 < e.2) : fc.length ≤ countsTotal fc := by
  induction fc with
  | nil => simp [countsTotal]
  | cons e fc ih =>
    unfold countsTotal at *
    rw [List.map_cons, List.sum_cons, List.length_cons]
    have h1 := hpos e (List.mem_cons_self _ _)
    have h2 := ih (fun e' he' => hpos e' (List.mem_cons_of_mem _ he'))
    omega

/-- For an occurring hash, the SAFE duplicate condition (several files, or
several occurrences in one) is exactly "more than one occurrence in total". -/
theorem dup_condition_iff (H : String → String) (cfg : Config) (files : List SrcFile)
    (h : String) :
    (1 < (countsFrom H cfg 0 files h).length ∨ 1 < countsTotal (countsFrom H cfg 0 files h)) ↔
      1 < totalCountAll H cfg files h := by
  have htot : countsTotal (countsFrom H cfg 0 files h) = totalCountAll H cfg files h :=
    totalCountAll_eq_countsTotal H cfg files 0 h
  constructor
  · rintro (hl | ht)
    · have := length_le_countsTotal (countsFrom H cfg 0 files h)
        (fun e he => countsFrom_counts_pos H cfg files 0 h e he)
      omega
    · omega
  · intro ht
    right
    omega

theorem sum_map_pos_iff {α : Type} (g : α → Nat) :
    ∀ l : List α, 0 < (l.map g).sum ↔ ∃ x ∈ l, 0 < g x := by
  intro l
  induction l with
  | nil => simp
  | cons a l ih =>
    rw [List.map_cons, List.sum_cons]
    constructor
    · intro hpos
      by_cases ha : 0 < g a
      · exact ⟨a, List.mem_cons_self _ _, ha⟩
      · have : 0 < (l.map g).sum := by omega
        obtain ⟨x, hx, hgx⟩ := ih.mp this
        exact ⟨x, List.mem_cons_of_mem _ hx, hgx⟩
    · rintro ⟨x, hx, hgx⟩
      rcases List.mem_cons.mp hx with hx | hx
      · subst hx; omega
      · have := ih.mpr ⟨x, hx, hgx⟩
        omega

theorem exists_corpus_of_totalCount_pos (H : String → String) (cfg : Config)
    (files : List SrcFile) (h : String) (hpos : 0 < totalCountAll H cfg files h) :
    ∃ p ∈ corpusScan files, hashOf H cfg p.2 = h := by
  unfold totalCountAll at hpos
  obtain ⟨f, hf, hc⟩ := (sum_map_pos_iff _ files).mp hpos
  obtain ⟨s, hs, hh⟩ := (countInFile_pos_iff H cfg h f).mp hc
  obtain ⟨i, hi⟩ := mem_corpusScan_of_mem_file files f s hf hs
  exact ⟨(i, s), hi, hh⟩

theorem totalCount_pos_of_corpus (H : String → String) (cfg : Config)
    (files : List SrcFile) (p : Nat × String) (hp : p ∈ corpusScan files) :
    0 < totalCountAll H cfg files (hashOf H cfg p.2) := by
  obtain ⟨f, hf, hs⟩ := mem_file_of_mem_corpusScan files p hp
  unfold totalCountAll
  rw [sum_map_pos_iff]
  exact ⟨f, hf, (countInFile_pos_iff H cfg _ f).mpr ⟨p.2, hs, rfl⟩⟩

/-- A canonical-prefix witness: an occurring hash owns a corpus line whose
DisplayPrefix is the canonical one. -/
theorem canonPfx_spec (H : String → String) (cfg : Config) (files : List SrcFile)
    (h : String) (hpos : 0 < totalCountAll H cfg files h) :
    ∃ q ∈ corpusScan files, hashOf H cfg q.2 = h ∧
      canonPfx H cfg files h = pfxOf cfg q.2 := by
  obtain ⟨p, hp, hh⟩ := exists_corpus_of_totalCount_pos H cfg files h hpos
  unfold canonPfx
  cases hf : (corpusScan files).find? (fun q => hashOf H cfg q.2 == h) with
  | none =>
    rw [List.find?_eq_none] at hf
    have := hf p hp
    simp [hh] at this
  | some q =>
    have hqmem := List.mem_of_find?_eq_some hf
    have hqh : hashOf H cfg q.2 = h := by simpa using List.find?_some hf
    exact ⟨q, hqmem, hqh, rfl⟩

theorem pfx_eq_canonPfx (H : String → String) (cfg : Config) (files : List SrcFile)
    (hfun : PfxFunctional H cfg files) (p : Nat × String) (hp : p ∈ corpusScan files)
    (h : String) (hh : hashOf H cfg p.2 = h) :
    pfxOf cfg p.2 = canonPfx H cfg files h := by
  have hpos : 0 < totalCountAll H cfg files h := by
    rw [← hh]
    exact totalCount_pos_of_corpus H cfg files p hp
  obtain ⟨q, hq, hqh, hcan⟩ := canonPfx_spec H cfg files h hpos
  rw [hcan]
  exact hfun p hp q hq (by rw [hh, hqh])

theorem canonPfx_inj_on_dup (H : String → String) (cfg : Config) (files : List SrcFile)
    (hinj : DupPfxInjective H cfg files) (h1 h2 : String)
    (hd1 : 1 < totalCountAll H cfg files h1) (hd2 : 1 < totalCountAll H cfg files h2)
    (heq : canonPfx H cfg files h1 = canonPfx H cfg files h2) : h1 = h2 := by
  obtain ⟨q1, hq1, hqh1, hcan1⟩ := canonPfx_spec H cfg files h1 (by omega)
  obtain ⟨q2, hq2, hqh2, hcan2⟩ := canonPfx_spec H cfg files h2 (by omega)
  have hpe : pfxOf cfg q1.2 = pfxOf cfg q2.2 := by
    rw [← hcan1, ← hcan2, heq]
  have := hinj q1 hq1 q2 hq2 (by rw [hqh1]; exact hd1) (by rw [hqh2]; exact hd2) hpe
  rw [hqh1, hqh2] at this
  exact this

theorem canonPfx_ne_empty (H : String → String) (cfg : Config) (files : List SrcFile)
    (hwl : 1 ≤ cfg.write_length) (h : String)
    (hpos : 0 < totalCountAll H cfg files h) : canonPfx H cfg files h ≠ "" := by
  obtain ⟨q, hq, _, hcan⟩ := canonPfx_spec H cfg files h hpos
  obtain ⟨f, hf, hs⟩ := mem_file_of_mem_corpusScan files q hq
  rw [hcan]
  exact pfxOf_ne_empty cfg q.2 (mem_scanLines_ne_empty _ _ hs) hwl

theorem gSpec_isSome_iff (H : String → String) (cfg : Config) (files : List SrcFile)
    (h : String) :
    (gSpec H cfg 0 files h).isSome = true ↔ 0 < totalCountAll H cfg files h := by
  unfold gSpec totalCountAll
  rw [sum_map_pos_iff]
  cases hf : files.find? (fun f => decide (0 < countInFile H cfg h f)) with
  | none =>
    simp only [Option.isSome_none]
    rw [List.find?_eq_none] at hf
    constructor
    · intro hh; simp at hh
    · rintro ⟨f, hff, hc⟩
      have := hf f hff
      simp [hc] at this
  | some f0 =>
    simp only [Option.isSome_some, true_iff]
    have := List.find?_some hf
    exact ⟨f0, List.mem_of_find?_eq_some hf, by simpa using this⟩

/-- Per-hash specification of `process_file_safe_pass2` on one file. -/
def p2Spec (H : String → String) (cfg : Config) (dup : String → Bool)
    (ls : List String) (h : String) : Option String :=
  if dup h then (firstWithHash H cfg h ls).map (fun s => pfxOf cfg s) else none

theorem process_file_safe_pass2_fold (H : String → String) (cfg : Config)
    (dup : String → Bool) :
    ∀ (ls ys : List String) (acc : List (String × String)),
      (∀ h, dGet acc h = p2Spec H cfg dup ys h) →
      ∀ h,
        dGet (ls.foldl
          (fun res s =>
            let hh := hashOf H cfg s
            if dup hh && !(dGet res hh).isSome then dinsert res hh (pfxOf cfg s) else res)
          acc) h = p2Spec H cfg dup (ys ++ ls) h := by
  intro ls
  induction ls with
  | nil => intro ys acc hacc h; simpa using hacc h
  | cons s ls ih =>
    intro ys acc hacc h
    rw [List.foldl_cons]
    have hstep : ∀ h',
        dGet (let hh := hashOf H cfg s
          if dup hh && !(dGet acc hh).isSome then dinsert acc hh (pfxOf cfg s) else acc) h' =
          p2Spec H cfg dup (ys ++ [s]) h' := by
      intro h'
      show dGet (if dup (hashOf H cfg s) && !(dGet acc (hashOf H cfg s)).isSome then
        dinsert acc (hashOf H cfg s) (pfxOf cfg s) else acc) h' = _
      by_cases hh : hashOf H cfg s = h'
      · by_cases hdup : dup h'
        · cases hget : dGet acc h' with
          | some v =>
            have hcond : (dup (hashOf H cfg s) && !(dGet acc (hashOf H cfg s)).isSome) = false := by
              rw [hh, hget]
              simp
            rw [hcond, if_neg (by simp)]
            rw [hacc h']
            unfold p2Spec
            rw [if_pos hdup]
            have hfirst : (firstWithHash H cfg h' ys).map (fun s => pfxOf cfg s) = some v := by
              have hc2 := hacc h'
              rw [hget] at hc2
              unfold p2Spec at hc2
              rw [if_pos hdup] at hc2
              exact hc2.symm
            rw [firstWithHash_append_one]
            cases hfw : firstWithHash H cfg h' ys with
            | none => rw [hfw] at hfirst; simp at hfirst
            | some s0 => rw [if_pos hdup]
          | none =>
            have hcond : (dup (hashOf H cfg s) && !(dGet acc (hashOf H cfg s)).isSome) = true := by
              rw [hh, hget]
              simp [hdup]
            rw [hcond, if_pos rfl, hh]
            unfold dinsert
            rw [dlookup_upsert_self]
            unfold p2Spec
            rw [if_pos hdup]
            have hfw : firstWithHash H cfg h' ys = none := by
              have hc2 := hacc h'
              rw [hget] at hc2
              unfold p2Spec at hc2
              rw [if_pos hdup] at hc2
              cases hf : firstWithHash H cfg h' ys with
              | none => rfl
              | some s0 => rw [hf] at hc2; simp at hc2
            rw [firstWithHash_append_one, hfw, if_pos hh]
            rfl
        · have hdup' : dup (hashOf H cfg s) = false := by rw [hh]; simpa using hdup
          rw [hdup']
          simp only [Bool.false_and, Bool.false_eq_true, if_false]
          rw [hacc h']
          unfold p2Spec
          have hd2 : dup h' = false := by simpa using hdup
          rw [hd2]
          simp
      · have hne : firstWithHash H cfg h' (ys ++ [s]) = firstWithHash H cfg h' ys := by
          rw [firstWithHash_append_one]
          cases firstWithHash H cfg h' ys with
          | some s0 => rfl
          | none => rw [if_neg hh]
        by_cases hcond : dup (hashOf H cfg s) && !(dGet acc (hashOf H cfg s)).isSome
        · rw [if_pos hcond]
          unfold dinsert
          rw [dlookup_upsert_ne acc _ h' _ (fun he => hh he.symm), hacc h']
          unfold p2Spec
          rw [hne]
        · rw [if_neg hcond, hacc h']
          unfold p2Spec
          rw [hne]
    have := ih (ys ++ [s]) _ hstep h
    simpa using this

theorem dGet_process_file_safe_pass2 (H : String → String) (cfg : Config)
    (dup : String → Bool) (body : List String) (h : String) :
    dGet (process_file_safe_pass2 H cfg dup body) h =
      p2Spec H cfg dup (scanLines body) h := by
  have := process_file_safe_pass2_fold H cfg dup (scanLines body) [] []
    (fun h => by
      show (none : Option String) = p2Spec H cfg dup [] h
      unfold p2Spec firstWithHash
      by_cases hdup : dup h <;> simp [hdup]) h
  simpa [process_file_safe_pass2] using this

theorem nodup_keys_process_file_safe_pass2 (H : String → String) (cfg : Config)
    (dup : String → Bool) (body : List String) :
    (keysOf (process_file_safe_pass2 H cfg dup body)).Nodup := by
  unfold process_file_safe_pass2
  apply foldl_inv (fun m => (keysOf m).Nodup) _ (scanLines body) [] (by simp)
  intro m a _ hm
  show (keysOf (if _ then dinsert m (hashOf H cfg a) (pfxOf cfg a) else m)).Nodup
  by_cases hcond : dup (hashOf H cfg a) && !(dGet m (hashOf H cfg a)).isSome
  · rw [if_pos hcond]
    exact nodup_keysOf_upsert m _ _ hm
  · rw [if_neg hcond]
    exact hm

/-- The merged `hash_to_prefix_map` value: later files dominate via
`dict.update`. -/
def p2MapSpec (H : String → String) (cfg : Config) (dup : String → Bool) :
    List SrcFile → String → Option String
  | [], _ => none
  | f :: fs, h =>
    match p2MapSpec H cfg dup fs h with
    | some v => some v
    | none => p2Spec H cfg dup (scanLines (fileBody f)) h

theorem hashToPfxMap_fold (H : String → String) (cfg : Config) (dup : String → Bool) :
    ∀ (fs : List SrcFile) (m0 : List (String × String)) (h : String),
      dGet (fs.foldl (fun m f => pyUpdate m (process_file_safe_pass2 H cfg dup (fileBody f))) m0) h =
        match p2MapSpec H cfg dup fs h with
        | some v => some v
        | none => dGet m0 h := by
  intro fs
  induction fs with
  | nil =>
    intro m0 h
    show dGet m0 h = _
    rfl
  | cons f fs ih =>
    intro m0 h
    rw [List.foldl_cons, ih]
    rw [dGet_pyUpdate _ _ (nodup_keys_process_file_safe_pass2 H cfg dup (fileBody f)) h]
    rw [dGet_process_file_safe_pass2]
    show _ = match (match p2MapSpec H cfg dup fs h with
      | some v => some v
      | none => p2Spec H cfg dup (scanLines (fileBody f)) h) with
      | some v => some v
      | none => dGet m0 h
    cases p2MapSpec H cfg dup fs h with
    | some v => rfl
    | none =>
      cases p2Spec H cfg dup (scanLines (fileBody f)) h with
      | some v => rfl
      | none => rfl

theorem dGet_hashToPfxMap (H : String → String) (cfg : Config) (dup : String → Bool)
    (files : List SrcFile) (h : String) :
    dGet (hashToPfxMap H cfg files dup) h = p2MapSpec H cfg dup files h := by
  unfold hashToPfxMap
  rw [hashToPfxMap_fold]
  cases p2MapSpec H cfg dup files h with
  | some v => rfl
  | none => rfl

theorem nodup_keys_pyUpdate {K : Type} [DecidableEq K] {V : Type}
    (m d : List (K × V)) (hm : (keysOf m).Nodup) : (keysOf (pyUpdate m d)).Nodup := by
  unfold pyUpdate
  exact foldl_inv (fun m => (keysOf m).Nodup) _ d m hm
    (fun m a _ hm => nodup_keysOf_upsert m _ _ hm)

theorem nodup_keys_hashToPfxMap (H : String → String) (cfg : Config)
    (dup : String → Bool) (files : List SrcFile) :
    (keysOf (hashToPfxMap H cfg files dup)).Nodup := by
  unfold hashToPfxMap
  exact foldl_inv (fun m => (keysOf m).Nodup) _ files [] (by simp)
    (fun m a _ hm => nodup_keys_pyUpdate m _ hm)

theorem p2MapSpec_isSome_iff (H : String → String) (cfg : Config) (dup : String → Bool) :
    ∀ (fs : List SrcFile) (h : String),
      (p2MapSpec H cfg dup fs h).isSome = true ↔
        dup h = true ∧ ∃ f ∈ fs, 0 < countInFile H cfg h f := by
  intro fs
  induction fs with
  | nil => intro h; simp [p2MapSpec]
  | cons f fs ih =>
    intro h
    show (match p2MapSpec H cfg dup fs h with
      | some v => some v
      | none => p2Spec H cfg dup (scanLines (fileBody f)) h).isSome = true ↔ _
    cases hrest : p2MapSpec H cfg dup fs h with
    | some v =>
      simp only [Option.isSome_some, true_iff]
      have := ih h
      rw [hrest] at this
      simp only [Option.isSome_some, true_iff] at this
      obtain ⟨hd, f0, hf0, hc⟩ := this
      exact ⟨hd, f0, List.mem_cons_of_mem _ hf0, hc⟩
    | none =>
      unfold p2Spec
      by_cases hdup : dup h
      · rw [if_pos hdup]
        have hno : ¬ (dup h = true ∧ ∃ f ∈ fs, 0 < countInFile H cfg h f) := by
          intro hcontra
          have hcc := (ih h).mpr hcontra
          rw [hrest] at hcc
          simp at hcc
        constructor
        · intro hs
          rw [Option.isSome_map'] at hs
          rw [firstWithHash_isSome_iff] at hs
          exact ⟨hdup, f, List.mem_cons_self _ _, hs⟩
        · rintro ⟨hd, f0, hf0, hc⟩
          rcases List.mem_cons.mp hf0 with hf0 | hf0
          · subst hf0
            rw [Option.isSome_map', firstWithHash_isSome_iff]
            exact hc
          · exact absurd ⟨hd, f0, hf0, hc⟩ hno
      · rw [if_neg hdup]
        constructor
        · intro hs; simp at hs
        · intro hcontra; exact absurd hcontra.1 hdup

theorem p2MapSpec_val (H : String → String) (cfg : Config) (dup : String → Bool)
    (files : List SrcFile) (hfun : PfxFunctional H cfg files) :
    ∀ (fs : List SrcFile), (∀ f ∈ fs, f ∈ files) →
      ∀ h v, p2MapSpec H cfg dup fs h = some v → v = canonPfx H cfg files h := by
  intro fs
  induction fs with
  | nil => intro _ h v hv; simp [p2MapSpec] at hv
  | cons f fs ih =>
    intro hsub h v hv
    have hv' : (match p2MapSpec H cfg dup fs h with
      | some w => some w
      | none => p2Spec H cfg dup (scanLines (fileBody f)) h) = some v := hv
    cases hrest : p2MapSpec H cfg dup fs h with
    | some w =>
      rw [hrest] at hv'
      simp only [Option.some.injEq] at hv'
      rw [← hv']
      exact ih (fun f' hf' => hsub f' (List.mem_cons_of_mem _ hf')) h w hrest
    | none =>
      rw [hrest] at hv'
      unfold p2Spec at hv'
      by_cases hdup : dup h
      · rw [if_pos hdup] at hv'
        cases hfw : firstWithHash H cfg h (scanLines (fileBody f)) with
        | none => rw [hfw] at hv'; simp at hv'
        | some s =>
          rw [hfw] at hv'
          simp only [Option.map_some', Option.some.injEq] at hv'
          obtain ⟨hsmem, hsh⟩ := mem_of_firstWithHash H cfg h _ s hfw
          obtain ⟨i, hic⟩ := mem_corpusScan_of_mem_file files f s
            (hsub f (List.mem_cons_self _ _)) hsmem
          rw [← hv']
          exact pfx_eq_canonPfx H cfg files hfun (i, s) hic h hsh
      · rw [if_neg hdup] at hv'
        simp at hv'

/-- SAFE's duplicate-hash set is exactly the hashes with more than one
occurrence in total. -/
theorem isDupHash_iff (H : String → String) (cfg : Config) (files : List SrcFile)
    (h : String) :
    isDupHash (hashToFileCounts H cfg files) h = true ↔
      1 < totalCountAll H cfg files h := by
  unfold isDupHash
  rw [dGet_hashToFileCounts]
  cases hcf : cfSpecFrom H cfg 0 files h with
  | none =>
    have hnil := cfSpecFrom_none_counts H cfg 0 files h hcf
    have htot : totalCountAll H cfg files h = 0 := by
      unfold totalCountAll
      rw [← totalCountAll_eq_countsTotal H cfg files 0 h, hnil]
      rfl
    simp [htot]
  | some fc =>
    have hfc := cfSpecFrom_some_counts H cfg 0 files h fc hcf
    subst hfc
    show (decide (1 < (countsFrom H cfg 0 files h).length) ||
      decide (1 < countsTotal (countsFrom H cfg 0 files h))) = true ↔ _
    rw [Bool.or_eq_true, decide_eq_true_eq, decide_eq_true_eq]
    exact dup_condition_iff H cfg files h

/-- The hash keys of the FAST global map. -/
def gKeys (H : String → String) (cfg : Config) (files : List SrcFile) : List String :=
  keysOf (globalHashes H cfg files)

/-- The stored value of a hash in the FAST global map (meaningful on `gKeys`). -/
def gVal (H : String → String) (cfg : Config) (files : List SrcFile) (h : String) :
    String × List (Nat × Nat) :=
  (gSpec H cfg 0 files h).getD ("", [])

/-- The hashes the report contains: the duplicated hashes, in FAST global-map
order. -/
def dupKeys (H : String → String) (cfg : Config) (files : List SrcFile) : List String :=
  (gKeys H cfg files).filter (fun h => decide (1 < totalCountAll H cfg files h))

/-- The canonical duplicates map every engine produces (up to entry order). -/
def canonData (H : String → String) (cfg : Config) (files : List SrcFile) :
    List (String × List String) :=
  (dupKeys H cfg files).map (canonEntry H cfg files)

theorem mem_gKeys_iff (H : String → String) (cfg : Config)
    (hwl : 1 ≤ cfg.write_length) (files : List SrcFile) (h : String) :
    h ∈ gKeys H cfg files ↔ 0 < totalCountAll H cfg files h := by
  unfold gKeys
  rw [← dlookup_isSome_iff_mem_keysOf, dGet_globalHashes H cfg hwl files h]
  exact gSpec_isSome_iff H cfg files h

theorem globalHashes_eq_map (H : String → String) (cfg : Config)
    (hwl : 1 ≤ cfg.write_length) (files : List SrcFile) :
    globalHashes H cfg files =
      (gKeys H cfg files).map (fun h => (h, gVal H cfg files h)) := by
  apply dict_eq_map_keys _ _ (nodup_keys_globalHashes H cfg files)
  intro k hk
  have hs := (dlookup_isSome_iff_mem_keysOf _ k).mpr hk
  rw [dGet_globalHashes H cfg hwl files k] at hs ⊢
  cases hsp : gSpec H cfg 0 files k with
  | none => rw [hsp] at hs; simp at hs
  | some x =>
    unfold gVal
    rw [hsp]
    rfl

theorem gVal_snd (H : String → String) (cfg : Config) (files : List SrcFile)
    (h : String) (hpos : 0 < totalCountAll H cfg files h) :
    (gVal H cfg files h).2 = countsFrom H cfg 0 files h := by
  unfold gVal
  cases hsp : gSpec H cfg 0 files h with
  | none =>
    have := (gSpec_isSome_iff H cfg files h).mpr hpos
    rw [hsp] at this
    simp at this
  | some x =>
    rw [Option.getD_some]
    exact gSpec_some_counts H cfg 0 files h x hsp

theorem gVal_fst (H : String → String) (cfg : Config) (files : List SrcFile)
    (hfun : PfxFunctional H cfg files) (h : String)
    (hpos : 0 < totalCountAll H cfg files h) :
    (gVal H cfg files h).1 = canonPfx H cfg files h := by
  unfold gVal
  cases hsp : gSpec H cfg 0 files h with
  | none =>
    have := (gSpec_isSome_iff H cfg files h).mpr hpos
    rw [hsp] at this
    simp at this
  | some x =>
    rw [Option.getD_some]
    unfold gSpec at hsp
    cases hf : files.find? (fun f => decide (0 < countInFile H cfg h f)) with
    | none => rw [hf] at hsp; simp at hsp
    | some f =>
      rw [hf] at hsp
      simp only [Option.some.injEq] at hsp
      have hx1 : x.1 = filePfx H cfg h f := by rw [← hsp]
      rw [hx1]
      have hfmem := List.mem_of_find?_eq_some hf
      have hfc : 0 < countInFile H cfg h f := by simpa using List.find?_some hf
      unfold filePfx
      cases hfw : firstWithHash H cfg h (scanLines (fileBody f)) with
      | none =>
        have h0 := occCount_zero_of_firstWithHash_none H cfg h _ hfw
        unfold countInFile at hfc
        omega
      | some s =>
        obtain ⟨hsmem, hsh⟩ := mem_of_firstWithHash H cfg h _ s hfw
        obtain ⟨i, hic⟩ := mem_corpusScan_of_mem_file files f s hfmem hsmem
        exact pfx_eq_canonPfx H cfg files hfun (i, s) hic h hsh

/-- The entry `run_strategy_fast` inserts for an inter-file hash. -/
def fastInterSel (files : List SrcFile) (e : String × String × List (Nat × Nat)) :
    Option (String × List String) :=
  if e.2.2.length > 1 then some (e.2.1, sortedNamesOf files e.2.2) else none

/-- The entry `run_strategy_fast` inserts for an intra-file hash. -/
def fastIntraSel (files : List SrcFile) (e : String × String × List (Nat × Nat)) :
    Option (String × List String) :=
  if e.2.2.length > 1 then none
  else if countsTotal e.2.2 > 1 then
    match e.2.2 with
    | [] => none
    | fidc :: _ => some (e.2.1, [idToName files fidc.1])
  else none

theorem countsFrom_singleton (H : String → String) (cfg : Config) (files : List SrcFile)
    (h : String) (hlen : ¬ 1 < (countsFrom H cfg 0 files h).length)
    (htot : 1 < countsTotal (countsFrom H cfg 0 files h)) :
    ∃ e, countsFrom H cfg 0 files h = [e] := by
  cases hc : countsFrom H cfg 0 files h with
  | nil =>
    rw [hc] at htot
    unfold countsTotal at htot
    simp at htot
  | cons a t =>
    cases t with
    | nil => exact ⟨a, rfl⟩
    | cons b t2 =>
      rw [hc] at hlen
      simp at hlen

theorem sortedNamesOf_singleton (files : List SrcFile) (e : Nat × Nat) :
    sortedNamesOf files [e] = [idToName files e.1] := rfl

theorem fastInterData_eq (H : String → String) (cfg : Config) (files : List SrcFile)
    (hwl : 1 ≤ cfg.write_length) (hfun : PfxFunctional H cfg files)
    (hdinj : DupPfxInjective H cfg files) :
    fastInterData H cfg files =
      ((gKeys H cfg files).filter
        (fun h => decide (1 < (countsFrom H cfg 0 files h).length))).map
        (canonEntry H cfg files) := by
  have hpoint : ∀ h ∈ gKeys H cfg files,
      (fastInterSel files ∘ fun h => (h, gVal H cfg files h)) h =
        if 1 < (countsFrom H cfg 0 files h).length then some (canonEntry H cfg files h)
        else none := by
    intro h hk
    have hpos := (mem_gKeys_iff H cfg hwl files h).mp hk
    have hsnd := gVal_snd H cfg files h hpos
    show (if (gVal H cfg files h).2.length > 1 then
      some ((gVal H cfg files h).1, sortedNamesOf files (gVal H cfg files h).2) else none) = _
    by_cases hc : 1 < (countsFrom H cfg 0 files h).length
    · rw [if_pos (show (gVal H cfg files h).2.length > 1 by rw [hsnd]; exact hc), if_pos hc]
      have hdup : 1 < totalCountAll H cfg files h :=
        (dup_condition_iff H cfg files h).mp (Or.inl hc)
      rw [hsnd, gVal_fst H cfg files hfun h (by omega)]
      rfl
    · rw [if_neg (show ¬ (gVal H cfg files h).2.length > 1 by rw [hsnd]; exact hc), if_neg hc]
  have hfm : (globalHashes H cfg files).filterMap (fastInterSel files) =
      ((gKeys H cfg files).filter
        (fun h => decide (1 < (countsFrom H cfg 0 files h).length))).map
        (canonEntry H cfg files) := by
    rw [globalHashes_eq_map H cfg hwl files, List.filterMap_map, List.filterMap_congr hpoint,
      filterMap_ite_eq_filter_map]
  have hnodup : ((globalHashes H cfg files).filterMap (fastInterSel files)).map Prod.fst |>.Nodup := by
    rw [hfm, List.map_map]
    have hcomp : Prod.fst ∘ canonEntry H cfg files = canonPfx H cfg files := rfl
    rw [hcomp]
    apply List.Nodup.map_on
    · intro x hx y hy hxy
      have hxd : 1 < totalCountAll H cfg files x := by
        have hm := List.of_mem_filter hx
        have hl : 1 < (countsFrom H cfg 0 files x).length := by simpa using hm
        exact (dup_condition_iff H cfg files x).mp (Or.inl hl)
      have hyd : 1 < totalCountAll H cfg files y := by
        have hm := List.of_mem_filter hy
        have hl : 1 < (countsFrom H cfg 0 files y).length := by simpa using hm
        exact (dup_condition_iff H cfg files y).mp (Or.inl hl)
      exact canonPfx_inj_on_dup H cfg files hdinj x y hxd hyd hxy
    · exact (nodup_keys_globalHashes H cfg files).filter _
  have hfold := foldl_step_eq_filterMap
    (fun od (e : String × String × List (Nat × Nat)) =>
      if e.2.2.length > 1 then dinsert od e.2.1 (sortedNamesOf files e.2.2) else od)
    (fastInterSel files)
    (by
      intro od e
      by_cases hc : e.2.2.length > 1
      · simp [fastInterSel, hc]
      · simp [fastInterSel, hc])
    (globalHashes H cfg files) []
    (by simpa using hnodup)
  unfold fastInterData
  rw [hfold, List.nil_append, hfm]

theorem fastIntraData_eq (H : String → String) (cfg : Config) (files : List SrcFile)
    (hwl : 1 ≤ cfg.write_length) (hfun : PfxFunctional H cfg files)
    (hdinj : DupPfxInjective H cfg files) :
    fastIntraData H cfg files =
      ((gKeys H cfg files).filter
        (fun h => decide ((countsFrom H cfg 0 files h).length ≤ 1 ∧
          1 < countsTotal (countsFrom H cfg 0 files h)))).map
        (canonEntry H cfg files) := by
  have hpoint : ∀ h ∈ gKeys H cfg files,
      (fastIntraSel files ∘ fun h => (h, gVal H cfg files h)) h =
        if (countsFrom H cfg 0 files h).length ≤ 1 ∧
            1 < countsTotal (countsFrom H cfg 0 files h) then
          some (canonEntry H cfg files h)
        else none := by
    intro h hk
    have hpos := (mem_gKeys_iff H cfg hwl files h).mp hk
    have hsnd := gVal_snd H cfg files h hpos
    show (if (gVal H cfg files h).2.length > 1 then none
      else if countsTotal (gVal H cfg files h).2 > 1 then
        match (gVal H cfg files h).2 with
        | [] => none
        | fidc :: _ => some ((gVal H cfg files h).1, [idToName files fidc.1])
      else none) = _
    rw [hsnd]
    by_cases hlen : 1 < (countsFrom H cfg 0 files h).length
    · rw [if_pos hlen, if_neg (by omega)]
    · rw [if_neg hlen]
      by_cases htot : 1 < countsTotal (countsFrom H cfg 0 files h)
      · rw [if_pos htot, if_pos (show _ ∧ _ from ⟨by omega, htot⟩)]
        obtain ⟨e, he⟩ := countsFrom_singleton H cfg files h hlen htot
        rw [he]
        have hdup : 1 < totalCountAll H cfg files h :=
          (dup_condition_iff H cfg files h).mp (Or.inr htot)
        rw [gVal_fst H cfg files hfun h (by omega)]
        unfold canonEntry canonVal
        rw [he, sortedNamesOf_singleton]
      · rw [if_neg htot, if_neg (by
          rintro ⟨h1, h2⟩
          exact htot h2)]
  have hfm : (globalHashes H cfg files).filterMap (fastIntraSel files) =
      ((gKeys H cfg files).filter
        (fun h => decide ((countsFrom H cfg 0 files h).length ≤ 1 ∧
          1 < countsTotal (countsFrom H cfg 0 files h)))).map
        (canonEntry H cfg files) := by
    rw [globalHashes_eq_map H cfg hwl files, List.filterMap_map, List.filterMap_congr hpoint,
      filterMap_ite_eq_filter_map]
  have hnodup : ((globalHashes H cfg files).filterMap (fastIntraSel files)).map Prod.fst |>.Nodup := by
    rw [hfm, List.map_map]
    have hcomp : Prod.fst ∘ canonEntry H cfg files = canonPfx H cfg files := rfl
    rw [hcomp]
    apply List.Nodup.map_on
    · intro x hx y hy hxy
      have hxd : 1 < totalCountAll H cfg files x := by
        have hm := List.of_mem_filter hx
        have hl : (countsFrom H cfg 0 files x).length ≤ 1 ∧
            1 < countsTotal (countsFrom H cfg 0 files x) := by simpa using hm
        exact (dup_condition_iff H cfg files x).mp (Or.inr hl.2)
      have hyd : 1 < totalCountAll H cfg files y := by
        have hm := List.of_mem_filter hy
        have hl : (countsFrom H cfg 0 files y).length ≤ 1 ∧
            1 < countsTotal (countsFrom H cfg 0 files y) := by simpa using hm
        exact (dup_condition_iff H cfg files y).mp (Or.inr hl.2)
      exact canonPfx_inj_on_dup H cfg files hdinj x y hxd hyd hxy
    · exact (nodup_keys_globalHashes H cfg files).filter _
  have hfold := foldl_step_eq_filterMap
    (fun od (e : String × String × List (Nat × Nat)) =>
      if e.2.2.length > 1 then od
      else if countsTotal e.2.2 > 1 then
        match e.2.2 with
        | [] => od
        | fidc :: _ => dinsert od e.2.1 [idToName files fidc.1]
      else od)
    (fastIntraSel files)
    (by
      intro od e
      by_cases hc : e.2.2.length > 1
      · simp [fastIntraSel, hc]
      · by_cases ht : countsTotal e.2.2 > 1
        · cases he : e.2.2 with
          | nil => simp [fastIntraSel, hc, ht, he]
          | cons a t =>
            rw [he] at hc ht
            have h0 : ¬ 0 < t.length := by
              simp only [List.length_cons] at hc
              omega
            simp [fastIntraSel, he, h0, ht]
        · simp [fastIntraSel, hc, ht])
    (globalHashes H cfg files) []
    (by simpa using hnodup)
  unfold fastIntraData
  rw [hfold, List.nil_append, hfm]

theorem fastOutputData_perm_canonData (H : String → String) (cfg : Config)
    (files : List SrcFile) (hwl : 1 ≤ cfg.write_length)
    (hfun : PfxFunctional H cfg files) (hdinj : DupPfxInjective H cfg files) :
    fastOutputData H cfg files ~ canonData H cfg files ∧
      (keysOf (fastOutputData H cfg files)).Nodup := by
  have hinter := fastInterData_eq H cfg files hwl hfun hdinj
  have hintra := fastIntraData_eq H cfg files hwl hfun hdinj
  have hdup1 : ∀ h ∈ (gKeys H cfg files).filter
      (fun h => decide (1 < (countsFrom H cfg 0 files h).length)),
      1 < totalCountAll H cfg files h := by
    intro h hh
    have hm := List.of_mem_filter hh
    have hl : 1 < (countsFrom H cfg 0 files h).length := by simpa using hm
    exact (dup_condition_iff H cfg files h).mp (Or.inl hl)
  have hdup2 : ∀ h ∈ (gKeys H cfg files).filter
      (fun h => decide ((countsFrom H cfg 0 files h).length ≤ 1 ∧
        1 < countsTotal (countsFrom H cfg 0 files h))),
      1 < totalCountAll H cfg files h := by
    intro h hh
    have hm := List.of_mem_filter hh
    have hl : (countsFrom H cfg 0 files h).length ≤ 1 ∧
        1 < countsTotal (countsFrom H cfg 0 files h) := by simpa using hm
    exact (dup_condition_iff H cfg files h).mp (Or.inr hl.2)
  have hdisjf : ((gKeys H cfg files).filter
      (fun h => decide (1 < (countsFrom H cfg 0 files h).length))).Disjoint
      ((gKeys H cfg files).filter
        (fun h => decide ((countsFrom H cfg 0 files h).length ≤ 1 ∧
          1 < countsTotal (countsFrom H cfg 0 files h)))) := by
    intro h h1 h2
    have hm1 : 1 < (countsFrom H cfg 0 files h).length := by
      simpa using List.of_mem_filter h1
    have hm2 : (countsFrom H cfg 0 files h).length ≤ 1 ∧
        1 < countsTotal (countsFrom H cfg 0 files h) := by
      simpa using List.of_mem_filter h2
    omega
  have hndapp : (((gKeys H cfg files).filter
      (fun h => decide (1 < (countsFrom H cfg 0 files h).length))) ++
      ((gKeys H cfg files).filter
        (fun h => decide ((countsFrom H cfg 0 files h).length ≤ 1 ∧
          1 < countsTotal (countsFrom H cfg 0 files h))))).Nodup :=
    List.Nodup.append ((nodup_keys_globalHashes H cfg files).filter _)
      ((nodup_keys_globalHashes H cfg files).filter _) hdisjf
  have hndk : ((((gKeys H cfg files).filter
      (fun h => decide (1 < (countsFrom H cfg 0 files h).length))) ++
      ((gKeys H cfg files).filter
        (fun h => decide ((countsFrom H cfg 0 files h).length ≤ 1 ∧
          1 < countsTotal (countsFrom H cfg 0 files h))))).map
        (canonPfx H cfg files)).Nodup := by
    apply List.Nodup.map_on
    · intro x hx y hy hxy
      have hxd : 1 < totalCountAll H cfg files x := by
        rcases List.mem_append.mp hx with h | h
        · exact hdup1 x h
        · exact hdup2 x h
      have hyd : 1 < totalCountAll H cfg files y := by
        rcases List.mem_append.mp hy with h | h
        · exact hdup1 y h
        · exact hdup2 y h
      exact canonPfx_inj_on_dup H cfg files hdinj x y hxd hyd hxy
    · exact hndapp
  have hkmap : ∀ l : List String,
      keysOf (l.map (canonEntry H cfg files)) = l.map (canonPfx H cfg files) := by
    intro l
    unfold keysOf
    rw [List.map_map]
    rfl
  have happend : fastOutputData H cfg files =
      ((((gKeys H cfg files).filter
        (fun h => decide (1 < (countsFrom H cfg 0 files h).length))) ++
        ((gKeys H cfg files).filter
          (fun h => decide ((countsFrom H cfg 0 files h).length ≤ 1 ∧
            1 < countsTotal (countsFrom H cfg 0 files h))))).map
        (canonEntry H cfg files)) := by
    unfold fastOutputData
    rw [pyUpdate_eq_append (fastIntraData H cfg files) (fastInterData H cfg files)
      (by rw [hinter, hintra, hkmap, hkmap, ← List.map_append]; exact hndk)]
    rw [hinter, hintra, List.map_append]
  have hcond : ∀ h ∈ gKeys H cfg files,
      (decide (1 < (countsFrom H cfg 0 files h).length) ||
        decide ((countsFrom H cfg 0 files h).length ≤ 1 ∧
          1 < countsTotal (countsFrom H cfg 0 files h)))
      = decide (1 < totalCountAll H cfg files h) := by
    intro h _
    apply Bool.eq_iff_iff.mpr
    simp only [Bool.or_eq_true, decide_eq_true_eq]
    have hiff := dup_condition_iff H cfg files h
    have htot := totalCountAll_eq_countsTotal H cfg files 0 h
    constructor
    · rintro (hl | ⟨_, ht⟩)
      · exact hiff.mp (Or.inl hl)
      · exact hiff.mp (Or.inr ht)
    · intro ha
      have ht : 1 < countsTotal (countsFrom H cfg 0 files h) := by
        rw [htot]
        unfold totalCountAll at ha
        exact ha
      by_cases hl : 1 < (countsFrom H cfg 0 files h).length
      · exact Or.inl hl
      · exact Or.inr ⟨by omega, ht⟩
  constructor
  · rw [happend]
    have hperm := (filter_union_perm
      (fun h => decide (1 < (countsFrom H cfg 0 files h).length))
      (fun h => decide ((countsFrom H cfg 0 files h).length ≤ 1 ∧
        1 < countsTotal (countsFrom H cfg 0 files h)))
      (by
        intro a ⟨ha1, ha2⟩
        have hm1 : 1 < (countsFrom H cfg 0 files a).length := by simpa using ha1
        have hm2 : (countsFrom H cfg 0 files a).length ≤ 1 ∧
            1 < countsTotal (countsFrom H cfg 0 files a) := by simpa using ha2
        omega)
      (gKeys H cfg files)).map (canonEntry H cfg files)
    refine hperm.trans ?_
    rw [List.filter_congr hcond]
    unfold canonData dupKeys
    exact List.Perm.refl _
  · rw [happend, hkmap]
    exact hndk

/-- The duplicate-hash membership test the SAFE driver passes to pass 2. -/
def safeDup (H : String → String) (cfg : Config) (files : List SrcFile) : String → Bool :=
  isDupHash (hashToFileCounts H cfg files)

/-- The entry `run_strategy_safe` inserts for a pass-2 map entry. -/
def safeSel (H : String → String) (cfg : Config) (files : List SrcFile)
    (e : String × String) : Option (String × List String) :=
  if safeDup H cfg files e.1 then
    match dGet (hashToFileCounts H cfg files) e.1 with
    | none => none
    | some fc =>
      if fc.length > 1 then some (e.2, sortedNamesOf files fc)
      else if countsTotal fc > 1 then
        match fc with
        | [] => none
        | fidc :: _ => some (e.2, [idToName files fidc.1])
      else none
  else none

/-- The hash keys of the SAFE pass-2 map. -/
def pKeys (H : String → String) (cfg : Config) (files : List SrcFile) : List String :=
  keysOf (hashToPfxMap H cfg files (safeDup H cfg files))

theorem mem_pKeys_iff (H : String → String) (cfg : Config) (files : List SrcFile)
    (h : String) :
    h ∈ pKeys H cfg files ↔ 1 < totalCountAll H cfg files h := by
  unfold pKeys
  rw [← dlookup_isSome_iff_mem_keysOf, dGet_hashToPfxMap, p2MapSpec_isSome_iff]
  constructor
  · rintro ⟨hd, _⟩
    exact (isDupHash_iff H cfg files h).mp hd
  · intro ht
    refine ⟨(isDupHash_iff H cfg files h).mpr ht, ?_⟩
    have hpos : 0 < totalCountAll H cfg files h := by omega
    unfold totalCountAll at hpos
    exact (sum_map_pos_iff _ files).mp hpos

theorem cfSpec_of_dup (H : String → String) (cfg : Config) (files : List SrcFile)
    (h : String) (ht : 1 < totalCountAll H cfg files h) :
    dGet (hashToFileCounts H cfg files) h = some (countsFrom H cfg 0 files h) := by
  rw [dGet_hashToFileCounts]
  cases hcf : cfSpecFrom H cfg 0 files h with
  | none =>
    have hnil := cfSpecFrom_none_counts H cfg 0 files h hcf
    have hsum := totalCountAll_eq_countsTotal H cfg files 0 h
    rw [hnil] at hsum
    unfold countsTotal at hsum
    simp at hsum
    unfold totalCountAll at ht
    omega
  | some fc =>
    rw [cfSpecFrom_some_counts H cfg 0 files h fc hcf]

theorem hashToPfxMap_eq_map (H : String → String) (cfg : Config) (files : List SrcFile)
    (hfun : PfxFunctional H cfg files) :
    hashToPfxMap H cfg files (safeDup H cfg files) =
      (pKeys H cfg files).map (fun h => (h, canonPfx H cfg files h)) := by
  have hv : ∀ k ∈ keysOf (hashToPfxMap H cfg files (safeDup H cfg files)),
      dGet (hashToPfxMap H cfg files (safeDup H cfg files)) k =
        some (canonPfx H cfg files k) := by
    intro k hk
    have hs : (dGet (hashToPfxMap H cfg files (safeDup H cfg files)) k).isSome = true :=
      (dlookup_isSome_iff_mem_keysOf _ k).mpr hk
    cases hval : dGet (hashToPfxMap H cfg files (safeDup H cfg files)) k with
    | none => rw [hval] at hs; simp at hs
    | some v =>
      have hp2 : p2MapSpec H cfg (safeDup H cfg files) files k = some v := by
        rw [← dGet_hashToPfxMap]
        exact hval
      rw [p2MapSpec_val H cfg (safeDup H cfg files) files hfun files
        (fun f hf => hf) k v hp2]
  exact dict_eq_map_keys _ (canonPfx H cfg files)
    (nodup_keys_hashToPfxMap H cfg (safeDup H cfg files) files) hv

theorem filterMap_some_eq_map {A B : Type} (f : A → B) :
    ∀ l : List A, l.filterMap (fun a => some (f a)) = l.map f := by
  intro l
  induction l with
  | nil => rfl
  | cons a l ih => simp [List.filterMap_cons, ih]

/-- The fold body of `output_data` in `run_strategy_safe`. -/
def safeStep (H : String → String) (cfg : Config) (files : List SrcFile)
    (od : List (String × List String)) (e : String × String) :
    List (String × List String) :=
  if safeDup H cfg files e.1 then
    match dGet (hashToFileCounts H cfg files) e.1 with
    | none => od
    | some fc =>
      if fc.length > 1 then dinsert od e.2 (sortedNamesOf files fc)
      else if countsTotal fc > 1 then
        match fc with
        | [] => od
        | fidc :: _ => dinsert od e.2 [idToName files fidc.1]
      else od
  else od

theorem safeOutputData_as_fold (H : String → String) (cfg : Config)
    (files : List SrcFile) :
    safeOutputData H cfg files =
      (hashToPfxMap H cfg files (safeDup H cfg files)).foldl (safeStep H cfg files) [] := rfl

theorem safeOutputData_eq (H : String → String) (cfg : Config) (files : List SrcFile)
    (hfun : PfxFunctional H cfg files) (hdinj : DupPfxInjective H cfg files) :
    safeOutputData H cfg files = (pKeys H cfg files).map (canonEntry H cfg files) := by
  have hfm : (hashToPfxMap H cfg files (safeDup H cfg files)).filterMap
      (safeSel H cfg files) = (pKeys H cfg files).map (canonEntry H cfg files) := by
    rw [hashToPfxMap_eq_map H cfg files hfun, List.filterMap_map]
    have hpoint : ∀ h ∈ pKeys H cfg files,
        (safeSel H cfg files ∘ fun h => (h, canonPfx H cfg files h)) h =
          some (canonEntry H cfg files h) := by
      intro h hk
      have ht : 1 < totalCountAll H cfg files h := (mem_pKeys_iff H cfg files h).mp hk
      have hd : safeDup H cfg files h = true := (isDupHash_iff H cfg files h).mpr ht
      have hfc := cfSpec_of_dup H cfg files h ht
      show safeSel H cfg files (h, canonPfx H cfg files h) = _
      unfold safeSel
      rw [if_pos hd]
      by_cases hl : (countsFrom H cfg 0 files h).length > 1
      · simp only [hfc]
        rw [if_pos hl]
        rfl
      · have htot : 1 < countsTotal (countsFrom H cfg 0 files h) := by
          rcases (dup_condition_iff H cfg files h).mpr ht with hl' | ht'
          · exact absurd hl' hl
          · exact ht'
        obtain ⟨e0, he0⟩ := countsFrom_singleton H cfg files h hl htot
        simp only [hfc]
        rw [if_neg hl, if_pos htot, he0]
        unfold canonEntry canonVal
        rw [he0, sortedNamesOf_singleton]
    rw [List.filterMap_congr hpoint, filterMap_some_eq_map]
  have hnodup : (((hashToPfxMap H cfg files (safeDup H cfg files)).filterMap
      (safeSel H cfg files)).map Prod.fst).Nodup := by
    rw [hfm, List.map_map]
    have hcomp : Prod.fst ∘ canonEntry H cfg files = canonPfx H cfg files := rfl
    rw [hcomp]
    apply List.Nodup.map_on
    · intro x hx y hy hxy
      exact canonPfx_inj_on_dup H cfg files hdinj x y
        ((mem_pKeys_iff H cfg files x).mp hx) ((mem_pKeys_iff H cfg files y).mp hy) hxy
    · exact nodup_keys_hashToPfxMap H cfg (safeDup H cfg files) files
  have hfold := foldl_step_eq_filterMap
    (safeStep H cfg files)
    (safeSel H cfg files)
    (by
      intro od e
      by_cases hd : safeDup H cfg files e.1
      · cases hfc : dGet (hashToFileCounts H cfg files) e.1 with
        | none => simp [safeStep, safeSel, hd, hfc]
        | some fc =>
          by_cases hl : fc.length > 1
          · simp [safeStep, safeSel, hd, hfc, hl]
          · by_cases htc : countsTotal fc > 1
            · cases fc with
              | nil => simp [safeStep, safeSel, hd, hfc, hl, htc]
              | cons a t =>
                have h0 : ¬ 0 < t.length := by
                  simp only [List.length_cons] at hl
                  omega
                simp [safeStep, safeSel, hd, hfc, h0, htc]
            · simp [safeStep, safeSel, hd, hfc, hl, htc]
      · simp [safeStep, safeSel, hd])
    (hashToPfxMap H cfg files (safeDup H cfg files)) []
    (by simpa using hnodup)
  rw [safeOutputData_as_fold, hfold, List.nil_append, hfm]

theorem mem_dupKeys_iff (H : String → String) (cfg : Config)
    (hwl : 1 ≤ cfg.write_length) (files : List SrcFile) (h : String) :
    h ∈ dupKeys H cfg files ↔ 1 < totalCountAll H cfg files h := by
  unfold dupKeys
  rw [List.mem_filter]
  constructor
  · rintro ⟨_, hd⟩
    simpa using hd
  · intro ht
    refine ⟨(mem_gKeys_iff H cfg hwl files h).mpr (by omega), by simpa using ht⟩

theorem nodup_dupKeys (H : String → String) (cfg : Config) (files : List SrcFile) :
    (dupKeys H cfg files).Nodup :=
  (nodup_keys_globalHashes H cfg files).filter _

theorem safeOutputData_perm_canonData (H : String → String) (cfg : Config)
    (files : List SrcFile) (hwl : 1 ≤ cfg.write_length)
    (hfun : PfxFunctional H cfg files) (hdinj : DupPfxInjective H cfg files) :
    safeOutputData H cfg files ~ canonData H cfg files ∧
      (keysOf (safeOutputData H cfg files)).Nodup := by
  have heq := safeOutputData_eq H cfg files hfun hdinj
  have hpk : pKeys H cfg files ~ dupKeys H cfg files := by
    have hnd1 : (pKeys H cfg files).Nodup :=
      nodup_keys_hashToPfxMap H cfg (safeDup H cfg files) files
    rw [List.perm_ext_iff_of_nodup hnd1 (nodup_dupKeys H cfg files)]
    intro h
    rw [mem_pKeys_iff H cfg files h, mem_dupKeys_iff H cfg hwl files h]
  constructor
  · rw [heq]
    unfold canonData
    exact hpk.map _
  · rw [heq]
    have hk : keysOf ((pKeys H cfg files).map (canonEntry H cfg files)) =
        (pKeys H cfg files).map (canonPfx H cfg files) := by
      unfold keysOf
      rw [List.map_map]
      rfl
    rw [hk]
    apply List.Nodup.map_on
    · intro x hx y hy hxy
      exact canonPfx_inj_on_dup H cfg files hdinj x y
        ((mem_pKeys_iff H cfg files x).mp hx) ((mem_pKeys_iff H cfg files y).mp hy) hxy
    · exact nodup_keys_hashToPfxMap H cfg (safeDup H cfg files) files

/-- The hash function of the C1 counterexample: injective (collision-free). -/
def c1H : String → String := fun s => s

def c1Cfg : Config := ⟨5, 1, ';', 2, false⟩

def c1Files : List SrcFile :=
  [⟨"a.csv", 10, ["hdr", "k;x"]⟩, ⟨"b.csv", 20, ["hdr", "k;y"]⟩]

/-- Claim C1 is wrong as stated: even on a corpus where no two distinct
NormalizedKeys receive the same Hash64 (here the hash is the identity, and the
two corpus lines share the single key "k"), the FAST and SAFE engines write
different duplicates reports: the two raw lines "k;x" and "k;y" share their
NormalizedKey but not their DisplayPrefix, FAST keeps the first completed
worker's prefix while SAFE's `dict.update` keeps the last worker's. -/
theorem claim_C1_counterexample :
    (∀ p1 ∈ corpusScan c1Files, ∀ p2 ∈ corpusScan c1Files,
      keyOf c1Cfg p1.2 ≠ keyOf c1Cfg p2.2 →
        hashOf c1H c1Cfg p1.2 ≠ hashOf c1H c1Cfg p2.2) ∧
    fastReport c1H c1Cfg c1Files ≠ safeReport c1H c1Cfg c1Files := by
  constructor
  · decide
  · decide

/-- The decimal digit characters of Python `str(n)` / f-string formatting. -/
def digitChar (m : Nat) : Char :=
  match m with
  | 0 => '0' | 1 => '1' | 2 => '2' | 3 => '3' | 4 => '4'
  | 5 => '5' | 6 => '6' | 7 => '7' | 8 => '8' | _ => '9'

/-- Decimal rendering of a natural, most significant digit first. -/
def natToStrAux (n : Nat) : List Char :=
  if h : n < 10 then [digitChar n]
  else natToStrAux (n / 10) ++ [digitChar (n % 10)]
decreasing_by exact Nat.div_lt_self (by omega) (by omega)

/-- Python `str(n)` / `f"{n}"` for a natural number. -/
def natToStr (n : Nat) : String := (natToStrAux n).asString

/-- The numeric value of a decimal digit character, if it is one. -/
def digitVal? (c : Char) : Option Nat :=
  if 48 ≤ c.toNat ∧ c.toNat ≤ 57 then some (c.toNat - 48) else none

/-- One step of Python `int(s)`: accumulate a digit. -/
def parseStep (acc : Option Nat) (c : Char) : Option Nat :=
  match acc, digitVal? c with
  | some a, some d => some (a * 10 + d)
  | _, _ => none

/-- Python `int(s)` on a digit string (the only shape the program feeds it). -/
def natParse? (s : String) : Option Nat :=
  match s.data with
  | [] => none
  | cs => cs.foldl parseStep (some 0)

theorem digitVal_digitChar (m : Nat) (hm : m < 10) :
    digitVal? (digitChar m) = some m := by
  interval_cases m <;> rfl

theorem digitChar_gt32 (m : Nat) (hm : m < 10) : 32 < (digitChar m).toNat := by
  interval_cases m <;> decide

theorem parseStep_none (c : Char) : parseStep none c = none := rfl

theorem foldl_parseStep_none : ∀ cs : List Char, cs.foldl parseStep none = none := by
  intro cs
  induction cs with
  | nil => rfl
  | cons c cs ih => rw [List.foldl_cons, parseStep_none, ih]

theorem natToStrAux_parse (n : Nat) :
    ∀ a : Nat, (natToStrAux n).foldl parseStep (some a) =
      some (a * 10 ^ (natToStrAux n).length + n) := by
  induction n using Nat.strong_induction_on with
  | _ n ih =>
    intro a
    by_cases h : n < 10
    · rw [natToStrAux, dif_pos h]
      show parseStep (some a) (digitChar n) = _
      unfold parseStep
      rw [digitVal_digitChar n h]
      simp
    · rw [natToStrAux, dif_neg h]
      rw [List.foldl_append]
      rw [ih (n / 10) (Nat.div_lt_self (by omega) (by omega)) a]
      show parseStep _ (digitChar (n % 10)) = _
      unfold parseStep
      rw [digitVal_digitChar (n % 10) (Nat.mod_lt n (by omega))]
      show some ((a * 10 ^ (natToStrAux (n / 10)).length + n / 10) * 10 + n % 10) =
        some (a * 10 ^ (natToStrAux (n / 10) ++ [digitChar (n % 10)]).length + n)
      rw [List.length_append, List.length_singleton, pow_succ, ← mul_assoc]
      congr 1
      generalize a * 10 ^ (natToStrAux (n / 10)).length = q
      omega

theorem natToStrAux_ne_nil (n : Nat) : natToStrAux n ≠ [] := by
  by_cases h : n < 10
  · rw [natToStrAux, dif_pos h]
    simp
  · rw [natToStrAux, dif_neg h]
    simp

theorem natParse_natToStr (n : Nat) : natParse? (natToStr n) = some n := by
  have hmain := natToStrAux_parse n 0
  unfold natParse? natToStr
  cases hcs : natToStrAux n with
  | nil => exact absurd hcs (natToStrAux_ne_nil n)
  | cons c cs =>
    rw [hcs] at hmain
    show (c :: cs).foldl parseStep (some 0) = some n
    rw [hmain]
    simp

theorem natToStrAux_digits (n : Nat) :
    ∀ c ∈ natToStrAux n, ∃ m, m < 10 ∧ c = digitChar m := by
  induction n using Nat.strong_induction_on with
  | _ n ih =>
    intro c hc
    by_cases h : n < 10
    · rw [natToStrAux, dif_pos h] at hc
      rcases List.mem_singleton.mp hc with hc
      exact ⟨n, h, hc⟩
    · rw [natToStrAux, dif_neg h] at hc
      rcases List.mem_append.mp hc with hc | hc
      · exact ih (n / 10) (Nat.div_lt_self (by omega) (by omega)) c hc
      · rcases List.mem_singleton.mp hc with hc
        exact ⟨n % 10, Nat.mod_lt n (by omega), hc⟩

theorem natToStr_gt32 (n : Nat) : ∀ c ∈ (natToStr n).data, 32 < c.toNat := by
  intro c hc
  have hdata : (natToStr n).data = natToStrAux n := rfl
  rw [hdata] at hc
  obtain ⟨m, hm, hcm⟩ := natToStrAux_digits n c hc
  rw [hcm]
  exact digitChar_gt32 m hm

/-- Python `s.replace(a, b)` for single characters. -/
def pyReplaceChar (s : String) (a b : Char) : String :=
  (s.data.map (fun c => if c = a then b else c)).asString

/-- The DISK DisplayPrefix of a stripped line (line 623):
`stripped_line[:write_length].replace('\t', ' ')`. -/
def pfxDisk (cfg : Config) (s : String) : String :=
  pyReplaceChar (pfxOf cfg s) '\t' ' '

/-- One record line of a DISK run file (line 636):
`f"{h}\t{fid}\t{prefix}\n"`. -/
def diskRecLine (h : String) (fid : Nat) (pfx : String) : String :=
  h ++ "\t" ++ natToStr fid ++ "\t" ++ pfx ++ "\n"

/-- The (hash, FileId, prefix) triples `process_and_sort_chunk_disk` collects
from one chunk of raw lines (lines 619–628): empty stripped lines and lines
with an empty NormalizedKey are skipped. -/
def chunkTriples (H : String → String) (cfg : Config) (fid : Nat)
    (lines : List String) : List (String × Nat × String) :=
  lines.filterMap (fun line =>
    let stripped := pyStrip line
    if stripped == "" then none
    else if keyOf cfg stripped == "" then none
    else some (H (keyOf cfg stripped), fid, pfxDisk cfg stripped))

/-- `processed_lines.sort(key=lambda x: x[0])`: stable sort by the hash only. -/
def tripleLe (a b : String × Nat × String) : Bool := sLe a.1 b.1

/-- The record lines of one sorted chunk run file (lines 631–636). -/
def runLines (H : String → String) (cfg : Config) (fid : Nat)
    (chunk : List String) : List String :=
  (ssort tripleLe (chunkTriples H cfg fid chunk)).map
    (fun t => diskRecLine t.1 t.2.1 t.2.2)

/-- `all_temp_files` content after DISK phase 1 with the deterministic
completion order file 0, 1, …; `chunking` gives each file's `readlines`
chunking, an I/O-buffering detail the theorems quantify over. -/
def diskRuns (H : String → String) (cfg : Config) (files : List SrcFile)
    (chunking : SrcFile → List (List String)) : List (List String) :=
  (files.enum).flatMap (fun e => (chunking e.2).map (runLines H cfg e.1))

/-- The head `heapq.merge` pops next: the first input with the smallest head
line (ties go to the earlier input, which `heapq.merge` guarantees). -/
def pickMin : List (List String) → Option (Nat × String)
  | [] => none
  | [] :: rest => (pickMin rest).map (fun p => (p.1 + 1, p.2))
  | (x :: _) :: rest =>
    match pickMin rest with
    | none => some (0, x)
    | some (i, y) => if sLe x y then some (0, x) else some (i + 1, y)

/-- Remove the head of the `i`-th list. -/
def popAt : List (List String) → Nat → List (List String)
  | [], _ => []
  | l :: rest, 0 => l.tail :: rest
  | l :: rest, i + 1 => l :: popAt rest i

def totalLen (ls : List (List String)) : Nat := (ls.map List.length).sum

/-- `heapq.merge` with explicit fuel. -/
def kMergeFuel : Nat → List (List String) → List String
  | 0, _ => []
  | fuel + 1, ls =>
    match pickMin ls with
    | none => []
    | some (i, x) => x :: kMergeFuel fuel (popAt ls i)

/-- `heapq.merge(*open_files_list)`: the body of `merge_files` (lines 809–821). -/
def kMerge (ls : List (List String)) : List String := kMergeFuel (totalLen ls) ls


theorem pickMin_nil_head (rest : List (List String)) :
    pickMin ([] :: rest) = (pickMin rest).map (fun p => (p.1 + 1, p.2)) := rfl

theorem pickMin_cons_none (z : String) (zs : List String) (rest : List (List String))
    (hr : pickMin rest = none) : pickMin ((z :: zs) :: rest) = some (0, z) := by
  rw [show pickMin ((z :: zs) :: rest) = (match pickMin rest with
    | none => some (0, z)
    | some (i, y) => if sLe z y then some (0, z) else some (i + 1, y)) from rfl, hr]

theorem pickMin_cons_some (z : String) (zs : List String) (rest : List (List String))
    (j : Nat) (y : String) (hr : pickMin rest = some (j, y)) :
    pickMin ((z :: zs) :: rest) =
      if sLe z y then some (0, z) else some (j + 1, y) := by
  rw [show pickMin ((z :: zs) :: rest) = (match pickMin rest with
    | none => some (0, z)
    | some (i, y) => if sLe z y then some (0, z) else some (i + 1, y)) from rfl, hr]

theorem pickMin_none : ∀ ls : List (List String), pickMin ls = none →
    ∀ l ∈ ls, l = [] := by
  intro ls
  induction ls with
  | nil => intro _ l hl; simp at hl
  | cons l rest ih =>
    intro h l' hl'
    cases l with
    | nil =>
      have hr : pickMin rest = none := by
        cases hr : pickMin rest with
        | none => rfl
        | some p =>
          rw [pickMin_nil_head, hr] at h
          simp at h
      rcases List.mem_cons.mp hl' with hl' | hl'
      · exact hl'
      · exact ih hr l' hl'
    | cons z zs =>
      exfalso
      cases hr : pickMin rest with
      | none =>
        rw [pickMin_cons_none z zs rest hr] at h
        simp at h
      | some p =>
        obtain ⟨j, y⟩ := p
        rw [pickMin_cons_some z zs rest j y hr] at h
        by_cases hc : sLe z y
        · rw [if_pos hc] at h; simp at h
        · rw [if_neg hc] at h; simp at h

theorem pickMin_spec : ∀ (ls : List (List String)) (i : Nat) (x : String),
    pickMin ls = some (i, x) →
    ls.join ~ x :: (popAt ls i).join ∧
    totalLen (popAt ls i) + 1 = totalLen ls ∧
    (∀ l ∈ ls, ∀ y t, l = y :: t → sLe x y = true) := by
  intro ls
  induction ls with
  | nil => intro i x h; simp [pickMin] at h
  | cons l rest ih =>
    intro i x h
    cases l with
    | nil =>
      rw [pickMin_nil_head] at h
      cases hr : pickMin rest with
      | none => rw [hr] at h; simp at h
      | some p =>
        rw [hr] at h
        obtain ⟨j, y⟩ := p
        simp only [Option.map_some', Option.some.injEq, Prod.mk.injEq] at h
        obtain ⟨hi, hx⟩ := h
        subst hx
        obtain ⟨hperm, hlen, hmin⟩ := ih j y hr
        refine ⟨?_, ?_, ?_⟩
        · rw [← hi]
          show ([] : List String) ++ rest.join ~ y :: ([] ++ (popAt rest j).join)
          simpa using hperm
        · rw [← hi]
          show totalLen ([] :: popAt rest j) + 1 = totalLen ([] :: rest)
          unfold totalLen at hlen ⊢
          simpa using hlen
        · intro l hl y' t' hlt
          rcases List.mem_cons.mp hl with hl | hl
          · rw [hl] at hlt; simp at hlt
          · exact hmin l hl y' t' hlt
    | cons z zs =>
      cases hr : pickMin rest with
      | none =>
        rw [pickMin_cons_none z zs rest hr] at h
        simp only [Option.some.injEq, Prod.mk.injEq] at h
        obtain ⟨hi, hx⟩ := h
        subst hx
        rw [← hi]
        refine ⟨?_, ?_, ?_⟩
        · show (z :: zs) ++ rest.join ~ z :: (zs ++ rest.join)
          simp
        · show totalLen (zs :: rest) + 1 = totalLen ((z :: zs) :: rest)
          unfold totalLen
          simp only [List.map_cons, List.sum_cons, List.length_cons]
          omega
        · intro l hl y' t' hlt
          rcases List.mem_cons.mp hl with hl | hl
          · rw [hl] at hlt
            rw [List.cons.injEq] at hlt
            rw [← hlt.1]
            exact sLe_refl z
          · exfalso
            have hnil := pickMin_none rest hr l hl
            rw [hnil] at hlt
            simp at hlt
      | some p =>
        obtain ⟨j, y⟩ := p
        rw [pickMin_cons_some z zs rest j y hr] at h
        obtain ⟨hperm, hlen, hmin⟩ := ih j y hr
        by_cases hc : sLe z y
        · rw [if_pos hc] at h
          simp only [Option.some.injEq, Prod.mk.injEq] at h
          obtain ⟨hi, hx⟩ := h
          subst hx
          rw [← hi]
          refine ⟨?_, ?_, ?_⟩
          · show (z :: zs) ++ rest.join ~ z :: (zs ++ rest.join)
            simp
          · show totalLen (zs :: rest) + 1 = totalLen ((z :: zs) :: rest)
            unfold totalLen
            simp only [List.map_cons, List.sum_cons, List.length_cons]
            omega
          · intro l hl y' t' hlt
            rcases List.mem_cons.mp hl with hl | hl
            · rw [hl] at hlt
              rw [List.cons.injEq] at hlt
              rw [← hlt.1]
              exact sLe_refl z
            · exact sLe_trans hc (hmin l hl y' t' hlt)
        · rw [if_neg hc] at h
          simp only [Option.some.injEq, Prod.mk.injEq] at h
          obtain ⟨hi, hx⟩ := h
          subst hx
          rw [← hi]
          refine ⟨?_, ?_, ?_⟩
          · show (z :: zs) ++ rest.join ~ y :: ((z :: zs) ++ (popAt rest j).join)
            calc (z :: zs) ++ rest.join
                ~ (z :: zs) ++ (y :: (popAt rest j).join) := (hperm.append_left _)
              _ ~ y :: ((z :: zs) ++ (popAt rest j).join) := List.perm_middle
          · show totalLen ((z :: zs) :: popAt rest j) + 1 = totalLen ((z :: zs) :: rest)
            unfold totalLen at hlen ⊢
            simp only [List.map_cons, List.sum_cons]
            omega
          · intro l hl y' t' hlt
            rcases List.mem_cons.mp hl with hl | hl
            · rw [hl] at hlt
              rw [List.cons.injEq] at hlt
              rw [← hlt.1]
              rcases sLe_total y z with hh | hh
              · exact hh
              · exact absurd hh hc
            · exact hmin l hl y' t' hlt

theorem totalLen_join : ∀ ls : List (List String), ls.join.length = totalLen ls := by
  intro ls
  induction ls with
  | nil => rfl
  | cons l rest ih =>
    show (l ++ rest.join).length = totalLen (l :: rest)
    rw [List.length_append, ih]
    unfold totalLen
    simp

theorem kMergeFuel_perm : ∀ (fuel : Nat) (ls : List (List String)),
    totalLen ls ≤ fuel → kMergeFuel fuel ls ~ ls.join := by
  intro fuel
  induction fuel with
  | zero =>
    intro ls hle
    have hlen : ls.join.length = 0 := by rw [totalLen_join]; omega
    rw [List.length_eq_zero] at hlen
    rw [hlen]
    rfl
  | succ fuel ih =>
    intro ls hle
    show (match pickMin ls with
      | none => []
      | some (i, x) => x :: kMergeFuel fuel (popAt ls i)) ~ ls.join
    cases hp : pickMin ls with
    | none =>
      have : ls.join = [] := List.join_eq_nil.mpr (pickMin_none ls hp)
      rw [this]
    | some p =>
      obtain ⟨i, x⟩ := p
      obtain ⟨hperm, hlen, _⟩ := pickMin_spec ls i x hp
      have hrec := ih (popAt ls i) (by omega)
      calc x :: kMergeFuel fuel (popAt ls i)
          ~ x :: (popAt ls i).join := List.Perm.cons x hrec
        _ ~ ls.join := hperm.symm

theorem mem_popAt : ∀ (ls : List (List String)) (i : Nat) (l' : List String),
    l' ∈ popAt ls i → l' ∈ ls ∨ ∃ l ∈ ls, l' = l.tail := by
  intro ls
  induction ls with
  | nil => intro i l' h; simp [popAt] at h
  | cons l rest ih =>
    intro i l' h
    cases i with
    | zero =>
      rcases List.mem_cons.mp h with h | h
      · exact Or.inr ⟨l, List.mem_cons_self _ _, h⟩
      · exact Or.inl (List.mem_cons_of_mem _ h)
    | succ i =>
      rcases List.mem_cons.mp h with h | h
      · exact Or.inl (h ▸ List.mem_cons_self _ _)
      · rcases ih i l' h with h | ⟨l0, hl0, ht⟩
        · exact Or.inl (List.mem_cons_of_mem _ h)
        · exact Or.inr ⟨l0, List.mem_cons_of_mem _ hl0, ht⟩

theorem sorted_head_le (l : List String) (hp : l.Pairwise (fun a b => sLe a b = true))
    (z : String) (t : List String) (hl : l = z :: t) (y : String) (hy : y ∈ l) :
    sLe z y = true := by
  subst hl
  rcases List.mem_cons.mp hy with hy | hy
  · rw [hy]; exact sLe_refl z
  · exact (List.pairwise_cons.mp hp).1 y hy

theorem kMergeFuel_pairwise : ∀ (fuel : Nat) (ls : List (List String)),
    totalLen ls ≤ fuel →
    (∀ l ∈ ls, l.Pairwise (fun a b => sLe a b = true)) →
    (kMergeFuel fuel ls).Pairwise (fun a b => sLe a b = true) := by
  intro fuel
  induction fuel with
  | zero => intro ls _ _; exact List.Pairwise.nil
  | succ fuel ih =>
    intro ls hle hsorted
    show (match pickMin ls with
      | none => []
      | some (i, x) => x :: kMergeFuel fuel (popAt ls i)).Pairwise _
    cases hp : pickMin ls with
    | none => exact List.Pairwise.nil
    | some p =>
      obtain ⟨i, x⟩ := p
      obtain ⟨hperm, hlen, hmin⟩ := pickMin_spec ls i x hp
      have hsorted' : ∀ l ∈ popAt ls i, l.Pairwise (fun a b => sLe a b = true) := by
        intro l' hl'
        rcases mem_popAt ls i l' hl' with h | ⟨l0, hl0, ht⟩
        · exact hsorted l' h
        · rw [ht]
          exact (hsorted l0 hl0).sublist (List.tail_sublist l0)
      refine List.pairwise_cons.mpr ⟨?_, ih (popAt ls i) (by omega) hsorted'⟩
      intro y hy
      have hyjoin : y ∈ (popAt ls i).join :=
        (kMergeFuel_perm fuel (popAt ls i) (by omega)).mem_iff.mp hy
      obtain ⟨l', hl', hyl'⟩ := List.mem_join.mp hyjoin
      rcases mem_popAt ls i l' hl' with h | ⟨l0, hl0, ht⟩
      · cases hc : l' with
        | nil => rw [hc] at hyl'; simp at hyl'
        | cons z t =>
          have hxz := hmin l' h z t hc
          exact sLe_trans hxz (sorted_head_le l' (hsorted l' h) z t hc y hyl')
      · have hyl0 : y ∈ l0 := by
          rw [ht] at hyl'
          exact List.mem_of_mem_tail hyl'
        cases hc : l0 with
        | nil => rw [hc] at hyl0; simp at hyl0
        | cons z t =>
          have hxz := hmin l0 hl0 z t hc
          exact sLe_trans hxz (sorted_head_le l0 (hsorted l0 hl0) z t hc y hyl0)

theorem kMerge_perm (ls : List (List String)) : kMerge ls ~ ls.join :=
  kMergeFuel_perm (totalLen ls) ls (Nat.le_refl _)

theorem kMerge_pairwise (ls : List (List String))
    (h : ∀ l ∈ ls, l.Pairwise (fun a b => sLe a b = true)) :
    (kMerge ls).Pairwise (fun a b => sLe a b = true) :=
  kMergeFuel_pairwise (totalLen ls) ls (Nat.le_refl _) h

/-- The batches `range(0, len(l), b)` slicing produces (line 830–831). -/
def chunksOf {α : Type} (b : Nat) (l : List α) : List (List α) :=
  match l with
  | [] => []
  | x :: xs => (x :: xs.take (b - 1)) :: chunksOf b (xs.drop (b - 1))
termination_by l.length
decreasing_by
  simp only [List.length_drop, List.length_cons]
  omega

theorem chunksOf_join_aux {α : Type} (b : Nat) :
    ∀ (n : Nat) (l : List α), l.length ≤ n → (chunksOf b l).join = l := by
  intro n
  induction n with
  | zero =>
    intro l hl
    cases l with
    | nil => simp [chunksOf]
    | cons x xs => simp at hl
  | succ n ih =>
    intro l hl
    cases l with
    | nil => simp [chunksOf]
    | cons x xs =>
      rw [chunksOf]
      show (x :: xs.take (b - 1)) ++ (chunksOf b (xs.drop (b - 1))).join = x :: xs
      rw [ih (xs.drop (b - 1)) (by simp only [List.length_drop]; simp at hl; omega)]
      simp [List.take_append_drop]

theorem chunksOf_join {α : Type} (b : Nat) (l : List α) : (chunksOf b l).join = l :=
  chunksOf_join_aux b l.length l (Nat.le_refl _)

theorem chunksOf_length_le {α : Type} (b : Nat) :
    ∀ (n : Nat) (l : List α), l.length ≤ n → (chunksOf b l).length ≤ l.length := by
  intro n
  induction n with
  | zero =>
    intro l hl
    cases l with
    | nil => simp [chunksOf]
    | cons x xs => simp at hl
  | succ n ih =>
    intro l hl
    cases l with
    | nil => simp [chunksOf]
    | cons x xs =>
      rw [chunksOf]
      show (chunksOf b (xs.drop (b - 1))).length + 1 ≤ xs.length + 1
      have := ih (xs.drop (b - 1)) (by simp only [List.length_drop]; simp at hl; omega)
      simp only [List.length_drop] at this
      omega

theorem chunksOf_length_lt {α : Type} (b : Nat) (hb : 2 ≤ b) (l : List α)
    (hl : 2 ≤ l.length) : (chunksOf b l).length < l.length := by
  cases l with
  | nil => simp at hl
  | cons x xs =>
    rw [chunksOf]
    show (chunksOf b (xs.drop (b - 1))).length + 1 < xs.length + 1
    have h1 := chunksOf_length_le b (xs.drop (b - 1)).length (xs.drop (b - 1)) (Nat.le_refl _)
    simp only [List.length_drop] at h1
    simp at hl
    omega

/-- The cascading-merge loop (lines 823–841) with explicit fuel: `none` is the
"no run files at all" case (`final_merged_file = None`). -/
def cascadeFuel (b : Nat) : Nat → List (List String) → Option (List String)
  | _, [] => none
  | _, [r] => some r
  | 0, _ :: _ :: _ => none
  | fuel + 1, r1 :: r2 :: rs =>
    cascadeFuel b fuel ((chunksOf b (r1 :: r2 :: rs)).map kMerge)

/-- Phase 2 of the DISK strategy: the content of `final_merged_file`. -/
def cascadeMerge (b : Nat) (rs : List (List String)) : Option (List String) :=
  cascadeFuel b rs.length rs

theorem ssort_sLe_congr_perm (l1 l2 : List String) (h : l1 ~ l2) :
    ssort sLe l1 = ssort sLe l2 :=
  sorted_eq_of_perm sLe (fun a b h1 h2 => sLe_antisymm h1 h2) _ _
    ((ssort_perm sLe l1).trans (h.trans (ssort_perm sLe l2).symm))
    (ssort_pairwise sLe (fun a b => sLe_total a b) (fun a b c h1 h2 => sLe_trans h1 h2) l1)
    (ssort_pairwise sLe (fun a b => sLe_total a b) (fun a b c h1 h2 => sLe_trans h1 h2) l2)

theorem join_map_kMerge_perm : ∀ chunks : List (List (List String)),
    (chunks.map kMerge).join ~ chunks.join.join := by
  intro chunks
  induction chunks with
  | nil => rfl
  | cons c cs ih =>
    show kMerge c ++ (cs.map kMerge).join ~ (c :: cs).join.join
    have : (c :: cs).join.join = c.join ++ cs.join.join := by
      show (c ++ cs.join).join = _
      simp
    rw [this]
    exact List.Perm.append (kMerge_perm c) ih

theorem cascadeFuel_correct (b : Nat) (hb : 2 ≤ b) :
    ∀ (fuel : Nat) (rs : List (List String)),
    rs.length ≤ fuel + 1 →
    (∀ r ∈ rs, r.Pairwise (fun a b => sLe a b = true)) →
    rs ≠ [] →
    cascadeFuel b fuel rs = some (ssort sLe rs.join) := by
  intro fuel
  induction fuel with
  | zero =>
    intro rs hlen hsorted hne
    cases rs with
    | nil => exact absurd rfl hne
    | cons r rest =>
      cases rest with
      | nil =>
        show some r = some (ssort sLe ([r] : List (List String)).join)
        congr 1
        have hjoin : ([r] : List (List String)).join = r := by simp
        rw [hjoin]
        exact sorted_eq_of_perm sLe (fun a b h1 h2 => sLe_antisymm h1 h2) r _
          (ssort_perm sLe r).symm (hsorted r (List.mem_cons_self _ _))
          (ssort_pairwise sLe (fun a b => sLe_total a b)
            (fun a b c h1 h2 => sLe_trans h1 h2) r)
      | cons r2 rest2 => simp at hlen
  | succ fuel ih =>
    intro rs hlen hsorted hne
    cases rs with
    | nil => exact absurd rfl hne
    | cons r rest =>
      cases rest with
      | nil =>
        show some r = some (ssort sLe ([r] : List (List String)).join)
        congr 1
        have hjoin : ([r] : List (List String)).join = r := by simp
        rw [hjoin]
        exact sorted_eq_of_perm sLe (fun a b h1 h2 => sLe_antisymm h1 h2) r _
          (ssort_perm sLe r).symm (hsorted r (List.mem_cons_self _ _))
          (ssort_pairwise sLe (fun a b => sLe_total a b)
            (fun a b c h1 h2 => sLe_trans h1 h2) r)
      | cons r2 rest2 =>
        show cascadeFuel b fuel ((chunksOf b (r :: r2 :: rest2)).map kMerge) = _
        have hjoins : (chunksOf b (r :: r2 :: rest2)).join = r :: r2 :: rest2 :=
          chunksOf_join b _
        have hnextlen : ((chunksOf b (r :: r2 :: rest2)).map kMerge).length ≤ fuel + 1 := by
          rw [List.length_map]
          have := chunksOf_length_lt b hb (r :: r2 :: rest2) (by simp)
          simp only [List.length_cons] at this hlen ⊢
          omega
        have hnextsorted : ∀ m ∈ (chunksOf b (r :: r2 :: rest2)).map kMerge,
            m.Pairwise (fun a b => sLe a b = true) := by
          intro m hm
          obtain ⟨batch, hbatch, hmk⟩ := List.mem_map.mp hm
          rw [← hmk]
          apply kMerge_pairwise
          intro l hl
          apply hsorted
          rw [← hjoins]
          exact List.mem_join.mpr ⟨batch, hbatch, hl⟩
        have hnextne : (chunksOf b (r :: r2 :: rest2)).map kMerge ≠ [] := by
          rw [chunksOf]
          simp
        rw [ih _ hnextlen hnextsorted hnextne]
        congr 1
        apply ssort_sLe_congr_perm
        calc ((chunksOf b (r :: r2 :: rest2)).map kMerge).join
            ~ (chunksOf b (r :: r2 :: rest2)).join.join := join_map_kMerge_perm _
          _ ~ (r :: r2 :: rest2).join := by rw [hjoins]

theorem cascadeMerge_correct (b : Nat) (hb : 2 ≤ b) (rs : List (List String))
    (hsorted : ∀ r ∈ rs, r.Pairwise (fun a b => sLe a b = true)) (hne : rs ≠ []) :
    cascadeMerge b rs = some (ssort sLe rs.join) :=
  cascadeFuel_correct b hb rs.length rs (by omega) hsorted hne

theorem cascadeMerge_nil (b : Nat) : cascadeMerge b [] = none := rfl

/-- The `groupby` key (line 848): `line.split('\t', 1)[0]`. -/
def lineKey (line : String) : String := (pySplit line '\t' 1).headD ""

/-- The maximal run of lines whose key equals `k`, and the remainder. -/
def spanKey (k : String) : List String → List String × List String
  | [] => ([], [])
  | x :: xs =>
    if lineKey x == k then
      let p := spanKey k xs
      (x :: p.1, p.2)
    else ([], x :: xs)

/-- `itertools.groupby(f, key=...)` (line 848) with explicit fuel: consecutive
equal-key lines form one group. -/
def groupRecsFuel : Nat → List String → List (String × List String)
  | 0, _ => []
  | _, [] => []
  | fuel + 1, x :: xs =>
    let p := spanKey (lineKey x) xs
    (lineKey x, x :: p.1) :: groupRecsFuel fuel p.2

def groupRecs (lines : List String) : List (String × List String) :=
  groupRecsFuel lines.length lines

theorem spanKey_append (k : String) :
    ∀ (a b : List String), (∀ x ∈ a, lineKey x = k) →
    (∀ y t, b = y :: t → lineKey y ≠ k) → spanKey k (a ++ b) = (a, b) := by
  intro a
  induction a with
  | nil =>
    intro b _ hb
    cases b with
    | nil => rfl
    | cons y t =>
      show (if lineKey y == k then _ else (([] : List String), y :: t)) = ([], y :: t)
      rw [if_neg (by simpa using hb y t rfl)]
  | cons x a' ih =>
    intro b ha hb
    show (if lineKey x == k then
      let p := spanKey k (a' ++ b)
      (x :: p.1, p.2) else ([], x :: (a' ++ b))) = (x :: a', b)
    rw [if_pos (by simp [ha x (List.mem_cons_self _ _)])]
    rw [ih b (fun y hy => ha y (List.mem_cons_of_mem _ hy)) hb]

theorem groupRecsFuel_nil (fuel : Nat) : groupRecsFuel fuel [] = [] := by
  cases fuel <;> rfl

theorem groupRecsFuel_blocks :
    ∀ (blocks : List (String × List String)) (fuel : Nat),
    (blocks.map (·.2)).join.length ≤ fuel →
    (∀ b ∈ blocks, b.2 ≠ []) →
    (∀ b ∈ blocks, ∀ x ∈ b.2, lineKey x = b.1) →
    List.Chain' (fun b1 b2 => b1.1 ≠ b2.1) blocks →
    groupRecsFuel fuel (blocks.map (·.2)).join = blocks := by
  intro blocks
  induction blocks with
  | nil =>
    intro fuel _ _ _ _
    exact groupRecsFuel_nil fuel
  | cons blk rest ih =>
    intro fuel hfuel hne hkeys hchain
    obtain ⟨k, g⟩ := blk
    cases hg : g with
    | nil => exact absurd (hg ▸ rfl) (hne (k, g) (List.mem_cons_self _ _))
    | cons x g' =>
      have hjoin : (((k, x :: g') :: rest).map (·.2)).join =
          x :: (g' ++ (rest.map (·.2)).join) := by
        show (x :: g') ++ (rest.map (·.2)).join = _
        simp
      rw [hg] at hfuel
      rw [hjoin] at hfuel ⊢
      cases fuel with
      | zero => simp at hfuel
      | succ fuel =>
        have hkx : lineKey x = k := by
          apply hkeys (k, g) (List.mem_cons_self _ _)
          rw [hg]
          exact List.mem_cons_self _ _
        show (lineKey x, x :: (spanKey (lineKey x) (g' ++ (rest.map (·.2)).join)).1) ::
          groupRecsFuel fuel (spanKey (lineKey x) (g' ++ (rest.map (·.2)).join)).2 =
          (k, x :: g') :: rest
        have hspan : spanKey (lineKey x) (g' ++ (rest.map (·.2)).join) =
            (g', (rest.map (·.2)).join) := by
          apply spanKey_append
          · intro y hy
            rw [hkx]
            apply hkeys (k, g) (List.mem_cons_self _ _)
            rw [hg]
            exact List.mem_cons_of_mem _ hy
          · intro y t hyt hky
            cases rest with
            | nil => simp at hyt
            | cons blk2 rest2 =>
              obtain ⟨k2, g2⟩ := blk2
              cases hg2 : g2 with
              | nil => exact absurd (hg2 ▸ rfl) (hne (k2, g2) (by simp))
              | cons x2 g2' =>
                have hhead : ((( (k2, g2) :: rest2).map (·.2)).join) =
                    x2 :: (g2' ++ (rest2.map (·.2)).join) := by
                  show g2 ++ (rest2.map (·.2)).join = _
                  rw [hg2]
                  simp
                rw [hhead] at hyt
                rw [List.cons.injEq] at hyt
                have hy2 : y = x2 := hyt.1.symm
                have hk2 : lineKey x2 = k2 := by
                  apply hkeys (k2, g2) (by simp)
                  rw [hg2]
                  exact List.mem_cons_self _ _
                have hne12 : k ≠ k2 := (List.chain'_cons.mp hchain).1
                rw [hy2, hk2] at hky
                rw [hkx] at hky
                exact hne12 hky.symm
        rw [hspan]
        have hrest := ih fuel (by
          have hlen : (x :: (g' ++ (rest.map (·.2)).join)).length =
            g'.length + (rest.map (·.2)).join.length + 1 := by simp
          rw [hlen] at hfuel
          omega)
          (fun b hb => hne b (List.mem_cons_of_mem _ hb))
          (fun b hb => hkeys b (List.mem_cons_of_mem _ hb))
          (List.chain'_cons'.mp hchain).2
        rw [hrest, hkx]

/-- A character strictly above the ASCII space: in particular not TAB and not
in the class `str.strip()` removes. -/
def safeChar (c : Char) : Bool := decide (32 < c.toNat)

theorem safeChar_not_space (c : Char) (h : safeChar c = true) : isPySpace c = false := by
  unfold safeChar at h
  rw [decide_eq_true_eq] at h
  unfold isPySpace
  have h9 : ¬ (c = '\t') := fun hc => by rw [hc] at h; simp at h
  have h10 : ¬ (c = '\n') := fun hc => by rw [hc] at h; simp at h
  have h13 : ¬ (c = '\r') := fun hc => by rw [hc] at h; simp at h
  have h11 : ¬ (c = '\x0b') := fun hc => by rw [hc] at h; simp at h
  have h12 : ¬ (c = '\x0c') := fun hc => by rw [hc] at h; simp at h
  have h32 : ¬ (c = ' ') := fun hc => by rw [hc] at h; simp at h
  simp [h9, h10, h13, h11, h12, h32]

theorem safeChar_ne_tab (c : Char) (h : safeChar c = true) : c ≠ '\t' := by
  intro hc
  unfold safeChar at h
  rw [hc] at h
  simp at h

/-- Comparing two hash-prefixed record lines: the hash fields decide unless they
are equal, because every hash character is above TAB. -/
theorem lexLe_tab_block : ∀ (cs1 cs2 r1 r2 : List Char),
    (∀ c ∈ cs1, safeChar c = true) → (∀ c ∈ cs2, safeChar c = true) →
    lexLe (cs1 ++ '\t' :: r1) (cs2 ++ '\t' :: r2) =
      (if cs1 = cs2 then lexLe r1 r2 else lexLe cs1 cs2) := by
  intro cs1
  induction cs1 with
  | nil =>
    intro cs2 r1 r2 _ h2
    cases cs2 with
    | nil =>
      show lexLe ('\t' :: r1) ('\t' :: r2) = _
      rw [if_pos rfl]
      show (if '\t' = '\t' then lexLe r1 r2 else _) = _
      rw [if_pos rfl]
    | cons b bs =>
      have hb : safeChar b = true := h2 b (List.mem_cons_self _ _)
      have hnb : ('\t' : Char) ≠ b := fun hc => safeChar_ne_tab b hb hc.symm
      show lexLe ('\t' :: r1) (b :: (bs ++ '\t' :: r2)) = _
      rw [if_neg (by simp)]
      show (if '\t' = b then _ else decide (('\t' : Char).toNat < b.toNat)) = lexLe [] (b :: bs)
      rw [if_neg hnb]
      have hb' : 32 < b.toNat := by
        unfold safeChar at hb
        rwa [decide_eq_true_eq] at hb
      have h9 : ('\t' : Char).toNat = 9 := by decide
      simp [lexLe, h9]
      omega
  | cons a as ih =>
    intro cs2 r1 r2 h1 h2
    cases cs2 with
    | nil =>
      have ha : safeChar a = true := h1 a (List.mem_cons_self _ _)
      show lexLe (a :: (as ++ '\t' :: r1)) ('\t' :: r2) = _
      rw [if_neg (by simp)]
      show (if a = '\t' then _ else decide (a.toNat < ('\t' : Char).toNat)) =
        lexLe (a :: as) []
      rw [if_neg (safeChar_ne_tab a ha)]
      have ha' : 32 < a.toNat := by
        unfold safeChar at ha
        rwa [decide_eq_true_eq] at ha
      have h9 : ('\t' : Char).toNat = 9 := by decide
      simp [lexLe, h9]
      omega
    | cons b bs =>
      by_cases hab : a = b
      · subst hab
        show (if a = a then lexLe (as ++ '\t' :: r1) (bs ++ '\t' :: r2) else _) = _
        rw [if_pos rfl]
        rw [ih bs r1 r2 (fun c hc => h1 c (List.mem_cons_of_mem _ hc))
          (fun c hc => h2 c (List.mem_cons_of_mem _ hc))]
        by_cases he : as = bs
        · rw [if_pos he, if_pos (by rw [he])]
        · rw [if_neg he, if_neg (by
            intro hcontra
            rw [List.cons.injEq] at hcontra
            exact he hcontra.2)]
          show lexLe as bs = lexLe (a :: as) (a :: bs)
          show lexLe as bs = (if a = a then lexLe as bs else _)
          rw [if_pos rfl]
      · show (if a = b then _ else decide (a.toNat < b.toNat)) = _
        rw [if_neg hab, if_neg (by
          intro hcontra
          rw [List.cons.injEq] at hcontra
          exact hab hcontra.1)]
        show decide (a.toNat < b.toNat) = (if a = b then lexLe as bs else decide (a.toNat < b.toNat))
        rw [if_neg hab]

theorem splitFirst_append (d : Char) :
    ∀ (a b : List Char), d ∉ a → splitFirst d (a ++ d :: b) = some (a, b) := by
  intro a
  induction a with
  | nil => intro b _; simp [splitFirst]
  | cons c cs ih =>
    intro b ha
    have hcd : ¬ (c = d) := fun hc => ha (hc ▸ List.mem_cons_self _ _)
    show (if c = d then some ([], cs ++ d :: b) else
      match splitFirst d (cs ++ d :: b) with
      | none => none
      | some (x, y) => some (c :: x, y)) = some (c :: cs, b)
    rw [if_neg hcd, ih b (fun hm => ha (List.mem_cons_of_mem _ hm))]

theorem data_asString (s : String) : s.data.asString = s := rfl

theorem string_append_data (s t : String) : (s ++ t).data = s.data ++ t.data :=
  String.data_append s t

theorem diskRecLine_data (h : String) (fid : Nat) (pfx : String) :
    (diskRecLine h fid pfx).data =
      h.data ++ '\t' :: ((natToStr fid).data ++ '\t' :: (pfx.data ++ ['\n'])) := by
  unfold diskRecLine
  rw [string_append_data, string_append_data, string_append_data,
    string_append_data, string_append_data]
  simp

theorem lineKey_diskRecLine (h : String) (fid : Nat) (pfx : String)
    (hh : ∀ c ∈ h.data, safeChar c = true) :
    lineKey (diskRecLine h fid pfx) = h := by
  unfold lineKey pySplit
  rw [show (diskRecLine h fid pfx).data =
    h.data ++ '\t' :: ((natToStr fid).data ++ '\t' :: (pfx.data ++ ['\n']))
    from diskRecLine_data h fid pfx]
  show ((pySplitChars '\t' 1 (h.data ++ '\t' ::
    ((natToStr fid).data ++ '\t' :: (pfx.data ++ ['\n'])))).map List.asString).headD "" = h
  have hnotab : ('\t' : Char) ∉ h.data := by
    intro hm
    exact absurd rfl (safeChar_ne_tab '\t' (hh '\t' hm))
  show ((match splitFirst '\t' (h.data ++ '\t' ::
      ((natToStr fid).data ++ '\t' :: (pfx.data ++ ['\n']))) with
    | none => [h.data ++ '\t' :: ((natToStr fid).data ++ '\t' :: (pfx.data ++ ['\n']))]
    | some (a, b) => a :: pySplitChars '\t' 0 b).map List.asString).headD "" = h
  rw [splitFirst_append '\t' h.data _ hnotab]
  show h.data.asString = h
  exact data_asString h

theorem pyStripChars_record (a : Char) (mid : List Char) (z : Char)
    (ha : isPySpace a = false) (hz : isPySpace z = false) :
    pyStripChars (a :: (mid ++ [z, '\n'])) = a :: (mid ++ [z]) := by
  unfold pyStripChars
  rw [List.dropWhile_cons_of_neg (by simp [ha])]
  have h1 : a :: (mid ++ [z, '\n']) = (a :: (mid ++ [z])) ++ ['\n'] := by simp
  rw [h1, List.reverse_append]
  show (('\n' :: (a :: (mid ++ [z])).reverse).dropWhile isPySpace).reverse = _
  rw [List.dropWhile_cons_of_pos (by decide)]
  have h2 : (a :: (mid ++ [z])).reverse = z :: (a :: mid).reverse := by
    rw [show a :: (mid ++ [z]) = (a :: mid) ++ [z] from rfl, List.reverse_append]
    simp
  rw [h2, List.dropWhile_cons_of_neg (by simp [hz]), ← h2, List.reverse_reverse]

/-- The parse of one record item in DISK phase 3 (lines 856–860): strip the
line, split on TAB with maxsplit 2, unpack, parse the FileId. -/
def parseRec (item : String) : Option (Nat × String) :=
  match pySplit (pyStrip item) '\t' 2 with
  | [_, fidStr, pfxStr] => (natParse? fidStr).map (fun fid => (fid, pfxStr))
  | _ => none

theorem parseRec_diskRecLine (h : String) (fid : Nat) (pfx : String)
    (hh : ∀ c ∈ h.data, safeChar c = true) (hne : h ≠ "")
    (hpq : ∃ pq pc, pfx.data = pq ++ [pc] ∧ isPySpace pc = false)
    (hptab : ('\t' : Char) ∉ pfx.data) :
    parseRec (diskRecLine h fid pfx) = some (fid, pfx) := by
  obtain ⟨pq, pc, hpfx, hpc⟩ := hpq
  have hhd : ∃ a ha', h.data = a :: ha' := by
    cases hc : h.data with
    | nil =>
      exfalso
      apply hne
      rw [← data_asString h, hc]
      rfl
    | cons a ha' => exact ⟨a, ha', rfl⟩
  obtain ⟨a, ha', hah⟩ := hhd
  have hstrip : (pyStrip (diskRecLine h fid pfx)).data =
      h.data ++ '\t' :: ((natToStr fid).data ++ '\t' :: pfx.data) := by
    show pyStripChars (diskRecLine h fid pfx).data = _
    rw [diskRecLine_data, hah, hpfx]
    have hshape : (a :: ha') ++ '\t' :: ((natToStr fid).data ++ '\t' :: ((pq ++ [pc]) ++ ['\n'])) =
        a :: ((ha' ++ '\t' :: ((natToStr fid).data ++ '\t' :: pq)) ++ [pc, '\n']) := by
      simp
    rw [hshape, pyStripChars_record a _ pc
      (safeChar_not_space a (hh a (hah ▸ List.mem_cons_self _ _))) hpc]
    simp
  have hnotabh : ('\t' : Char) ∉ h.data := by
    intro hm
    exact absurd rfl (safeChar_ne_tab '\t' (hh '\t' hm))
  have hnotabd : ('\t' : Char) ∉ (natToStr fid).data := by
    intro hm
    have := natToStr_gt32 fid '\t' hm
    simp at this
  have hsplit : pySplitChars '\t' 2 (h.data ++ '\t' :: ((natToStr fid).data ++ '\t' :: pfx.data)) =
      [h.data, (natToStr fid).data, pfx.data] := by
    show (match splitFirst '\t' (h.data ++ '\t' :: ((natToStr fid).data ++ '\t' :: pfx.data)) with
      | none => [h.data ++ '\t' :: ((natToStr fid).data ++ '\t' :: pfx.data)]
      | some (x, y) => x :: pySplitChars '\t' 1 y) = _
    rw [splitFirst_append '\t' h.data _ hnotabh]
    show h.data :: (match splitFirst '\t' ((natToStr fid).data ++ '\t' :: pfx.data) with
      | none => [(natToStr fid).data ++ '\t' :: pfx.data]
      | some (x, y) => x :: pySplitChars '\t' 0 y) = _
    rw [splitFirst_append '\t' (natToStr fid).data _ hnotabd]
    rfl
  unfold parseRec pySplit
  rw [hstrip, hsplit]
  show (natParse? ((natToStr fid).data.asString)).map (fun n => (n, pfx.data.asString)) =
    some (fid, pfx)
  rw [data_asString, data_asString, natParse_natToStr]
  rfl

theorem join_map_perm {A B : Type} (f g : A → List B) :
    ∀ l : List A, (∀ a ∈ l, f a ~ g a) → (l.map f).join ~ (l.map g).join := by
  intro l
  induction l with
  | nil => intro _; rfl
  | cons a l ih =>
    intro h
    show f a ++ (l.map f).join ~ g a ++ (l.map g).join
    exact List.Perm.append (h a (List.mem_cons_self _ _))
      (ih (fun x hx => h x (List.mem_cons_of_mem _ hx)))

theorem filterMapJoinEq {A B : Type} (f : A → Option B) :
    ∀ L : List (List A), L.join.filterMap f = (L.map (List.filterMap f)).join := by
  intro L
  induction L with
  | nil => rfl
  | cons l L ih =>
    show (l ++ L.join).filterMap f = l.filterMap f ++ (L.map (List.filterMap f)).join
    rw [List.filterMap_append, ih]

/-- Python `set.add`, with the set modelled by its insertion-ordered support. -/
def setInsert (l : List Nat) (x : Nat) : List Nat := if x ∈ l then l else l ++ [x]

theorem mem_foldl_setInsert : ∀ (fs acc : List Nat) (x : Nat),
    x ∈ fs.foldl setInsert acc ↔ x ∈ acc ∨ x ∈ fs := by
  intro fs
  induction fs with
  | nil => intro acc x; simp
  | cons f fs ih =>
    intro acc x
    rw [List.foldl_cons, ih]
    unfold setInsert
    by_cases hf : f ∈ acc
    · rw [if_pos hf]
      constructor
      · rintro (h | h)
        · exact Or.inl h
        · exact Or.inr (List.mem_cons_of_mem _ h)
      · rintro (h | h)
        · exact Or.inl h
        · rcases List.mem_cons.mp h with h | h
          · exact Or.inl (h ▸ hf)
          · exact Or.inr h
    · rw [if_neg hf]
      constructor
      · rintro (h | h)
        · rcases List.mem_append.mp h with h | h
          · exact Or.inl h
          · exact Or.inr (List.mem_cons.mpr (Or.inl (by simpa using h)))
        · exact Or.inr (List.mem_cons_of_mem _ h)
      · rintro (h | h)
        · exact Or.inl (List.mem_append.mpr (Or.inl h))
        · rcases List.mem_cons.mp h with h | h
          · exact Or.inl (List.mem_append.mpr (Or.inr (by simp [h])))
          · exact Or.inr h

theorem nodup_foldl_setInsert : ∀ (fs acc : List Nat), acc.Nodup →
    (fs.foldl setInsert acc).Nodup := by
  intro fs
  induction fs with
  | nil => intro acc h; exact h
  | cons f fs ih =>
    intro acc h
    rw [List.foldl_cons]
    apply ih
    unfold setInsert
    by_cases hf : f ∈ acc
    · rw [if_pos hf]; exact h
    · rw [if_neg hf]
      rw [List.nodup_append]
      exact ⟨h, List.nodup_singleton f, by simpa using hf⟩

theorem pySortedNat_congr_perm (l1 l2 : List Nat) (h : l1 ~ l2) :
    pySortedNat l1 = pySortedNat l2 :=
  sorted_eq_of_perm (fun a b => decide (a ≤ b)) (fun a b h1 h2 => by
      rw [decide_eq_true_eq] at h1 h2
      omega) _ _
    ((pySortedNat_perm l1).trans (h.trans (pySortedNat_perm l2).symm))
    (pySortedNat_pairwise l1) (pySortedNat_pairwise l2)

theorem mem_corpusScan_iff (files : List SrcFile) (i : Nat) (s : String) :
    (i, s) ∈ corpusScan files ↔
      ∃ f, files.get? i = some f ∧ s ∈ scanLines (fileBody f) := by
  unfold corpusScan
  rw [List.mem_flatMap]
  constructor
  · rintro ⟨e, he, hmem⟩
    obtain ⟨s', hs', heq⟩ := List.mem_map.mp hmem
    rw [Prod.mk.injEq] at heq
    refine ⟨e.2, ?_, heq.2 ▸ hs'⟩
    rw [← heq.1]
    have := List.mem_enum_iff_get?.mp (show (e.1, e.2) ∈ files.enum by simpa using he)
    simpa using this
  · rintro ⟨f, hf, hs⟩
    refine ⟨(i, f), ?_, ?_⟩
    · exact List.mem_enum_iff_get?.mpr (by simpa using hf)
    · exact List.mem_map.mpr ⟨s, hs, rfl⟩

theorem mem_keys_countsFrom (H : String → String) (cfg : Config) :
    ∀ (fs : List SrcFile) (i0 : Nat) (h : String) (fid : Nat),
    fid ∈ (countsFrom H cfg i0 fs h).map (·.1) ↔
      ∃ j f, fid = i0 + j ∧ fs.get? j = some f ∧ 0 < countInFile H cfg h f := by
  intro fs
  induction fs with
  | nil => intro i0 h fid; simp [countsFrom]
  | cons f fs ih =>
    intro i0 h fid
    rw [countsFrom_cons]
    by_cases hc : 0 < countInFile H cfg h f
    · rw [if_pos hc]
      simp only [List.map_append, List.map_cons, List.map_nil, List.mem_append,
        List.mem_cons, List.not_mem_nil, or_false]
      rw [ih (i0 + 1) h fid]
      constructor
      · rintro (hfid | ⟨j, f', hj, hf', hcf⟩)
        · exact ⟨0, f, by omega, rfl, hc⟩
        · exact ⟨j + 1, f', by omega, by simpa using hf', hcf⟩
      · rintro ⟨j, f', hj, hf', hcf⟩
        cases j with
        | zero =>
          left
          simp at hf'
          omega
        | succ j =>
          right
          exact ⟨j, f', by omega, by simpa using hf', hcf⟩
    · rw [if_neg hc]
      simp only [List.nil_append]
      rw [ih (i0 + 1) h fid]
      constructor
      · rintro ⟨j, f', hj, hf', hcf⟩
        exact ⟨j + 1, f', by omega, by simpa using hf', hcf⟩
      · rintro ⟨j, f', hj, hf', hcf⟩
        cases j with
        | zero =>
          exfalso
          simp at hf'
          rw [hf'] at hc
          exact hc hcf
        | succ j =>
          exact ⟨j, f', by omega, by simpa using hf', hcf⟩

theorem keys_countsFrom_lb (H : String → String) (cfg : Config) :
    ∀ (fs : List SrcFile) (i0 : Nat) (h : String) (e : Nat × Nat),
    e ∈ countsFrom H cfg i0 fs h → i0 ≤ e.1 := by
  intro fs
  induction fs with
  | nil => intro i0 h e he; simp [countsFrom] at he
  | cons f fs ih =>
    intro i0 h e he
    rw [countsFrom_cons] at he
    by_cases hc : 0 < countInFile H cfg h f
    · rw [if_pos hc] at he
      rcases List.mem_append.mp he with he | he
      · rw [List.mem_singleton] at he
        rw [he]
      · have := ih (i0 + 1) h e he
        omega
    · rw [if_neg hc] at he
      simp only [List.nil_append] at he
      have := ih (i0 + 1) h e he
      omega

theorem nodup_keys_countsFrom (H : String → String) (cfg : Config) :
    ∀ (fs : List SrcFile) (i0 : Nat) (h : String),
    ((countsFrom H cfg i0 fs h).map (·.1)).Nodup := by
  intro fs
  induction fs with
  | nil => intro i0 h; simp [countsFrom]
  | cons f fs ih =>
    intro i0 h
    rw [countsFrom_cons]
    by_cases hc : 0 < countInFile H cfg h f
    · rw [if_pos hc]
      simp only [List.map_append, List.map_cons, List.map_nil]
      rw [List.singleton_append, List.nodup_cons]
      refine ⟨?_, ih (i0 + 1) h⟩
      intro hmem
      obtain ⟨e, he, heq⟩ := List.mem_map.mp hmem
      have := keys_countsFrom_lb H cfg fs (i0 + 1) h e he
      omega
    · rw [if_neg hc]
      simp only [List.nil_append]
      exact ih (i0 + 1) h

theorem length_filter_corpusScan (H : String → String) (cfg : Config)
    (files : List SrcFile) (h : String) :
    ((corpusScan files).filter (fun p => hashOf H cfg p.2 == h)).length =
      totalCountAll H cfg files h := by
  unfold corpusScan totalCountAll
  rw [List.filter_flatMap]
  rw [List.length_flatMap]
  have hpt : ∀ e : Nat × SrcFile,
      (((scanLines (fileBody e.2)).map (fun s => (e.1, s))).filter
        (fun p => hashOf H cfg p.2 == h)).length = countInFile H cfg h e.2 := by
    intro e
    rw [List.filter_map]
    rw [List.length_map]
    show ((scanLines (fileBody e.2)).filter (fun s => hashOf H cfg s == h)).length = _
    rfl
  have hmap : (files.enum.map (fun e =>
      (((scanLines (fileBody e.2)).map (fun s => (e.1, s))).filter
        (fun p => hashOf H cfg p.2 == h)).length)) =
      files.enum.map (fun e => countInFile H cfg h e.2) := by
    apply List.map_congr_left
    intro e _
    exact hpt e
  have hcomp : (List.length ∘ fun a : Nat × SrcFile =>
      List.filter (fun p => hashOf H cfg p.2 == h)
        (List.map (fun s => (a.1, s)) (scanLines (fileBody a.2)))) =
      fun e : Nat × SrcFile =>
        (((scanLines (fileBody e.2)).map (fun s => (e.1, s))).filter
          (fun p => hashOf H cfg p.2 == h)).length := rfl
  rw [hcomp, hmap]
  have : files.enum.map (fun e => countInFile H cfg h e.2) =
      files.map (countInFile H cfg h) := by
    rw [show (fun e : Nat × SrcFile => countInFile H cfg h e.2) =
      (countInFile H cfg h) ∘ Prod.snd from rfl]
    rw [← List.map_map, List.enum_map_snd]
  rw [this]

theorem filterMap_guard {A B : Type} (p : A → Bool) (G : A → Option B)
    (hmiss : ∀ a, p a = false → G a = none) :
    ∀ l : List A, l.filterMap G = (l.filter p).filterMap G := by
  intro l
  induction l with
  | nil => rfl
  | cons a l ih =>
    rw [List.filterMap_cons, List.filter_cons]
    cases hp : p a with
    | false =>
      rw [hmiss a hp, if_neg (by simp [hp])]
      exact ih
    | true =>
      rw [if_pos (by simp [hp]), List.filterMap_cons]
      cases G a with
      | none => exact ih
      | some b => rw [ih]

theorem keyOf_empty (cfg : Config) : keyOf cfg "" = "" := by
  unfold keyOf normalize_line
  cases hc : cfg.hash_fields with
  | zero => rfl
  | succ n =>
    have hsp : pySplit (pyStrip "") cfg.hash_delimiter (n + 1) = [""] := rfl
    rw [hsp, List.take_succ_cons, List.take_nil]
    rfl

/-- The record selector a file with FileId `i` contributes per scanned line. -/
def recSel (H : String → String) (cfg : Config) (i : Nat) (s : String) :
    Option String :=
  if keyOf cfg s == "" then none
  else some (diskRecLine (H (keyOf cfg s)) i (pfxDisk cfg s))

theorem chunkTriples_eq (H : String → String) (cfg : Config) (fid : Nat)
    (lines : List String) :
    chunkTriples H cfg fid lines = (scanLines lines).filterMap
      (fun s => if keyOf cfg s == "" then none
        else some (H (keyOf cfg s), fid, pfxDisk cfg s)) := by
  have h1 : chunkTriples H cfg fid lines = (lines.map pyStrip).filterMap
      (fun s => if s == "" then none
        else if keyOf cfg s == "" then none
        else some (H (keyOf cfg s), fid, pfxDisk cfg s)) :=
    (List.filterMap_map pyStrip
      (fun s => if s == "" then none
        else if keyOf cfg s == "" then none
        else some (H (keyOf cfg s), fid, pfxDisk cfg s)) lines).symm
  rw [h1]
  unfold scanLines
  rw [filterMap_guard (fun s => !(s == ""))
    (fun s => if s == "" then none
      else if keyOf cfg s == "" then none
      else some (H (keyOf cfg s), fid, pfxDisk cfg s))
    (by
      intro a ha
      simp only [Bool.not_eq_false'] at ha
      show (if (a == "") = true then none
        else if (keyOf cfg a == "") = true then none
        else some (H (keyOf cfg a), fid, pfxDisk cfg a)) = none
      rw [if_pos ha])
    (lines.map pyStrip)]
  apply List.filterMap_congr
  intro s hs
  have hne : ¬ ((s == "") = true) := by
    have := List.of_mem_filter hs
    simpa using this
  rw [if_neg hne]

/-- Every record the DISK phase 1 produces over the whole corpus, in scan
order. -/
def allRecs (H : String → String) (cfg : Config) (files : List SrcFile) :
    List String :=
  (corpusScan files).filterMap (fun p =>
    if keyOf cfg p.2 == "" then none
    else some (diskRecLine (hashOf H cfg p.2) p.1 (pfxDisk cfg p.2)))

theorem join_flatMap_perm {A B : Type} (g : A → List (List B)) (h : A → List B) :
    ∀ l : List A, (∀ a ∈ l, (g a).join ~ h a) →
    (l.flatMap g).join ~ l.flatMap h := by
  intro l
  induction l with
  | nil => intro _; rfl
  | cons a l ih =>
    intro hp
    show (g a ++ l.flatMap g).join ~ h a ++ l.flatMap h
    calc (g a ++ l.flatMap g).join
        = (g a).join ++ (l.flatMap g).join := by simp
      _ ~ h a ++ l.flatMap h :=
          List.Perm.append (hp a (List.mem_cons_self _ _))
            (ih (fun x hx => hp x (List.mem_cons_of_mem _ hx)))

theorem diskRuns_join_perm (H : String → String) (cfg : Config) (files : List SrcFile)
    (chunking : SrcFile → List (List String))
    (hchunk : ∀ f ∈ files, (chunking f).join = fileBody f) :
    (diskRuns H cfg files chunking).join ~ allRecs H cfg files := by
  unfold diskRuns allRecs corpusScan
  rw [List.filterMap_bind]
  have hperfile : ∀ e ∈ files.enum,
      ((chunking e.2).map (runLines H cfg e.1)).join ~
        ((scanLines (fileBody e.2)).map (fun s => (e.1, s))).filterMap
          (fun p => if keyOf cfg p.2 == "" then none
            else some (diskRecLine (hashOf H cfg p.2) p.1 (pfxDisk cfg p.2))) := by
    intro e he
    have hf : e.2 ∈ files := mem_enumFrom_snd files 0 e he
    have hstep1 : ((chunking e.2).map (runLines H cfg e.1)).join ~
        ((chunking e.2).map (fun c => (chunkTriples H cfg e.1 c).map
          (fun t => diskRecLine t.1 t.2.1 t.2.2))).join := by
      apply join_map_perm
      intro c _
      exact (ssort_perm tripleLe (chunkTriples H cfg e.1 c)).map _
    have hstep2 : ((chunking e.2).map (fun c => (chunkTriples H cfg e.1 c).map
        (fun t => diskRecLine t.1 t.2.1 t.2.2))).join =
        (((chunking e.2).map (chunkTriples H cfg e.1)).join).map
          (fun t => diskRecLine t.1 t.2.1 t.2.2) := by
      rw [show (fun c => (chunkTriples H cfg e.1 c).map
          (fun t : String × Nat × String => diskRecLine t.1 t.2.1 t.2.2)) =
        (List.map (fun t : String × Nat × String => diskRecLine t.1 t.2.1 t.2.2)) ∘
          (chunkTriples H cfg e.1) from rfl]
      rw [← List.map_map]
      exact (List.map_flatten _ _).symm
    have hstep3 : ((chunking e.2).map (chunkTriples H cfg e.1)).join =
        chunkTriples H cfg e.1 (fileBody e.2) := by
      show ((chunking e.2).map (List.filterMap _)).join = _
      rw [← filterMapJoinEq]
      rw [hchunk e.2 hf]
      rfl
    have hstep4 : (chunkTriples H cfg e.1 (fileBody e.2)).map
        (fun t => diskRecLine t.1 t.2.1 t.2.2) =
        ((scanLines (fileBody e.2)).map (fun s => (e.1, s))).filterMap
          (fun p => if keyOf cfg p.2 == "" then none
            else some (diskRecLine (hashOf H cfg p.2) p.1 (pfxDisk cfg p.2))) := by
      rw [chunkTriples_eq, List.map_filterMap, List.filterMap_map]
      apply List.filterMap_congr
      intro s _
      show Option.map (fun t : String × Nat × String => diskRecLine t.1 t.2.1 t.2.2)
          (if keyOf cfg s == "" then none
            else some (H (keyOf cfg s), e.1, pfxDisk cfg s)) =
        (if keyOf cfg s == "" then none
          else some (diskRecLine (hashOf H cfg s) e.1 (pfxDisk cfg s)))
      by_cases hk : (keyOf cfg s == "") = true
      · rw [if_pos hk, if_pos hk]
        rfl
      · rw [if_neg hk, if_neg hk]
        rfl
    calc ((chunking e.2).map (runLines H cfg e.1)).join
        ~ _ := hstep1
      _ = _ := hstep2
      _ = _ := by rw [hstep3]
      _ = _ := hstep4
  exact join_flatMap_perm _ _ files.enum hperfile

/-- Every scanned line has a nonempty NormalizedKey (lines with an empty key
are counted by FAST and SAFE but skipped by DISK, line 625). -/
def KeysNonempty (cfg : Config) (files : List SrcFile) : Prop :=
  ∀ p ∈ corpusScan files, ¬ (keyOf cfg p.2 = "")

/-- Hash digests are nonempty and use only characters above ASCII space, as
hex digests do; the DISK record round-trip needs this. -/
def HashSafe (H : String → String) (cfg : Config) (files : List SrcFile) : Prop :=
  ∀ p ∈ corpusScan files,
    ¬ (hashOf H cfg p.2 = "") ∧ ∀ c ∈ (hashOf H cfg p.2).data, safeChar c = true

/-- DisplayPrefixes survive the DISK record round-trip: no TAB inside (else
line 623 rewrites them) and no trailing whitespace (else line 857 strips it). -/
def PfxSafe (cfg : Config) (files : List SrcFile) : Prop :=
  ∀ p ∈ corpusScan files,
    ('\t' : Char) ∉ (pfxOf cfg p.2).data ∧
      (pfxOf cfg p.2).data.getLast?.all (fun pc => !(isPySpace pc)) = true

theorem pfxDisk_eq_pfxOf (cfg : Config) (s : String)
    (h : ('\t' : Char) ∉ (pfxOf cfg s).data) : pfxDisk cfg s = pfxOf cfg s := by
  unfold pfxDisk pyReplaceChar
  have hcongr : ∀ c ∈ (pfxOf cfg s).data, (if c = '\t' then ' ' else c) = c := by
    intro c hc
    rw [if_neg (fun he : c = '\t' => h (by rw [← he]; exact hc))]
  rw [List.map_congr_left hcongr, List.map_id']
  exact data_asString _

theorem mem_chunkTriples (H : String → String) (cfg : Config) (fid : Nat)
    (lines : List String) (t : String × Nat × String)
    (ht : t ∈ chunkTriples H cfg fid lines) :
    ∃ s ∈ scanLines lines, ¬ (keyOf cfg s = "") ∧
      t = (H (keyOf cfg s), fid, pfxDisk cfg s) := by
  rw [chunkTriples_eq] at ht
  obtain ⟨s, hs, hsel⟩ := List.mem_filterMap.mp ht
  by_cases hk : (keyOf cfg s == "") = true
  · rw [if_pos hk] at hsel
    simp at hsel
  · rw [if_neg hk] at hsel
    simp only [Option.some.injEq] at hsel
    exact ⟨s, hs, by simpa using hk, hsel.symm⟩

theorem scanLines_chunk_subset (f : SrcFile) (chunks : List (List String))
    (hchunk : chunks.join = fileBody f) (c : List String) (hc : c ∈ chunks)
    (s : String) (hs : s ∈ scanLines c) : s ∈ scanLines (fileBody f) := by
  unfold scanLines at hs ⊢
  rw [List.mem_filter] at hs ⊢
  obtain ⟨hm, hp⟩ := hs
  obtain ⟨raw, hraw, hstrip⟩ := List.mem_map.mp hm
  refine ⟨List.mem_map.mpr ⟨raw, ?_, hstrip⟩, hp⟩
  rw [← hchunk]
  exact List.mem_join.mpr ⟨c, hc, hraw⟩

theorem runLines_pairwise (H : String → String) (cfg : Config) (files : List SrcFile)
    (hfun : PfxFunctional H cfg files) (hhash : HashSafe H cfg files)
    (i : Nat) (f : SrcFile) (hif : files.get? i = some f) (c : List String)
    (hsub : ∀ s ∈ scanLines c, s ∈ scanLines (fileBody f)) :
    (runLines H cfg i c).Pairwise (fun a b => sLe a b = true) := by
  unfold runLines
  rw [List.pairwise_map]
  have hsorted := ssort_pairwise tripleLe
    (fun a b => sLe_total a.1 b.1)
    (fun a b c h1 h2 => sLe_trans h1 h2)
    (chunkTriples H cfg i c)
  refine List.Pairwise.imp_of_mem ?_ hsorted
  intro t1 t2 ht1 ht2 hle
  have hm1 : t1 ∈ chunkTriples H cfg i c := (ssort_perm _ _).mem_iff.mp ht1
  have hm2 : t2 ∈ chunkTriples H cfg i c := (ssort_perm _ _).mem_iff.mp ht2
  obtain ⟨s1, hs1, hk1, he1⟩ := mem_chunkTriples H cfg i c t1 hm1
  obtain ⟨s2, hs2, hk2, he2⟩ := mem_chunkTriples H cfg i c t2 hm2
  have hc1 : (i, s1) ∈ corpusScan files :=
    (mem_corpusScan_iff files i s1).mpr ⟨f, hif, hsub s1 hs1⟩
  have hc2 : (i, s2) ∈ corpusScan files :=
    (mem_corpusScan_iff files i s2).mpr ⟨f, hif, hsub s2 hs2⟩
  by_cases hh : t1.1 = t2.1
  · have hhash12 : hashOf H cfg s1 = hashOf H cfg s2 := by
      have h1 : t1.1 = hashOf H cfg s1 := by rw [he1]; rfl
      have h2 : t2.1 = hashOf H cfg s2 := by rw [he2]; rfl
      rw [← h1, ← h2, hh]
    have hpfx : pfxOf cfg s1 = pfxOf cfg s2 := hfun (i, s1) hc1 (i, s2) hc2 hhash12
    have ht12 : t1 = t2 := by
      rw [he1, he2]
      unfold hashOf at hhash12
      rw [hhash12]
      unfold pfxDisk
      rw [hpfx]
    rw [ht12]
    exact sLe_refl _
  · have hsafe1 : ∀ ch ∈ t1.1.data, safeChar ch = true := by
      rw [he1]
      exact (hhash (i, s1) hc1).2
    have hsafe2 : ∀ ch ∈ t2.1.data, safeChar ch = true := by
      rw [he2]
      exact (hhash (i, s2) hc2).2
    show sLe (diskRecLine t1.1 t1.2.1 t1.2.2) (diskRecLine t2.1 t2.2.1 t2.2.2) = true
    unfold sLe
    rw [diskRecLine_data, diskRecLine_data]
    rw [lexLe_tab_block _ _ _ _ hsafe1 hsafe2]
    rw [if_neg (fun hcontra => hh (congrArg List.asString hcontra))]
    exact hle

theorem diskRuns_sorted (H : String → String) (cfg : Config) (files : List SrcFile)
    (chunking : SrcFile → List (List String))
    (hchunk : ∀ f ∈ files, (chunking f).join = fileBody f)
    (hfun : PfxFunctional H cfg files) (hhash : HashSafe H cfg files) :
    ∀ r ∈ diskRuns H cfg files chunking, r.Pairwise (fun a b => sLe a b = true) := by
  intro r hr
  unfold diskRuns at hr
  rw [List.mem_flatMap] at hr
  obtain ⟨e, he, hmem⟩ := hr
  obtain ⟨c, hc, hrun⟩ := List.mem_map.mp hmem
  rw [← hrun]
  have hget : files.get? e.1 = some e.2 := by
    have := List.mem_enum_iff_get?.mp (show (e.1, e.2) ∈ files.enum by simpa using he)
    simpa using this
  have hf : e.2 ∈ files := mem_enumFrom_snd files 0 e he
  exact runLines_pairwise H cfg files hfun hhash e.1 e.2 hget c
    (fun s hs => scanLines_chunk_subset e.2 (chunking e.2) (hchunk e.2 hf) c hc s hs)

theorem diskFinal_eq (H : String → String) (cfg : Config) (files : List SrcFile)
    (chunking : SrcFile → List (List String)) (hmbs : 2 ≤ cfg.merge_batch_size)
    (hchunk : ∀ f ∈ files, (chunking f).join = fileBody f)
    (hfun : PfxFunctional H cfg files) (hhash : HashSafe H cfg files)
    (hne : diskRuns H cfg files chunking ≠ []) :
    cascadeMerge cfg.merge_batch_size (diskRuns H cfg files chunking) =
      some (ssort sLe (allRecs H cfg files)) := by
  rw [cascadeMerge_correct _ hmbs _
    (diskRuns_sorted H cfg files chunking hchunk hfun hhash) hne]
  congr 1
  exact ssort_sLe_congr_perm _ _ (diskRuns_join_perm H cfg files chunking hchunk)

theorem corpusScan_nil_of_diskRuns_nil (H : String → String) (cfg : Config)
    (files : List SrcFile) (chunking : SrcFile → List (List String))
    (hchunk : ∀ f ∈ files, (chunking f).join = fileBody f)
    (hr : diskRuns H cfg files chunking = []) : corpusScan files = [] := by
  unfold diskRuns at hr
  unfold corpusScan
  rw [List.flatMap_eq_nil_iff] at hr ⊢
  intro e he
  have hmapnil := hr e he
  have hcnil : chunking e.2 = [] := by
    cases hc : chunking e.2 with
    | nil => rfl
    | cons c cs =>
      rw [hc] at hmapnil
      simp at hmapnil
  have hbody : fileBody e.2 = [] := by
    rw [← hchunk e.2 (mem_enumFrom_snd files 0 e he), hcnil]
    rfl
  rw [hbody]
  show ((scanLines []).map _) = []
  rfl

theorem filter_append_split {A : Type} (p : A → Bool) :
    ∀ l : List A, l.Pairwise (fun a b => p b = true → p a = true) →
    l = l.filter p ++ l.filter (fun a => !(p a)) := by
  intro l
  induction l with
  | nil => intro _; rfl
  | cons a l ih =>
    intro hp
    rcases List.pairwise_cons.mp hp with ⟨ha, htail⟩
    rw [List.filter_cons, List.filter_cons]
    cases hpa : p a with
    | true =>
      rw [if_pos (by simp [hpa]), if_neg (by simp [hpa])]
      rw [List.cons_append]
      congr 1
      exact ih htail
    | false =>
      rw [if_neg (by simp [hpa]), if_pos (by simp [hpa])]
      have hnone : ∀ b ∈ l, p b = false := by
        intro b hb
        cases hpb : p b with
        | false => rfl
        | true => rw [ha b hb hpb] at hpa; exact absurd hpa (by simp)
      have h1 : l.filter p = [] := by
        rw [List.filter_eq_nil_iff]
        intro b hb
        simp [hnone b hb]
      have h2 : l.filter (fun a => !(p a)) = l := by
        rw [List.filter_eq_self]
        intro b hb
        simp [hnone b hb]
      rw [h1, h2, List.nil_append]

theorem sorted_blocks :
    ∀ (ks : List String) (ls : List String),
    ls.Pairwise (fun a b => sLe a b = true) →
    (∀ a ∈ ls, ∀ b ∈ ls, sLe a b = true → sLe (lineKey a) (lineKey b) = true) →
    ks.Pairwise (fun a b => sLe a b = true) →
    ks.Nodup →
    (∀ x ∈ ls, lineKey x ∈ ks) →
    ls = (ks.map (fun k => ls.filter (fun x => lineKey x == k))).join := by
  intro ks
  induction ks with
  | nil =>
    intro ls _ _ _ _ hcover
    cases ls with
    | nil => rfl
    | cons x l => exact absurd (hcover x (List.mem_cons_self _ _)) (by simp)
  | cons k ks ih =>
    intro ls hp hmono hks hknd hcover
    have hpref : ls.Pairwise (fun a b => (lineKey b == k) = true → (lineKey a == k) = true) := by
      refine hp.imp_of_mem ?_
      intro a b ha hb hab hbk
      by_cases hak : lineKey a = k
      · simpa using hak
      · exfalso
        have h1 : sLe (lineKey a) (lineKey b) = true := hmono a ha b hb hab
        have hbk' : lineKey b = k := by simpa using hbk
        rw [hbk'] at h1
        have hmem := hcover a ha
        rcases List.mem_cons.mp hmem with hm | hm
        · exact hak hm
        · have h2 : sLe k (lineKey a) = true := (List.pairwise_cons.mp hks).1 _ hm
          exact hak (sLe_antisymm h1 h2)
    have hsplit := filter_append_split (fun x => lineKey x == k) ls hpref
    have hknotin : k ∉ ks := (List.nodup_cons.mp hknd).1
    have hB := ih (ls.filter (fun x => !(lineKey x == k)))
      (List.Pairwise.filter _ hp)
      (fun a ha b hb hab =>
        hmono a (List.mem_of_mem_filter ha) b (List.mem_of_mem_filter hb) hab)
      ((List.pairwise_cons.mp hks).2)
      ((List.nodup_cons.mp hknd).2)
      (by
        intro x hx
        have hxls := List.mem_of_mem_filter hx
        have hxk : ¬ (lineKey x = k) := by
          have := List.of_mem_filter hx
          simpa using this
        rcases List.mem_cons.mp (hcover x hxls) with hm | hm
        · exact absurd hm hxk
        · exact hm)
    have hfilters : ∀ k' ∈ ks,
        (ls.filter (fun x => !(lineKey x == k))).filter (fun x => lineKey x == k') =
          ls.filter (fun x => lineKey x == k') := by
      intro k' hk'
      rw [List.filter_filter]
      apply List.filter_congr
      intro x _
      by_cases hq : (lineKey x == k') = true
      · have hxk : ¬ ((lineKey x == k) = true) := by
          intro hcontra
          have h1 : lineKey x = k' := by simpa using hq
          have h2 : lineKey x = k := by simpa using hcontra
          exact hknotin ((h1.symm.trans h2) ▸ hk')
        simp [hq, hxk]
      · simp [hq]
    have hmapeq : ks.map (fun k' =>
        (ls.filter (fun x => !(lineKey x == k))).filter (fun x => lineKey x == k')) =
        ks.map (fun k' => ls.filter (fun x => lineKey x == k')) :=
      List.map_congr_left (fun k' hk' => hfilters k' hk')
    show ls = ls.filter (fun x => lineKey x == k) ++
      (ks.map (fun k' => ls.filter (fun x => lineKey x == k'))).join
    rw [← hmapeq, ← hB]
    exact hsplit

theorem groupRecs_sorted (ls ks : List String)
    (hp : ls.Pairwise (fun a b => sLe a b = true))
    (hmono : ∀ a ∈ ls, ∀ b ∈ ls, sLe a b = true → sLe (lineKey a) (lineKey b) = true)
    (hks : ks.Pairwise (fun a b => sLe a b = true))
    (hknd : ks.Nodup)
    (hcover : ∀ x ∈ ls, lineKey x ∈ ks)
    (hinhab : ∀ k ∈ ks, ∃ x ∈ ls, lineKey x = k) :
    groupRecs ls = ks.map (fun k => (k, ls.filter (fun x => lineKey x == k))) := by
  have hpart := sorted_blocks ks ls hp hmono hks hknd hcover
  have hjoin : ((ks.map (fun k => (k, ls.filter (fun x => lineKey x == k)))).map (·.2)).join =
      (ks.map (fun k => ls.filter (fun x => lineKey x == k))).join := by
    rw [List.map_map]
    rfl
  unfold groupRecs
  rw [show groupRecsFuel ls.length ls =
    groupRecsFuel ((ks.map (fun k => (k, ls.filter (fun x => lineKey x == k)))).map (·.2)).join.length
      ((ks.map (fun k => (k, ls.filter (fun x => lineKey x == k)))).map (·.2)).join from by
    rw [hjoin, ← hpart]]
  apply groupRecsFuel_blocks
  · exact Nat.le_refl _
  · intro b hb
    obtain ⟨k, hk, hbk⟩ := List.mem_map.mp hb
    rw [← hbk]
    show ls.filter (fun x => lineKey x == k) ≠ []
    obtain ⟨x, hx, hkey⟩ := hinhab k hk
    intro hcontra
    have : x ∈ ls.filter (fun x => lineKey x == k) :=
      List.mem_filter.mpr ⟨hx, by simp [hkey]⟩
    rw [hcontra] at this
    simp at this
  · intro b hb x hx
    obtain ⟨k, hk, hbk⟩ := List.mem_map.mp hb
    rw [← hbk] at hx ⊢
    have := List.of_mem_filter hx
    simpa using this
  · rw [List.chain'_map]
    exact List.Pairwise.chain' hknd

/-- The `file_ids` / `prefix` accumulation over one hash group (lines 852–860):
unparsable items are skipped, the first nonempty prefix wins. -/
def groupFold (items : List String) : List Nat × String :=
  items.foldl
    (fun acc item =>
      match parseRec item with
      | none => acc
      | some fp => (setInsert acc.1 fp.1, if acc.2 == "" then fp.2 else acc.2))
    ([], "")

/-- The report entry DISK phase 3 inserts for one hash group (lines 850–864). -/
def diskSel (files : List SrcFile) (g : String × List String) :
    Option (String × List String) :=
  if g.2.length > 1 then
    if (groupFold g.2).2 == "" then none
    else some ((groupFold g.2).2, (pySortedNat (groupFold g.2).1).map (idToName files))
  else none

/-- `output_data` of `run_strategy_disk` (lines 845–864). -/
def diskOutputData (H : String → String) (cfg : Config) (files : List SrcFile)
    (chunking : SrcFile → List (List String)) : List (String × List String) :=
  match cascadeMerge cfg.merge_batch_size (diskRuns H cfg files chunking) with
  | none => []
  | some finalLines =>
    (groupRecs finalLines).foldl
      (fun od g =>
        if g.2.length > 1 then
          if (groupFold g.2).2 == "" then od
          else dinsert od (groupFold g.2).2 ((pySortedNat (groupFold g.2).1).map (idToName files))
        else od)
      []

/-- The duplicates report a DISK run with deletion disabled writes. -/
def diskReport (H : String → String) (cfg : Config) (files : List SrcFile)
    (chunking : SrcFile → List (List String)) : String :=
  write_duplicates (diskOutputData H cfg files chunking)

theorem mem_setInsert (l : List Nat) (y x : Nat) :
    x ∈ setInsert l y ↔ x ∈ l ∨ x = y := by
  unfold setInsert
  by_cases hy : y ∈ l
  · rw [if_pos hy]
    constructor
    · exact Or.inl
    · rintro (h | h)
      · exact h
      · exact h ▸ hy
  · rw [if_neg hy]
    rw [List.mem_append]
    constructor
    · rintro (h | h)
      · exact Or.inl h
      · exact Or.inr (by simpa using h)
    · rintro (h | h)
      · exact Or.inl h
      · exact Or.inr (by simp [h])

theorem nodup_setInsert (l : List Nat) (y : Nat) (h : l.Nodup) :
    (setInsert l y).Nodup := by
  unfold setInsert
  by_cases hy : y ∈ l
  · rw [if_pos hy]; exact h
  · rw [if_neg hy]
    rw [List.nodup_append]
    exact ⟨h, List.nodup_singleton y, by simpa using hy⟩

theorem groupFold_go (v : String) (hv : (v == "") = false) (F : String → Nat) :
    ∀ (g : List String) (acc : List Nat × String),
    (∀ item ∈ g, parseRec item = some (F item, v)) →
    acc.2 = v →
    (g.foldl (fun acc item =>
        match parseRec item with
        | none => acc
        | some fp => (setInsert acc.1 fp.1, if acc.2 == "" then fp.2 else acc.2)) acc).2 = v ∧
    (∀ x, x ∈ (g.foldl (fun acc item =>
        match parseRec item with
        | none => acc
        | some fp => (setInsert acc.1 fp.1, if acc.2 == "" then fp.2 else acc.2)) acc).1 ↔
      x ∈ acc.1 ∨ ∃ item ∈ g, F item = x) ∧
    (acc.1.Nodup → (g.foldl (fun acc item =>
        match parseRec item with
        | none => acc
        | some fp => (setInsert acc.1 fp.1, if acc.2 == "" then fp.2 else acc.2)) acc).1.Nodup) := by
  intro g
  induction g with
  | nil =>
    intro acc _ hacc
    refine ⟨hacc, ?_, fun h => h⟩
    intro x
    simp
  | cons it rest ih =>
    intro acc hparse hacc
    rw [List.foldl_cons, hparse it (List.mem_cons_self _ _)]
    have hstep : (match some (F it, v) with
        | none => acc
        | some fp => (setInsert acc.1 fp.1, if acc.2 == "" then fp.2 else acc.2)) =
        (setInsert acc.1 (F it), v) := by
      show (setInsert acc.1 (F it), if acc.2 == "" then v else acc.2) = _
      rw [hacc]
      congr 1
      by_cases hc : (v == "") = true
      · rw [if_pos hc]
      · rw [if_neg hc]
    rw [hstep]
    obtain ⟨h2, hmem, hnd⟩ := ih (setInsert acc.1 (F it), v)
      (fun x hx => hparse x (List.mem_cons_of_mem _ hx)) rfl
    refine ⟨h2, ?_, ?_⟩
    · intro x
      rw [hmem x]
      show x ∈ setInsert acc.1 (F it) ∨ _ ↔ _
      rw [mem_setInsert]
      constructor
      · rintro ((h | h) | h)
        · exact Or.inl h
        · exact Or.inr ⟨it, List.mem_cons_self _ _, h.symm⟩
        · obtain ⟨item, hitem, hFx⟩ := h
          exact Or.inr ⟨item, List.mem_cons_of_mem _ hitem, hFx⟩
      · rintro (h | ⟨item, hitem, hFx⟩)
        · exact Or.inl (Or.inl h)
        · rcases List.mem_cons.mp hitem with hit | hit
          · exact Or.inl (Or.inr (by rw [← hFx, hit]))
          · exact Or.inr ⟨item, hit, hFx⟩
    · intro hnd0
      exact hnd (nodup_setInsert acc.1 (F it) hnd0)

theorem groupFold_spec (g : List String) (v : String) (hv : ¬ (v = ""))
    (F : String → Nat)
    (hparse : ∀ item ∈ g, parseRec item = some (F item, v)) (hgne : g ≠ []) :
    (groupFold g).2 = v ∧
    (∀ x, x ∈ (groupFold g).1 ↔ ∃ item ∈ g, F item = x) ∧
    (groupFold g).1.Nodup := by
  have hvb : (v == "") = false := by simpa using hv
  cases g with
  | nil => exact absurd rfl hgne
  | cons it rest =>
    unfold groupFold
    rw [List.foldl_cons, hparse it (List.mem_cons_self _ _)]
    have hstep : (match some (F it, v) with
        | none => (([] : List Nat), "")
        | some fp => (setInsert ([] : List Nat) fp.1,
            if ("" : String) == "" then fp.2 else "")) =
        (setInsert [] (F it), v) := by
      show (setInsert ([] : List Nat) (F it), if ("" : String) == "" then v else "") = _
      rw [if_pos (by simp)]
    rw [hstep]
    obtain ⟨h2, hmem, hnd⟩ := groupFold_go v hvb F rest (setInsert [] (F it), v)
      (fun x hx => hparse x (List.mem_cons_of_mem _ hx)) rfl
    refine ⟨h2, ?_, hnd (nodup_setInsert [] (F it) (by simp))⟩
    intro x
    rw [hmem x]
    show x ∈ setInsert [] (F it) ∨ _ ↔ _
    rw [mem_setInsert]
    constructor
    · rintro ((h | h) | h)
      · simp at h
      · exact ⟨it, List.mem_cons_self _ _, h.symm⟩
      · obtain ⟨item, hitem, hFx⟩ := h
        exact ⟨item, List.mem_cons_of_mem _ hitem, hFx⟩
    · rintro ⟨item, hitem, hFx⟩
      rcases List.mem_cons.mp hitem with hit | hit
      · exact Or.inl (Or.inr (by rw [← hFx, hit]))
      · exact Or.inr ⟨item, hit, hFx⟩

theorem mem_allRecs (H : String → String) (cfg : Config) (files : List SrcFile)
    (r : String) :
    r ∈ allRecs H cfg files ↔ ∃ p ∈ corpusScan files, ¬ (keyOf cfg p.2 = "") ∧
      r = diskRecLine (hashOf H cfg p.2) p.1 (pfxDisk cfg p.2) := by
  unfold allRecs
  rw [List.mem_filterMap]
  constructor
  · rintro ⟨p, hp, hsel⟩
    by_cases hk : (keyOf cfg p.2 == "") = true
    · rw [if_pos hk] at hsel
      simp at hsel
    · rw [if_neg hk] at hsel
      simp only [Option.some.injEq] at hsel
      exact ⟨p, hp, by simpa using hk, hsel.symm⟩
  · rintro ⟨p, hp, hk, hr⟩
    refine ⟨p, hp, ?_⟩
    rw [if_neg (by simpa using hk), hr]

theorem allRecs_eq_map (H : String → String) (cfg : Config) (files : List SrcFile)
    (hkeys : KeysNonempty cfg files) :
    allRecs H cfg files = (corpusScan files).map
      (fun p => diskRecLine (hashOf H cfg p.2) p.1 (pfxDisk cfg p.2)) := by
  unfold allRecs
  rw [List.filterMap_congr (g := fun p =>
    some (diskRecLine (hashOf H cfg p.2) p.1 (pfxDisk cfg p.2)))]
  · exact filterMap_some_eq_map _ _
  · intro p hp
    rw [if_neg (by simpa using hkeys p hp)]

theorem pfxOf_concat_shape (cfg : Config) (files : List SrcFile)
    (hwl : 1 ≤ cfg.write_length) (p : Nat × String) (hp : p ∈ corpusScan files) :
    ∃ pq pc, (pfxOf cfg p.2).data = pq ++ [pc] := by
  obtain ⟨f, hf, hs⟩ := mem_file_of_mem_corpusScan files p hp
  have hne : pfxOf cfg p.2 ≠ "" :=
    pfxOf_ne_empty cfg p.2 (mem_scanLines_ne_empty _ _ hs) hwl
  have hdne : (pfxOf cfg p.2).data ≠ [] := by
    intro hc
    apply hne
    rw [← data_asString (pfxOf cfg p.2), hc]
    rfl
  rcases List.eq_nil_or_concat (pfxOf cfg p.2).data with hc | ⟨pq, pc, hc⟩
  · exact absurd hc hdne
  · exact ⟨pq, pc, by simpa using hc⟩

theorem parseRec_of_corpus (H : String → String) (cfg : Config) (files : List SrcFile)
    (hwl : 1 ≤ cfg.write_length) (hhash : HashSafe H cfg files)
    (hpsafe : PfxSafe cfg files) (p : Nat × String) (hp : p ∈ corpusScan files) :
    parseRec (diskRecLine (hashOf H cfg p.2) p.1 (pfxDisk cfg p.2)) =
      some (p.1, pfxOf cfg p.2) := by
  have hpd := pfxDisk_eq_pfxOf cfg p.2 (hpsafe p hp).1
  rw [hpd]
  obtain ⟨pq, pc, hcat⟩ := pfxOf_concat_shape cfg files hwl p hp
  have hpc : isPySpace pc = false := by
    have hall := (hpsafe p hp).2
    have hlast : (pfxOf cfg p.2).data.getLast? = some pc := by
      rw [hcat]
      exact List.getLast?_concat _
    rw [hlast] at hall
    simpa using hall
  exact parseRec_diskRecLine (hashOf H cfg p.2) p.1 (pfxOf cfg p.2)
    (hhash p hp).2 (hhash p hp).1 ⟨pq, pc, hcat, hpc⟩ (hpsafe p hp).1

theorem mem_group_decode (H : String → String) (cfg : Config) (files : List SrcFile)
    (hhash : HashSafe H cfg files) (k item : String)
    (hitem : item ∈ (ssort sLe (allRecs H cfg files)).filter
      (fun x => lineKey x == k)) :
    ∃ p ∈ corpusScan files, ¬ (keyOf cfg p.2 = "") ∧ hashOf H cfg p.2 = k ∧
      item = diskRecLine (hashOf H cfg p.2) p.1 (pfxDisk cfg p.2) := by
  have hmem := List.mem_of_mem_filter hitem
  have hkey0 := List.of_mem_filter hitem
  have hkey : (lineKey item == k) = true := hkey0
  have hall : item ∈ allRecs H cfg files := (ssort_perm _ _).mem_iff.mp hmem
  obtain ⟨p, hp, hkne, hrec⟩ := (mem_allRecs H cfg files item).mp hall
  refine ⟨p, hp, hkne, ?_, hrec⟩
  have hlk : lineKey item = hashOf H cfg p.2 := by
    rw [hrec]
    exact lineKey_diskRecLine _ _ _ (hhash p hp).2
  rw [← hlk]
  simpa using hkey

theorem group_length_eq (H : String → String) (cfg : Config) (files : List SrcFile)
    (hkeys : KeysNonempty cfg files) (hhash : HashSafe H cfg files) (k : String) :
    ((ssort sLe (allRecs H cfg files)).filter (fun x => lineKey x == k)).length =
      totalCountAll H cfg files k := by
  have hperm : (ssort sLe (allRecs H cfg files)).filter (fun x => lineKey x == k) ~
      (allRecs H cfg files).filter (fun x => lineKey x == k) :=
    (ssort_perm sLe (allRecs H cfg files)).filter _
  rw [hperm.length_eq]
  rw [allRecs_eq_map H cfg files hkeys, List.filter_map, List.length_map]
  rw [List.filter_congr (q := fun p => hashOf H cfg p.2 == k) (by
    intro p hp
    show (lineKey (diskRecLine (hashOf H cfg p.2) p.1 (pfxDisk cfg p.2)) == k) = _
    rw [lineKey_diskRecLine _ _ _ (hhash p hp).2])]
  exact length_filter_corpusScan H cfg files k

theorem diskSel_group_eq (H : String → String) (cfg : Config) (files : List SrcFile)
    (hwl : 1 ≤ cfg.write_length) (hfun : PfxFunctional H cfg files)
    (hkeys : KeysNonempty cfg files) (hhash : HashSafe H cfg files)
    (hpsafe : PfxSafe cfg files) (k : String) (hk : k ∈ gKeys H cfg files) :
    diskSel files (k, (ssort sLe (allRecs H cfg files)).filter (fun x => lineKey x == k)) =
      if 1 < totalCountAll H cfg files k then some (canonEntry H cfg files k)
      else none := by
  have hpos : 0 < totalCountAll H cfg files k := (mem_gKeys_iff H cfg hwl files k).mp hk
  have hlen := group_length_eq H cfg files hkeys hhash k
  by_cases hdup : 1 < totalCountAll H cfg files k
  · rw [if_pos hdup]
    unfold diskSel
    rw [if_pos (show ((ssort sLe (allRecs H cfg files)).filter
        (fun x => lineKey x == k)).length > 1 by rw [hlen]; omega)]
    have hvne : ¬ (canonPfx H cfg files k = "") := canonPfx_ne_empty H cfg files hwl k hpos
    have hparse : ∀ item ∈ (ssort sLe (allRecs H cfg files)).filter
        (fun x => lineKey x == k), parseRec item =
        some ((fun it => ((parseRec it).map Prod.fst).getD 0) item,
          canonPfx H cfg files k) := by
      intro item hitem
      obtain ⟨p, hp, hkne, hhk, hrec⟩ := mem_group_decode H cfg files hhash k item hitem
      have hpr := parseRec_of_corpus H cfg files hwl hhash hpsafe p hp
      have hcanon : pfxOf cfg p.2 = canonPfx H cfg files k :=
        pfx_eq_canonPfx H cfg files hfun p hp k hhk
      rw [hrec]
      show parseRec (diskRecLine (hashOf H cfg p.2) p.1 (pfxDisk cfg p.2)) =
        some (((parseRec (diskRecLine (hashOf H cfg p.2) p.1 (pfxDisk cfg p.2))).map
          Prod.fst).getD 0, canonPfx H cfg files k)
      rw [hpr, hcanon]
      rfl
    have hgne : (ssort sLe (allRecs H cfg files)).filter
        (fun x => lineKey x == k) ≠ [] := by
      intro hcontra
      rw [hcontra] at hlen
      simp at hlen
      omega
    obtain ⟨hpfx2, hmem, hnd⟩ := groupFold_spec _ (canonPfx H cfg files k) hvne _ hparse hgne
    rw [if_neg (show ¬ (((groupFold ((ssort sLe (allRecs H cfg files)).filter
        (fun x => lineKey x == k))).2 == "") = true) by
      rw [hpfx2]
      simpa using hvne)]
    rw [hpfx2]
    have hfidperm : (groupFold ((ssort sLe (allRecs H cfg files)).filter
        (fun x => lineKey x == k))).1 ~ (countsFrom H cfg 0 files k).map (·.1) := by
      rw [List.perm_ext_iff_of_nodup hnd (nodup_keys_countsFrom H cfg files 0 k)]
      intro x
      rw [hmem x, mem_keys_countsFrom H cfg files 0 k x]
      constructor
      · rintro ⟨item, hitem, hF⟩
        obtain ⟨p, hp, hkne, hhk, hrec⟩ := mem_group_decode H cfg files hhash k item hitem
        have hpr := parseRec_of_corpus H cfg files hwl hhash hpsafe p hp
        have hFp : ((parseRec item).map Prod.fst).getD 0 = p.1 := by
          rw [hrec, hpr]
          rfl
        obtain ⟨f, hgf, hsf⟩ := (mem_corpusScan_iff files p.1 p.2).mp (by simpa using hp)
        refine ⟨p.1, f, by omega, hgf, ?_⟩
        exact (countInFile_pos_iff H cfg k f).mpr ⟨p.2, hsf, hhk⟩
      · rintro ⟨j, f, hxj, hgf, hcf⟩
        obtain ⟨s, hsmem, hsh⟩ := (countInFile_pos_iff H cfg k f).mp hcf
        have hpc : (j, s) ∈ corpusScan files :=
          (mem_corpusScan_iff files j s).mpr ⟨f, hgf, hsmem⟩
        have hitem : diskRecLine (hashOf H cfg s) j (pfxDisk cfg s) ∈
            (ssort sLe (allRecs H cfg files)).filter (fun x => lineKey x == k) := by
          rw [List.mem_filter]
          constructor
          · apply (ssort_perm sLe (allRecs H cfg files)).mem_iff.mpr
            exact (mem_allRecs H cfg files _).mpr ⟨(j, s), hpc, hkeys (j, s) hpc, rfl⟩
          · rw [show lineKey (diskRecLine (hashOf H cfg s) j (pfxDisk cfg s)) =
              hashOf H cfg s from lineKey_diskRecLine _ _ _ (hhash (j, s) hpc).2]
            simpa using hsh
        refine ⟨diskRecLine (hashOf H cfg s) j (pfxDisk cfg s), hitem, ?_⟩
        have hpr := parseRec_of_corpus H cfg files hwl hhash hpsafe (j, s) hpc
        show ((parseRec (diskRecLine (hashOf H cfg s) j (pfxDisk cfg s))).map
          Prod.fst).getD 0 = x
        rw [hpr]
        show j = x
        omega
    rw [pySortedNat_congr_perm _ _ hfidperm]
    rfl
  · rw [if_neg hdup]
    unfold diskSel
    rw [if_neg (show ¬ (((ssort sLe (allRecs H cfg files)).filter
        (fun x => lineKey x == k)).length > 1) by rw [hlen]; omega)]

theorem diskOutputData_perm_canonData (H : String → String) (cfg : Config)
    (files : List SrcFile) (chunking : SrcFile → List (List String))
    (hwl : 1 ≤ cfg.write_length) (hmbs : 2 ≤ cfg.merge_batch_size)
    (hchunk : ∀ f ∈ files, (chunking f).join = fileBody f)
    (hfun : PfxFunctional H cfg files) (hdinj : DupPfxInjective H cfg files)
    (hkeys : KeysNonempty cfg files) (hhash : HashSafe H cfg files)
    (hpsafe : PfxSafe cfg files) :
    diskOutputData H cfg files chunking ~ canonData H cfg files ∧
      (keysOf (diskOutputData H cfg files chunking)).Nodup := by
  by_cases hruns : diskRuns H cfg files chunking = []
  · have hout : diskOutputData H cfg files chunking = [] := by
      unfold diskOutputData
      rw [hruns]
      rfl
    have hcorp := corpusScan_nil_of_diskRuns_nil H cfg files chunking hchunk hruns
    have hdk : dupKeys H cfg files = [] := by
      rw [List.eq_nil_iff_forall_not_mem]
      intro h hh
      have hd := (mem_dupKeys_iff H cfg hwl files h).mp hh
      obtain ⟨p, hp, _⟩ := exists_corpus_of_totalCount_pos H cfg files h (by omega)
      rw [hcorp] at hp
      simp at hp
    have hcanon : canonData H cfg files = [] := by
      unfold canonData
      rw [hdk]
      rfl
    rw [hout, hcanon]
    exact ⟨List.Perm.refl _, List.nodup_nil⟩
  · have hfinal := diskFinal_eq H cfg files chunking hmbs hchunk hfun hhash hruns
    have hmono : ∀ a ∈ ssort sLe (allRecs H cfg files),
        ∀ b ∈ ssort sLe (allRecs H cfg files),
        sLe a b = true → sLe (lineKey a) (lineKey b) = true := by
      intro a ha b hb hab
      obtain ⟨p1, hp1, _, hr1⟩ :=
        (mem_allRecs H cfg files a).mp ((ssort_perm _ _).mem_iff.mp ha)
      obtain ⟨p2, hp2, _, hr2⟩ :=
        (mem_allRecs H cfg files b).mp ((ssort_perm _ _).mem_iff.mp hb)
      have hk1 : lineKey a = hashOf H cfg p1.2 := by
        rw [hr1]
        exact lineKey_diskRecLine _ _ _ (hhash p1 hp1).2
      have hk2 : lineKey b = hashOf H cfg p2.2 := by
        rw [hr2]
        exact lineKey_diskRecLine _ _ _ (hhash p2 hp2).2
      rw [hk1, hk2]
      rw [hr1, hr2] at hab
      unfold sLe at hab
      rw [diskRecLine_data, diskRecLine_data] at hab
      rw [lexLe_tab_block _ _ _ _ (hhash p1 hp1).2 (hhash p2 hp2).2] at hab
      by_cases hde : (hashOf H cfg p1.2).data = (hashOf H cfg p2.2).data
      · have heq : hashOf H cfg p1.2 = hashOf H cfg p2.2 := by
          rw [← data_asString (hashOf H cfg p1.2), ← data_asString (hashOf H cfg p2.2), hde]
        rw [heq]
        exact sLe_refl _
      · rw [if_neg hde] at hab
        exact hab
    have hks := ssort_pairwise sLe (fun a b => sLe_total a b)
      (fun a b c h1 h2 => sLe_trans h1 h2) (gKeys H cfg files)
    have hknd : (ssort sLe (gKeys H cfg files)).Nodup :=
      ((ssort_perm sLe (gKeys H cfg files)).nodup_iff).mpr
        (nodup_keys_globalHashes H cfg files)
    have hcover : ∀ x ∈ ssort sLe (allRecs H cfg files),
        lineKey x ∈ ssort sLe (gKeys H cfg files) := by
      intro x hx
      obtain ⟨p, hp, _, hr⟩ :=
        (mem_allRecs H cfg files x).mp ((ssort_perm _ _).mem_iff.mp hx)
      have hk : lineKey x = hashOf H cfg p.2 := by
        rw [hr]
        exact lineKey_diskRecLine _ _ _ (hhash p hp).2
      rw [hk]
      apply (ssort_perm sLe (gKeys H cfg files)).mem_iff.mpr
      exact (mem_gKeys_iff H cfg hwl files _).mpr (totalCount_pos_of_corpus H cfg files p hp)
    have hinhab : ∀ k ∈ ssort sLe (gKeys H cfg files),
        ∃ x ∈ ssort sLe (allRecs H cfg files), lineKey x = k := by
      intro k hkk
      have hkg : k ∈ gKeys H cfg files := (ssort_perm _ _).mem_iff.mp hkk
      have hpos := (mem_gKeys_iff H cfg hwl files k).mp hkg
      obtain ⟨p, hp, hhk⟩ := exists_corpus_of_totalCount_pos H cfg files k hpos
      refine ⟨diskRecLine (hashOf H cfg p.2) p.1 (pfxDisk cfg p.2), ?_, ?_⟩
      · apply (ssort_perm _ _).mem_iff.mpr
        exact (mem_allRecs H cfg files _).mpr ⟨p, hp, hkeys p hp, rfl⟩
      · rw [lineKey_diskRecLine _ _ _ (hhash p hp).2]
        exact hhk
    have hgr := groupRecs_sorted (ssort sLe (allRecs H cfg files))
      (ssort sLe (gKeys H cfg files))
      (ssort_pairwise sLe (fun a b => sLe_total a b)
        (fun a b c h1 h2 => sLe_trans h1 h2) (allRecs H cfg files))
      hmono hks hknd hcover hinhab
    have hfm : (groupRecs (ssort sLe (allRecs H cfg files))).filterMap (diskSel files) =
        ((ssort sLe (gKeys H cfg files)).filter
          (fun k => decide (1 < totalCountAll H cfg files k))).map
          (canonEntry H cfg files) := by
      rw [hgr, List.filterMap_map]
      have hpoint : ∀ k ∈ ssort sLe (gKeys H cfg files),
          (diskSel files ∘ fun k => (k, (ssort sLe (allRecs H cfg files)).filter
            (fun x => lineKey x == k))) k =
          if 1 < totalCountAll H cfg files k then some (canonEntry H cfg files k)
          else none := by
        intro k hkk
        exact diskSel_group_eq H cfg files hwl hfun hkeys hhash hpsafe k
          ((ssort_perm _ _).mem_iff.mp hkk)
      rw [List.filterMap_congr hpoint, filterMap_ite_eq_filter_map]
    have hnodup : (((groupRecs (ssort sLe (allRecs H cfg files))).filterMap
        (diskSel files)).map Prod.fst).Nodup := by
      rw [hfm, List.map_map]
      have hcomp : Prod.fst ∘ canonEntry H cfg files = canonPfx H cfg files := rfl
      rw [hcomp]
      apply List.Nodup.map_on
      · intro x hx y hy hxy
        have hxd : 1 < totalCountAll H cfg files x := by
          have hm := List.of_mem_filter hx
          simpa using hm
        have hyd : 1 < totalCountAll H cfg files y := by
          have hm := List.of_mem_filter hy
          simpa using hm
        exact canonPfx_inj_on_dup H cfg files hdinj x y hxd hyd hxy
      · exact hknd.filter _
    have hfold := foldl_step_eq_filterMap
      (fun od (g : String × List String) =>
        if g.2.length > 1 then
          if (groupFold g.2).2 == "" then od
          else dinsert od (groupFold g.2).2
            ((pySortedNat (groupFold g.2).1).map (idToName files))
        else od)
      (diskSel files)
      (by
        intro od g
        by_cases h1 : g.2.length > 1
        · by_cases h2 : ((groupFold g.2).2 == "") = true
          · simp [diskSel, h1, h2]
          · simp [diskSel, h1, h2]
        · simp [diskSel, h1])
      (groupRecs (ssort sLe (allRecs H cfg files))) []
      (by simpa using hnodup)
    have hout : diskOutputData H cfg files chunking =
        ((ssort sLe (gKeys H cfg files)).filter
          (fun k => decide (1 < totalCountAll H cfg files k))).map
          (canonEntry H cfg files) := by
      unfold diskOutputData
      rw [hfinal]
      show (groupRecs (ssort sLe (allRecs H cfg files))).foldl
        (fun od (g : String × List String) =>
          if g.2.length > 1 then
            if (groupFold g.2).2 == "" then od
            else dinsert od (groupFold g.2).2
              ((pySortedNat (groupFold g.2).1).map (idToName files))
          else od) [] = _
      rw [hfold, List.nil_append, hfm]
    constructor
    · rw [hout]
      unfold canonData dupKeys
      exact ((ssort_perm sLe (gKeys H cfg files)).filter _).map _
    · rw [hout]
      have hk : keysOf (((ssort sLe (gKeys H cfg files)).filter
          (fun k => decide (1 < totalCountAll H cfg files k))).map
          (canonEntry H cfg files)) =
          ((ssort sLe (gKeys H cfg files)).filter
            (fun k => decide (1 < totalCountAll H cfg files k))).map
            (canonPfx H cfg files) := by
        unfold keysOf
        rw [List.map_map]
        rfl
      rw [hk]
      apply List.Nodup.map_on
      · intro x hx y hy hxy
        have hxd : 1 < totalCountAll H cfg files x := by
          have hm := List.of_mem_filter hx
          simpa using hm
        have hyd : 1 < totalCountAll H cfg files y := by
          have hm := List.of_mem_filter hy
          simpa using hm
        exact canonPfx_inj_on_dup H cfg files hdinj x y hxd hyd hxy
      · exact hknd.filter _

/-- C1 (amended): the FAST, SAFE and DISK engines write identical
`duplicates.txt` reports under the claim's collision-freeness assumption
STRENGTHENED to: duplicated raw lines that share a Hash64 share their
DisplayPrefix (`PfxFunctional`; the counterexample shows the original claim
fails without it), distinct duplicated prefixes come from distinct hashes
(`DupPfxInjective`, the report is keyed by prefix), no scanned line has an
empty NormalizedKey (DISK skips such lines, FAST and SAFE count them), hash
digests are nonempty with characters above ASCII space, and DisplayPrefixes
contain no TAB and no trailing whitespace (the DISK record round-trip);
`write_length ≥ 1`, `merge_batch_size ≥ 2`, and any `readlines` chunking. -/
theorem claim_C1_amended (H : String → String) (cfg : Config) (files : List SrcFile)
    (chunking : SrcFile → List (List String))
    (hwl : 1 ≤ cfg.write_length) (hmbs : 2 ≤ cfg.merge_batch_size)
    (hchunk : ∀ f ∈ files, (chunking f).join = fileBody f)
    (hfun : PfxFunctional H cfg files) (hdinj : DupPfxInjective H cfg files)
    (hkeys : KeysNonempty cfg files) (hhash : HashSafe H cfg files)
    (hpsafe : PfxSafe cfg files) :
    fastReport H cfg files = safeReport H cfg files ∧
      safeReport H cfg files = diskReport H cfg files chunking := by
  obtain ⟨hp1, hn1⟩ := fastOutputData_perm_canonData H cfg files hwl hfun hdinj
  obtain ⟨hp2, hn2⟩ := safeOutputData_perm_canonData H cfg files hwl hfun hdinj
  obtain ⟨hp3, hn3⟩ := diskOutputData_perm_canonData H cfg files chunking hwl hmbs
    hchunk hfun hdinj hkeys hhash hpsafe
  constructor
  · unfold fastReport safeReport
    rw [write_duplicates_perm _ _ hp1 hn1, write_duplicates_perm _ _ hp2 hn2]
  · unfold safeReport diskReport
    rw [write_duplicates_perm _ _ hp2 hn2, write_duplicates_perm _ _ hp3 hn3]

def w1H : String → String := fun s => "h" ++ s

def w1Cfg : Config := ⟨5, 1, ';', 2, false⟩

def w1Files : List SrcFile :=
  [⟨"a.csv", 10, ["hdr", "dup;1", "solo;2"]⟩, ⟨"b.csv", 20, ["hdr", "dup;1", "x;9", "x;9"]⟩]

def w1Chunking : SrcFile → List (List String) := fun f => [fileBody f]

theorem claim_C1_amended_witness :
    (1 ≤ w1Cfg.write_length ∧ 2 ≤ w1Cfg.merge_batch_size ∧
      (∀ f ∈ w1Files, (w1Chunking f).join = fileBody f) ∧
      PfxFunctional w1H w1Cfg w1Files ∧ DupPfxInjective w1H w1Cfg w1Files ∧
      KeysNonempty w1Cfg w1Files ∧ HashSafe w1H w1Cfg w1Files ∧
      PfxSafe w1Cfg w1Files) ∧
    (fastReport w1H w1Cfg w1Files = safeReport w1H w1Cfg w1Files ∧
      safeReport w1H w1Cfg w1Files = diskReport w1H w1Cfg w1Files w1Chunking) :=
  ⟨⟨by decide, by decide, by decide,
    by unfold PfxFunctional; decide, by unfold DupPfxInjective; decide,
    by unfold KeysNonempty; decide, by unfold HashSafe; decide,
    by unfold PfxSafe; decide⟩,
   claim_C1_amended w1H w1Cfg w1Files w1Chunking (by decide) (by decide) (by decide)
     (by unfold PfxFunctional; decide) (by unfold DupPfxInjective; decide)
     (by unfold KeysNonempty; decide) (by unfold HashSafe; decide)
     (by unfold PfxSafe; decide)⟩

def c9H : String → String := fun s => s

def c9Cfg : Config := ⟨2, 1, ';', 2, false⟩

def c9Files : List SrcFile :=
  [⟨"a.csv", 10, ["hdr", "abX;1", "abY;2"]⟩,
   ⟨"b.csv", 20, ["hdr", "abX;1"]⟩,
   ⟨"c.csv", 30, ["hdr", "abY;2"]⟩]

/-- C9: the duplicates report is keyed by DisplayPrefix, so two distinct
duplicated NormalizedKeys ("abX" in a.csv+b.csv and "abY" in a.csv+c.csv,
with different Hash64 values) whose raw lines share their first
`write_length = 2` characters collapse into a single report entry: the global
map holds two duplicate groups, but `output_data` has one entry, keyed by the
shared prefix "ab", and its file list is the later-merged hash's
(["a.csv", "c.csv"]) — the earlier group's list ["a.csv", "b.csv"] is
silently lost. -/
theorem claim_C9 :
    keyOf c9Cfg "abX;1" ≠ keyOf c9Cfg "abY;2" ∧
    hashOf c9H c9Cfg "abX;1" ≠ hashOf c9H c9Cfg "abY;2" ∧
    pfxOf c9Cfg "abX;1" = pfxOf c9Cfg "abY;2" ∧
    (dupKeys c9H c9Cfg c9Files).length = 2 ∧
    fastOutputData c9H c9Cfg c9Files =
      [(pfxOf c9Cfg "abY;2", ["a.csv", "c.csv"])] :=
  ⟨by decide, by decide, by decide, by decide, by decide⟩

/-- The inter-file duplicate prefixes (line 322): report keys listing more
than one file. -/
def interPfxs (dd : List (String × List String)) : List String :=
  keysOf (dd.filter (fun e => e.2.length > 1))

/-- `hash_to_files` of `collect_duplicate_lines_for_deletion` (lines 330–356),
sets modelled by their insertion-ordered support; the dead `prefix_to_hash`
map is not modelled. -/
def collectHashFiles (H : String → String) (cfg : Config) (files : List SrcFile)
    (ip : List String) : List (String × List String) :=
  files.foldl
    (fun m f =>
      (scanLines (fileBody f)).foldl
        (fun m s =>
          if pfxOf cfg s ∈ ip then
            upsert m (hashOf H cfg s)
              (fun o =>
                let cur := o.getD []
                if f.name ∈ cur then cur else cur ++ [f.name])
          else m)
        m)
    []

/-- `collect_duplicate_lines_for_deletion` (lines 314–389):
hash ↦ basename ↦ the stripped lines to delete. -/
def collect_duplicate_lines_for_deletion (H : String → String) (cfg : Config)
    (files : List SrcFile) (dd : List (String × List String)) :
    List (String × List (String × List String)) :=
  let ip := interPfxs dd
  if ip = [] then []
  else
    let htf := collectHashFiles H cfg files ip
    let multi := (htf.filter (fun e => e.2.length > 1)).map (·.1)
    files.foldl
      (fun m f =>
        (scanLines (fileBody f)).foldl
          (fun m s =>
            if hashOf H cfg s ∈ multi then
              upsert m (hashOf H cfg s)
                (fun o => upsert (o.getD []) f.name (fun io => io.getD [] ++ [s]))
            else m)
          m)
      []

/-- `delete_rows_from_file` (lines 492–536) on the file model: keep the header,
drop every body line whose stripped form is in the removal set. -/
def delete_rows_from_file_pure (f : SrcFile) (rm : List String) : SrcFile :=
  match f.lines with
  | [] => f
  | hdr :: rest => ⟨f.name, f.size, hdr :: rest.filter (fun l => !(pyStrip l ∈ rm))⟩

/-- Step 1 of `delete_duplicate_rows` (lines 403–432): per hash, sort the
basenames, keep the first, delete the collected lines from every other file.
Files are addressed by basename (the run directory has distinct names). -/
def delete_duplicate_rows_inter (ltd : List (String × List (String × List String)))
    (fs : List SrcFile) : List SrcFile :=
  ltd.foldl
    (fun fs e =>
      match pySortedStr (keysOf e.2) with
      | [] => fs
      | _ :: delFiles =>
        delFiles.foldl
          (fun fs dn =>
            match dGet e.2 dn with
            | none => fs
            | some rm =>
              fs.map (fun f => if f.name = dn then delete_rows_from_file_pure f rm else f))
          fs)
    fs

/-- `find_and_delete_intrafile_duplicates` (lines 221–279) on the file model:
keep the header and, per hash, only the first occurrence; empty lines are
kept; returns the new file and the deleted-row count. -/
def find_and_delete_intrafile_pure (H : String → String) (cfg : Config)
    (f : SrcFile) : SrcFile × Nat :=
  match f.lines with
  | [] => (f, 0)
  | hdr :: rest =>
    let res := rest.foldl
      (fun (acc : List String × List String × Nat) line =>
        let stripped := pyStrip line
        if stripped == "" then (acc.1 ++ [line], acc.2.1, acc.2.2)
        else if hashOf H cfg stripped ∈ acc.2.1 then (acc.1, acc.2.1, acc.2.2 + 1)
        else (acc.1 ++ [line], acc.2.1 ++ [hashOf H cfg stripped], acc.2.2))
      ([], [], 0)
    (⟨f.name, f.size, hdr :: res.1⟩, res.2.2)

/-- The corpus state after a deletion-enabled run's steps 1 and 2
(`delete_duplicate_rows`, lines 403–440): inter-file deletion, then per-file
intra-file deletion. The stale `size` fields are irrelevant to re-scanning. -/
def deletedFiles (H : String → String) (cfg : Config) (files : List SrcFile)
    (dd : List (String × List String)) : List SrcFile :=
  let ltd := collect_duplicate_lines_for_deletion H cfg files dd
  let fsA := delete_duplicate_rows_inter ltd files
  fsA.map (fun f => (find_and_delete_intrafile_pure H cfg f).1)

theorem delete_rows_name (f : SrcFile) (rm : List String) :
    (delete_rows_from_file_pure f rm).name = f.name := by
  unfold delete_rows_from_file_pure
  cases f.lines with
  | nil => rfl
  | cons hdr rest => rfl

theorem inter_fold_spec (m : List (String × List String)) :
    ∀ (dns : List String), dns.Nodup → ∀ fs : List SrcFile,
    dns.foldl
      (fun fs dn =>
        match dGet m dn with
        | none => fs
        | some rm =>
          fs.map (fun f => if f.name = dn then delete_rows_from_file_pure f rm else f))
      fs =
    fs.map (fun f =>
      if f.name ∈ dns then
        match dGet m f.name with
        | none => f
        | some rm => delete_rows_from_file_pure f rm
      else f) := by
  intro dns
  induction dns with
  | nil =>
    intro _ fs
    show fs = fs.map (fun f => f)
    exact (List.map_id' fs).symm
  | cons dn dns ih =>
    intro hnd fs
    have hdnotin : dn ∉ dns := (List.nodup_cons.mp hnd).1
    rw [List.foldl_cons]
    cases hd : dGet m dn with
    | none =>
      rw [ih (List.nodup_cons.mp hnd).2 fs]
      apply congrArg (fun g => List.map g fs)
      funext f
      by_cases hf : f.name = dn
      · have hfd : f.name ∉ dns := hf ▸ hdnotin
        rw [if_neg hfd, if_pos (by rw [hf]; exact List.mem_cons_self _ _)]
        rw [hf, hd]
      · by_cases hfm : f.name ∈ dns
        · rw [if_pos hfm, if_pos (List.mem_cons_of_mem _ hfm)]
        · rw [if_neg hfm, if_neg (by
            intro hcontra
            rcases List.mem_cons.mp hcontra with hc | hc
            · exact hf hc
            · exact hfm hc)]
    | some rm =>
      rw [ih (List.nodup_cons.mp hnd).2]
      rw [List.map_map]
      apply congrArg (fun g => List.map g fs)
      funext f
      show (if ((if f.name = dn then delete_rows_from_file_pure f rm else f)).name ∈ dns then
          match dGet m ((if f.name = dn then delete_rows_from_file_pure f rm else f)).name with
          | none => (if f.name = dn then delete_rows_from_file_pure f rm else f)
          | some rm2 => delete_rows_from_file_pure
              (if f.name = dn then delete_rows_from_file_pure f rm else f) rm2
        else (if f.name = dn then delete_rows_from_file_pure f rm else f)) = _
      by_cases hf : f.name = dn
      · rw [if_pos hf]
        have hname : (delete_rows_from_file_pure f rm).name = f.name := delete_rows_name f rm
        rw [hname]
        have hfd : f.name ∉ dns := hf ▸ hdnotin
        rw [if_neg hfd, if_pos (by rw [hf]; exact List.mem_cons_self _ _)]
        rw [hf, hd]
      · rw [if_neg hf]
        by_cases hfm : f.name ∈ dns
        · rw [if_pos hfm, if_pos (List.mem_cons_of_mem _ hfm)]
        · rw [if_neg hfm, if_neg (by
            intro hcontra
            rcases List.mem_cons.mp hcontra with hc | hc
            · exact hf hc
            · exact hfm hc)]

/-- C3 (amended): for one collected hash, step 1 of `delete_duplicate_rows`
keeps the file whose BASENAME is lexicographically smallest among the files
containing the hash (`sorted(file_lines_map.keys())[0]`, line 412) — not the
file with the smallest FileId — and from every other listed file removes
exactly the body lines whose stripped content was collected for that hash. -/
theorem claim_C3_amended (h : String) (m : List (String × List String))
    (fs : List SrcFile) (hnd : (keysOf m).Nodup) :
    delete_duplicate_rows_inter [(h, m)] fs =
      fs.map (fun f =>
        if f.name = (pySortedStr (keysOf m)).headD "" then f
        else
          match dGet m f.name with
          | none => f
          | some rm => delete_rows_from_file_pure f rm) := by
  show (match pySortedStr (keysOf m) with
    | [] => fs
    | _ :: delFiles =>
      delFiles.foldl
        (fun (fs : List SrcFile) (dn : String) =>
          match dGet m dn with
          | none => fs
          | some rm =>
            fs.map (fun (f : SrcFile) =>
              if f.name = dn then delete_rows_from_file_pure f rm else f))
        fs) = _
  have hsortnd : (pySortedStr (keysOf m)).Nodup :=
    ((pySortedStr_perm (keysOf m)).nodup_iff).mpr hnd
  cases hs : pySortedStr (keysOf m) with
  | nil =>
    have hknil : keysOf m = [] := by
      have hperm := pySortedStr_perm (keysOf m)
      rw [hs] at hperm
      exact (List.Perm.nil_eq hperm).symm
    have hmnil : m = [] := by
      cases m with
      | nil => rfl
      | cons e r => simp [keysOf] at hknil
    subst hmnil
    show fs = fs.map _
    have hfe : (fun f : SrcFile =>
        if f.name = ([] : List String).headD "" then f
        else
          match dGet ([] : List (String × List String)) f.name with
          | none => f
          | some rm => delete_rows_from_file_pure f rm) = fun f => f := by
      funext f
      by_cases hf : f.name = ([] : List String).headD ""
      · rw [if_pos hf]
      · rw [if_neg hf]
        rfl
    rw [hfe]
    exact (List.map_id' fs).symm
  | cons keep delFiles =>
    rw [hs] at hsortnd
    show delFiles.foldl
        (fun (fs : List SrcFile) (dn : String) =>
          match dGet m dn with
          | none => fs
          | some rm =>
            fs.map (fun (f : SrcFile) =>
              if f.name = dn then delete_rows_from_file_pure f rm else f))
        fs = _
    rw [inter_fold_spec m delFiles (List.nodup_cons.mp hsortnd).2 fs]
    apply congrArg (fun g => List.map g fs)
    funext f
    have hkeepnotin : keep ∉ delFiles := (List.nodup_cons.mp hsortnd).1
    show _ = (if f.name = keep then f else
      match dGet m f.name with
      | none => f
      | some rm => delete_rows_from_file_pure f rm)
    by_cases hfk : f.name = keep
    · rw [if_pos hfk, if_neg (fun hc => hkeepnotin (hfk ▸ hc))]
    · rw [if_neg hfk]
      by_cases hfm : f.name ∈ delFiles
      · rw [if_pos hfm]
      · rw [if_neg hfm]
        have hnotk : f.name ∉ keysOf m := by
          intro hmem
          have hmem2 : f.name ∈ pySortedStr (keysOf m) :=
            (pySortedStr_perm (keysOf m)).mem_iff.mpr hmem
          rw [hs] at hmem2
          rcases List.mem_cons.mp hmem2 with hc | hc
          · exact hfk hc
          · exact hfm hc
        rw [(dlookup_eq_none_iff_not_mem m f.name).mpr hnotk]

def c3H : String → String := fun s => s

def c3Cfg : Config := ⟨5, 1, ';', 2, true⟩

def c3Files : List SrcFile :=
  [⟨"z.csv", 10, ["hdr", "d;1"]⟩, ⟨"a.csv", 20, ["hdr", "d;1"]⟩]

/-- Claim C3 is wrong as stated: the hash of "d;1" occurs in both files of the
corpus, the smallest FileId (0 — the smallest file by byte size) belongs to
"z.csv", yet the deletion pipeline keeps the occurrence in "a.csv" (the
lexicographically smallest basename, `sorted(file_lines_map.keys())[0]`,
line 412) and deletes the line from "z.csv" — not the other way round as the
claim's "keeps the occurrences in the file with the smallest FileId" demands. -/
theorem claim_C3_counterexample :
    1 < (countsFrom c3H c3Cfg 0 c3Files (hashOf c3H c3Cfg "d;1")).length ∧
    idToName c3Files 0 = "z.csv" ∧
    deletedFiles c3H c3Cfg c3Files (fastOutputData c3H c3Cfg c3Files) =
      [⟨"z.csv", 10, ["hdr"]⟩, ⟨"a.csv", 20, ["hdr", "d;1"]⟩] := by
  decide

def w3m : List (String × List String) := [("a.csv", ["d;1"]), ("z.csv", ["d;1"])]

def w3fs : List SrcFile :=
  [⟨"z.csv", 10, ["hdr", "d;1"]⟩, ⟨"a.csv", 20, ["hdr", "d;1"]⟩]

/-- Witness for C3 (amended): on a concrete two-file deletion map the keep
file is "a.csv", the lexicographically smallest basename. -/
theorem claim_C3_amended_witness :
    (keysOf w3m).Nodup ∧
    delete_duplicate_rows_inter [("h", w3m)] w3fs =
      w3fs.map (fun f =>
        if f.name = (pySortedStr (keysOf w3m)).headD "" then f
        else
          match dGet w3m f.name with
          | none => f
          | some rm => delete_rows_from_file_pure f rm) :=
  ⟨by decide, claim_C3_amended "h" w3m w3fs (by decide)⟩

def c2H : String → String := fun s => s

def c2Cfg : Config := ⟨1, 1, ';', 2, true⟩

def c2Files : List SrcFile :=
  [⟨"a.csv", 10, ["hdr", "pA;1"]⟩, ⟨"b.csv", 20, ["hdr", "pA;1"]⟩,
   ⟨"c.csv", 30, ["hdr", "pB;2", "pB;2"]⟩]

/-- Claim C2 exhibits a code bug: with deletion enabled a second run on the
deleted corpus can still find duplicates. The output dict is keyed by
DisplayPrefix; here (write_length 1) the intra-file entry for "pB;2" in
"c.csv" (prefix "p") overwrites the inter-file entry for "pA;1" shared by
"a.csv" and "b.csv" (same prefix "p"), so the surviving entry lists a single
file, `collect_duplicate_lines_for_deletion` finds no multi-file prefix, no
inter-file deletion happens, and re-running on the deleted corpus still
reports the cross-file duplicate instead of the claimed "no duplicates". -/
theorem claim_C2 :
    c2Cfg.deleteduplicates = true ∧
    fastOutputData c2H c2Cfg
        (deletedFiles c2H c2Cfg c2Files (fastOutputData c2H c2Cfg c2Files)) =
      [("p", ["a.csv", "b.csv"])] ∧
    fastReport c2H c2Cfg
        (deletedFiles c2H c2Cfg c2Files (fastOutputData c2H c2Cfg c2Files)) ≠
      write_duplicates [] := by
  decide
